import Mathlib

/-!
# robot-gitlab-review: merge-request governance

A shallow embedding of `merge.go`, `lgtm.go` and `permission.go`, and theorems about
the label gates, the permission resolver and the lgtm commands.

Conventions of the embedding.

* A Go `string` is a Lean `String`. `len` and slicing count bytes in Go and code points
  here; the two agree on ASCII text, which is what the platform admits for user names
  and what every constant of the program is made of.
* A `sets.String` is a duplicate-free `List String`. Go ranges over a map in an
  unspecified order; the embedding ranges in order of first insertion, and the theorems
  speak of membership and counts only wherever the order is not fixed by the code.
* The platform client `iClient` is an interface whose implementation is outside the
  repository: it is a record of state transformers over an arbitrary state `σ`, so that
  two calls of one operation may answer differently. Every call is recorded in a trace.
* A Go result `(v, err)` whose `v` is ignored by every caller when `err != nil` is an
  `Except Err v`; where the source returns a meaningful pair it is a pair here.
* Library functions whose code is outside the repository (`filepath.Dir`,
  `strings.ToLower`, base64 and YAML decoding, regular-expression matching) and the
  declarations of `config.go`, which is not among the sources, are fields of `Lib`.
-/

namespace Review

/-! ## Strings -/

namespace strings

/-- Go `strings.HasPrefix(s, prefix)`. -/
def HasPrefix (s pre : String) : Bool := pre.data.isPrefixOf s.data

/-- Substring test on character lists. -/
def containsChars : List Char → List Char → Bool
  | [], sub => sub.isEmpty
  | c :: rest, sub => sub.isPrefixOf (c :: rest) || containsChars rest sub

/-- Go `strings.Contains(s, substr)`. -/
def Contains (s substr : String) : Bool := containsChars s.data substr.data

/-- Go `strings.Count(s, "/")`: the number of slashes of `s`. -/
def CountSlash (s : String) : Nat := s.data.count '/'

/-- Go `strings.Join(elems, sep)`. -/
def Join : List String → String → String
  | [], _ => ""
  | [a], _ => a
  | a :: b :: rest, sep => a ++ sep ++ Join (b :: rest) sep

end strings

/-! ## `sets.String` -/

namespace sets

/-- Membership test `s.Has(x)`. -/
def Has (s : List String) (x : String) : Bool := decide (x ∈ s)

/-- Insertion of one key `s.Insert(x)`. -/
def Insert1 (s : List String) (x : String) : List String :=
  if x ∈ s then s else s ++ [x]

/-- Variadic `s.Insert(xs...)`. -/
def Insert (s : List String) (xs : List String) : List String := xs.foldl Insert1 s

/-- Constructor `sets.NewString(xs...)`. -/
def NewString (xs : List String) : List String := Insert [] xs

/-- Keys of `a` that are not in `b`: `a.Difference(b)`. -/
def Difference (a b : List String) : List String := a.filter (fun x => !Has b x)

/-- Keys of `a` that are in `b`: `a.Intersection(b)`. -/
def Intersection (a b : List String) : List String := a.filter (fun x => Has b x)

/-- Removal of one key `s.Delete(x)`. -/
def Delete (s : List String) (x : String) : List String := s.filter (fun y => y != x)

end sets

/-! ## Constants of `merge.go`, `lgtm.go`, `approve.go` -/

def msgPRConflicts : String := "PR conflicts to the target branch."
def legalLabelsAddedBy : String := "wanghao"
def canMergeStatus : String := "can_be_merged"
def ActionAddLabel : String := "add"
def labelLenLimit : Nat := 20
def lgtmLabel : String := "lgtm"
def approvedLabel : String := "approved"
def commentAddLGTMBySelf : String :=
  "***lgtm*** can not be added in your self-own pull request. :astonished:"

/-- Text of `fmt.Sprintf(msgMissingLabels, strings.Join(v, ", "))`. -/
def msgMissingLabels (v : List String) : String :=
  "PR does not have these lables: " ++ strings.Join v ", "

/-- Text of `fmt.Sprintf(msgInvalidLabels, strings.Join(v, ", "))`. -/
def msgInvalidLabels (v : List String) : String :=
  "PR should remove these labels: " ++ strings.Join v ", "

/-- Text of `fmt.Sprintf(msgNotEnoughLGTMLabel, ln, n)`. -/
def msgNotEnoughLGTMLabel (ln n : Nat) : String :=
  "PR needs " ++ toString ln ++ " lgtm labels and now gets " ++ toString n

/-- Text of `fmt.Sprintf(msgFrozenWithOwner, strings.Join(owner, ", "))`. -/
def msgFrozenWithOwner (owner : List String) : String :=
  "The target branch of PR has been frozen and it can be merge only by branch owners: "
    ++ strings.Join owner ", "

/-- Text of `fmt.Sprintf(commentNoPermissionForLgtmLabel, commenter)`. -/
def commentNoPermissionForLgtmLabel (commenter : String) : String :=
  "Thanks for your review, ***" ++ commenter
    ++ "***, your opinion is very important to us.:wave:\nThe maintainers will consider your advice carefully."

/-- Text of `fmt.Sprintf(commentNoPermissionForLabel, commenter, action, label)`. -/
def commentNoPermissionForLabel (commenter action label : String) : String :=
  "\n***@" ++ commenter ++ "*** has no permission to " ++ action ++ " ***" ++ label
    ++ "*** label in this pull request. :astonished:\nPlease contact to the collaborators in this repository."

/-- Text of `fmt.Sprintf(commentAddLabel, label, commenter)`. -/
def commentAddLabel (label commenter : String) : String :=
  "***" ++ label ++ "*** was added to this pull request by: ***" ++ commenter
    ++ "***. :wave: \n**NOTE:** If this pull request is not merged while all conditions are met, comment \"/check-pr\" to try again. :smile: "

/-- Text of `fmt.Sprintf(commentRemovedLabel, label, commenter)`. -/
def commentRemovedLabel (label commenter : String) : String :=
  "***" ++ label ++ "*** was removed in this pull request by: ***" ++ commenter ++ "***. :flushed: "

/-! ## Platform data (`go-gitlab`), the fields the program reads -/

/-- A `gitlab.LabelEvent`: `Action`, `Label.Name`, `User.Username`, `CreatedAt`. -/
structure LabelEvent where
  Action : String
  LabelName : String
  Username : String
  CreatedAt : Nat
  deriving DecidableEq, Repr

/-- A `gitlab.Note`: `Body`, `Author.Username`, and the renderings `CreatedAt.String()`
and `UpdatedAt.String()` of its two timestamps, which is all the program reads of them. -/
structure Note where
  Body : String
  AuthorUsername : String
  CreatedAt : String
  UpdatedAt : String
  deriving DecidableEq, Repr

/-- A `gitlab.MergeRequest`: `MergeStatus`, `Labels`, `TargetBranch`, `Author.Username`. -/
structure MergeRequest where
  MergeStatus : String
  Labels : List String
  TargetBranch : String
  AuthorUsername : String
  deriving DecidableEq, Repr

/-! ## The label gates of `merge.go` -/

/-- The `labelLog` record. -/
structure labelLog where
  label : String
  who : String
  t : Nat
  deriving DecidableEq, Repr

/-- The loop of `getLatestLog`: `i` is the position of the head of the list, `index` and
`t` are the loop variables of the source. -/
def getLatestLogLoop (label : String) : List LabelEvent → Nat → Int → Nat → Int × Nat
  | [], _, index, t => (index, t)
  | op :: rest, i, index, t =>
    if op.Action != ActionAddLabel || !strings.Contains op.LabelName label then
      getLatestLogLoop label rest (i + 1) index t
    else if index < 0 || op.CreatedAt > t then
      getLatestLogLoop label rest (i + 1) (Int.ofNat i) op.CreatedAt
    else
      getLatestLogLoop label rest (i + 1) index t

/-- The function `getLatestLog(ops, label, log)`. -/
def getLatestLog (ops : List LabelEvent) (label : String) : labelLog × Bool :=
  let r := getLatestLogLoop label ops 0 (-1) 0
  if r.1 ≥ 0 then
    match ops.get? r.1.toNat with
    | some op =>
      if op.Username != "" then (⟨label, op.Username, r.2⟩, true) else (⟨"", "", 0⟩, false)
    | none => (⟨"", "", 0⟩, false)
  else (⟨"", "", 0⟩, false)

/-- The closure `f` of `checkLabelsLegal`. -/
def checkLabelsLegalF (ops : List LabelEvent) (label : String) : String :=
  let r := getLatestLog ops label
  if !r.2 then
    "The corresponding operation log is missing. you should delete the label and add it again by correct way"
  else if r.1.who != legalLabelsAddedBy then
    if strings.HasPrefix r.1.label "openeuler-cla/" then
      r.1.who ++ " You can't add " ++ r.1.label
        ++ " by yourself, please remove it and use /check-cla to add it"
    else
      r.1.who ++ " You can't add " ++ r.1.label ++ " by yourself, please contact the maintainers"
  else ""

/-- The slice `v` that the loop of `checkLabelsLegal` builds: one entry `label: reason`
for every label of the request that is needed or of the lgtm family and whose latest
log is not clean. -/
def checkLabelsLegalEntries (labels needs : List String) (ops : List LabelEvent) :
    List String :=
  labels.filterMap (fun label =>
    if sets.Has needs label || strings.HasPrefix label lgtmLabel then
      let s := checkLabelsLegalF ops label
      if s != "" then some (label ++ ": " ++ s) else none
    else none)

/-- The function `checkLabelsLegal(labels, needs, ops, log)`. -/
def checkLabelsLegal (labels needs : List String) (ops : List LabelEvent) : String :=
  let v := checkLabelsLegalEntries labels needs ops
  let n := v.length
  if n > 0 then
    let s := if n > 1 then "labels are" else "label is"
    "**The following " ++ s ++ " not ready**.\n\n" ++ strings.Join v "\n\n"
  else ""

/-- The function `getLGTMLabelsOnPR(labels)` of `lgtm.go`. -/
def getLGTMLabelsOnPR (labels : List String) : List String :=
  labels.filter (fun l => strings.HasPrefix l lgtmLabel)

/-- A `freezeFile` of the configuration: the location of one freeze declaration. The
declaration is in `config.go`, which is not among the sources; these are the fields
`getFreezeContent` reads. -/
structure freezeFile where
  Owner : String
  Repo : String
  Path : String
  Branch : String
  deriving DecidableEq, Repr

/-- The fields of `botConfig` that the program reads. The declaration is in `config.go`,
which is not among the sources. `regSigDir` is the compiled pattern, as its
`MatchString`. -/
structure botConfig where
  LabelsForMerge : List String
  MissingLabelsForMerge : List String
  LgtmCountsRequired : Nat
  FreezeFile : List freezeFile
  CheckPermissionBasedOnSigOwners : Bool
  regSigDir : String → Bool
  SigsDir : String

/-- The set `needs` of `isLabelMatched`. -/
def neededLabels (cfg : botConfig) : List String :=
  let needs := sets.Insert (sets.NewString [approvedLabel]) cfg.LabelsForMerge
  if cfg.LgtmCountsRequired == 1 then sets.Insert needs [lgtmLabel] else needs

/-- First step of `isLabelMatched`: the lgtm-count reason. -/
def lgtmCountReasons (labels : List String) (cfg : botConfig) : List String :=
  let ln := cfg.LgtmCountsRequired
  if ln == 1 then []
  else
    let n := (getLGTMLabelsOnPR labels).length
    if n < ln then [msgNotEnoughLGTMLabel ln n ++ "\n"] else []

/-- Second step of `isLabelMatched`: the reason of `checkLabelsLegal`. -/
def legalReasons (labels : List String) (cfg : botConfig) (ops : List LabelEvent) :
    List String :=
  let s := checkLabelsLegal labels (neededLabels cfg) ops
  if s != "" then [s ++ "\n"] else []

/-- Third step of `isLabelMatched`: the missing-labels reason. -/
def missingReasons (labels : List String) (cfg : botConfig) : List String :=
  let v := sets.Difference (neededLabels cfg) labels
  if v.length > 0 then [msgMissingLabels v] else []

/-- Fourth step of `isLabelMatched`: the reason for labels that must be absent. -/
def invalidReasons (labels : List String) (cfg : botConfig) : List String :=
  if cfg.MissingLabelsForMerge.length > 0 then
    let missing := sets.NewString cfg.MissingLabelsForMerge
    let v := sets.Intersection missing labels
    if v.length > 0 then [msgInvalidLabels v] else []
  else []

/-- The function `isLabelMatched(labels, cfg, ops, log)`: the four appends to `reasons`,
in the order of the source. -/
def isLabelMatched (labels : List String) (cfg : botConfig) (ops : List LabelEvent) :
    List String :=
  lgtmCountReasons labels cfg ++ legalReasons labels cfg ops
    ++ missingReasons labels cfg ++ invalidReasons labels cfg

/-! ## The platform client and the library -/

/-- A Go `error`, by its message. -/
abbrev Err := String

/-- An error returned by a call, or a nil-pointer dereference, which unwinds the handler. -/
inductive Fault where
  | err (e : Err)
  | nilDeref
  deriving DecidableEq, Repr

/-- A `gitlab.UpdateMergeRequestOptions`: the three pointer fields `merge` sets. -/
structure UpdateMergeRequestOptions where
  Description : Option String
  AssigneeIDs : Option (List Int)
  ReviewerIDs : Option (List Int)
  deriving DecidableEq, Repr

/-- A `gitlab.ListTreeOptions`: `Path`, `Ref`, `Recursive`. -/
structure ListTreeOptions where
  Path : String
  Ref : String
  Recursive : Bool
  deriving DecidableEq, Repr

/-- A `gitlab.File`: `Content`. -/
structure File where
  Content : String
  deriving DecidableEq, Repr

/-- A `gitlab.TreeNode`: `Path`. -/
structure TreeNode where
  Path : String
  deriving DecidableEq, Repr

/-- A `gitlab.Group`: `Name`, `ID`. -/
structure Group where
  Name : String
  ID : Int
  deriving DecidableEq, Repr

/-- A `gitlab.Project`: `Name`, `ID`. -/
structure Project where
  Name : String
  ID : Int
  deriving DecidableEq, Repr

/-- A `gitlab.Label`: `Name`. -/
structure Label where
  Name : String
  deriving DecidableEq, Repr

/-- A `gitlab.MergeCommentEvent`, by the fields the handlers read and the values of the
accessors of `gitlabclient` (`GetMRCommentAuthor`, `GetMRCommentAuthorID`,
`GetMRCommentBody`, `GetMRCommentOrgAndRepo`). -/
structure MergeCommentEvent where
  ProjectID : Int
  ObjectKind : String
  MergeRequestIID : Int
  MergeRequestAuthorID : Int
  MergeRequestState : String
  CommentAuthor : String
  CommentAuthorID : Int
  CommentBody : String
  Org : String
  Repo : String
  deriving DecidableEq, Repr

/-- One call of a method of `iClient`, with its arguments. -/
inductive Call where
  | GetMergeRequestLabels (projectID mrID : Int)
  | CreateMergeRequestComment (projectID mrID : Int) (comment : String)
  | RemoveMergeRequestLabel (projectID mrID : Int) (labels : List String)
  | GetProjectLabels (projectID : Int)
  | CreateProjectLabel (pid : Int) (label color : String)
  | AddMergeRequestLabel (projectID mrID : Int) (labels : List String)
  | GetUserPermissionOfProject (projectID userID : Int)
  | GetMergeRequestChanges (projectID mrID : Int)
  | MergeMergeRequest (projectID mrID : Int)
  | ListMergeRequestComments (projectID mrID : Int)
  | GetMergeRequestLabelChanges (projectID mrID : Int)
  | GetMergeRequest (projectID mrID : Int)
  | UpdateMergeRequest (projectID mrID : Int) (options : UpdateMergeRequestOptions)
  | GetPathContent (projectID : Int) (file branch : String)
  | GetDirectoryTree (projectID : Int) (opts : ListTreeOptions)
  | GetGroups
  | GetProjects (gid : Int)
  deriving DecidableEq, Repr

/-- A recorded call and whether it returned an error. -/
structure Ev where
  call : Call
  failed : Bool
  deriving DecidableEq, Repr

/-- The platform behind the client, in state `st`, and the calls made so far. -/
structure World (σ : Type) where
  st : σ
  trace : List Ev

/-- The interface `iClient` of `robot.go`: each method answers from the state of the
platform and may change it. -/
structure iClient (σ : Type) where
  GetMergeRequestLabels : Int → Int → σ → Except Err (List String) × σ
  CreateMergeRequestComment : Int → Int → String → σ → Except Err Unit × σ
  RemoveMergeRequestLabel : Int → Int → List String → σ → Except Err Unit × σ
  GetProjectLabels : Int → σ → Except Err (List Label) × σ
  CreateProjectLabel : Int → String → String → σ → Except Err Unit × σ
  AddMergeRequestLabel : Int → Int → List String → σ → Except Err Unit × σ
  GetUserPermissionOfProject : Int → Int → σ → Except Err Bool × σ
  GetMergeRequestChanges : Int → Int → σ → Except Err (List String) × σ
  MergeMergeRequest : Int → Int → σ → Except Err Unit × σ
  ListMergeRequestComments : Int → Int → σ → Except Err (List Note) × σ
  GetMergeRequestLabelChanges : Int → Int → σ → Except Err (List LabelEvent) × σ
  GetMergeRequest : Int → Int → σ → Except Err MergeRequest × σ
  UpdateMergeRequest : Int → Int → UpdateMergeRequestOptions → σ → Except Err MergeRequest × σ
  GetPathContent : Int → String → String → σ → Except Err (Option File) × σ
  GetDirectoryTree : Int → ListTreeOptions → σ → Except Err (List TreeNode) × σ
  GetGroups : σ → Except Err (List Group) × σ
  GetProjects : Int → σ → Except Err (List Project) × σ

/-- Whether a result is an error. -/
def isError {α : Type} : Except Err α → Bool
  | .error _ => true
  | .ok _ => false

/-- Performs one call of the client: the platform answers and moves on, the call is
appended to the trace. -/
def invoke {σ α : Type} (c : Call) (op : σ → Except Err α × σ) (w : World σ) :
    Except Err α × World σ :=
  ((op w.st).1, ⟨(op w.st).2, w.trace ++ [⟨c, isError (op w.st).1⟩]⟩)

/-- The YAML document of an OWNERS file, as `decodeOwnerFile` declares it. -/
structure OwnersYaml where
  Maintainers : List String
  Committers : List String
  deriving DecidableEq, Repr

/-- The `Maintainer` record of `sig_info.go`. -/
structure Maintainer where
  GiteeID : String
  Name : String
  Organization : String
  Email : String
  deriving DecidableEq, Repr

/-- The `SigInfos` record of `sig_info.go`, by the field `decodeSigInfoFile` reads. -/
structure SigInfos where
  Maintainers : List Maintainer
  deriving DecidableEq, Repr

/-- What the program uses and the sources do not contain: library functions, and the
freeze declarations of `config.go` (`freezeContent`, `freezeItem` and their methods). -/
structure Lib where
  /-- Go `filepath.Dir`. -/
  Dir : String → String
  /-- Go `strings.ToLower`. -/
  ToLower : String → String
  /-- Go `base64.StdEncoding.DecodeString`. -/
  base64Decode : String → Except Err String
  /-- Go `yaml.Unmarshal` into the document of an OWNERS file. -/
  unmarshalOwners : String → Except Err OwnersYaml
  /-- Go `yaml.Unmarshal` into a `SigInfos`. -/
  unmarshalSigInfos : String → Except Err SigInfos
  /-- The type `freezeContent`. -/
  freezeContent : Type
  /-- The type `freezeItem`. -/
  freezeItem : Type
  /-- The zero value of `freezeContent`. -/
  zeroFreezeContent : freezeContent
  /-- Go `yaml.Unmarshal` into a `freezeContent`. -/
  unmarshalFreeze : String → Except Err freezeContent
  /-- The method `freezeContent.getFreezeItem(org, branch)`; `none` is the nil pointer. -/
  getFreezeItem : freezeContent → String → String → Option freezeItem
  /-- The method `freezeItem.isFrozen()`. -/
  isFrozen : freezeItem → Bool
  /-- The method `freezeItem.isOwner(owner)`. -/
  isOwner : freezeItem → String → Bool
  /-- The field `freezeItem.Owner`. -/
  Owner : freezeItem → List String
  /-- The pattern `regAddLgtm`, as its `MatchString`. -/
  regAddLgtm : String → Bool
  /-- The pattern `regAddApprove`, as its `MatchString`. -/
  regAddApprove : String → Bool

/-! ## `merge.go`: the merge helper -/

/-- The `mergeHelper` record, without its client. -/
structure mergeHelper where
  mr : MergeRequest
  cfg : botConfig
  pid : Int
  mrID : Int
  org : String
  author : String
  trigger : String

section
variable {σ : Type}

/-- The method `mergeHelper.getFreezeProjectID(org, repo)`. -/
def mergeHelper.getFreezeProjectID (cli : iClient σ) (org repo : String) (w : World σ) :
    Except Err Int × World σ :=
  match invoke Call.GetGroups cli.GetGroups w with
  | (.error err, w1) => (.error err, w1)
  | (.ok grps, w1) =>
    if grps.length == 0 then (.ok 0, w1)
    else
      let gid := grps.foldl (fun gid g => if g.Name == org then g.ID else gid) 0
      match invoke (Call.GetProjects gid) (cli.GetProjects gid) w1 with
      | (.error err, w2) => (.error err, w2)
      | (.ok prjs, w2) =>
        if prjs.length == 0 then (.ok 0, w2)
        else (.ok (prjs.foldl (fun pid p => if p.Name == repo then p.ID else pid) 0), w2)

/-- The method `mergeHelper.getFreezeContent(f)`. A nil file returned without an error
is dereferenced by the source. -/
def mergeHelper.getFreezeContent (L : Lib) (cli : iClient σ) (f : freezeFile) (w : World σ) :
    Except Fault L.freezeContent × World σ :=
  match mergeHelper.getFreezeProjectID cli f.Owner f.Repo w with
  | (.error err, w1) => (.error (Fault.err err), w1)
  | (.ok pid, w1) =>
    if pid == 0 then (.ok L.zeroFreezeContent, w1)
    else
      match invoke (Call.GetPathContent pid f.Path f.Branch)
          (cli.GetPathContent pid f.Path f.Branch) w1 with
      | (.error err, w2) => (.error (Fault.err err), w2)
      | (.ok none, w2) => (.error Fault.nilDeref, w2)
      | (.ok (some c), w2) =>
        match L.base64Decode c.Content with
        | .error err => (.error (Fault.err err), w2)
        | .ok b =>
          match L.unmarshalFreeze b with
          | .error err => (.error (Fault.err err), w2)
          | .ok fc => (.ok fc, w2)

/-- The loop of `mergeHelper.getFreezeInfo`, over `m.cfg.FreezeFile`. -/
def mergeHelper.getFreezeInfoLoop (L : Lib) (cli : iClient σ) (m : mergeHelper) :
    List freezeFile → World σ → Except Fault (Option L.freezeItem) × World σ
  | [], w => (.ok none, w)
  | v :: rest, w =>
    match mergeHelper.getFreezeContent L cli v w with
    | (.error err, w1) => (.error err, w1)
    | (.ok fc, w1) =>
      match L.getFreezeItem fc m.org m.mr.TargetBranch with
      | some item => (.ok (some item), w1)
      | none => mergeHelper.getFreezeInfoLoop L cli m rest w1

/-- The method `mergeHelper.getFreezeInfo(log)`. -/
def mergeHelper.getFreezeInfo (L : Lib) (cli : iClient σ) (m : mergeHelper) (w : World σ) :
    Except Fault (Option L.freezeItem) × World σ :=
  mergeHelper.getFreezeInfoLoop L cli m m.cfg.FreezeFile w

/-- The method `mergeHelper.getMRLabels()`. -/
def mergeHelper.getMRLabels (cli : iClient σ) (m : mergeHelper) (w : World σ) :
    List String × World σ :=
  if m.trigger == "" then (sets.NewString m.mr.Labels, w)
  else
    match invoke (Call.GetMergeRequestLabels m.pid m.mrID)
        (cli.GetMergeRequestLabels m.pid m.mrID) w with
    | (.error _, w1) => (sets.NewString m.mr.Labels, w1)
    | (.ok mrLabels, w1) => (sets.NewString mrLabels, w1)

/-- The method `mergeHelper.canMerge(log)`: the reasons and `ok`; `none` when the
evaluation ends in a nil-pointer dereference and returns nothing. -/
def mergeHelper.canMerge (L : Lib) (cli : iClient σ) (m : mergeHelper) (w : World σ) :
    Option (List String × Bool) × World σ :=
  if m.mr.MergeStatus != canMergeStatus then (some ([msgPRConflicts], false), w)
  else
    match invoke (Call.GetMergeRequestLabelChanges m.pid m.mrID)
        (cli.GetMergeRequestLabelChanges m.pid m.mrID) w with
    | (.error _, w1) => (some ([], false), w1)
    | (.ok ops, w1) =>
      match mergeHelper.getMRLabels cli m w1 with
      | (labels, w2) =>
        if (isLabelMatched labels m.cfg ops).length > 0 then
          (some (isLabelMatched labels m.cfg ops, false), w2)
        else
          match mergeHelper.getFreezeInfo L cli m w2 with
          | (.error (Fault.err _), w3) => (some ([], false), w3)
          | (.error Fault.nilDeref, w3) => (none, w3)
          | (.ok none, w3) => (some ([], true), w3)
          | (.ok (some freeze), w3) =>
            if !L.isFrozen freeze then (some ([], true), w3)
            else if m.trigger == "" then (some ([], false), w3)
            else if L.isOwner freeze m.trigger then (some ([], true), w3)
            else (some ([msgFrozenWithOwner (L.Owner freeze)], false), w3)

/-- The closure `f` of `genMergeDesc`. The two timestamps are compared by their
renderings `String()`, which is what a `Note` holds here. -/
def genMergeDescF (author : String) (comment : Note) (reg : String → Bool) : Bool :=
  reg comment.Body && comment.UpdatedAt == comment.CreatedAt
    && comment.AuthorUsername != author

/-- The method `mergeHelper.genMergeDesc()`. -/
def mergeHelper.genMergeDesc (L : Lib) (cli : iClient σ) (m : mergeHelper) (w : World σ) :
    String × World σ :=
  match invoke (Call.ListMergeRequestComments m.pid m.mrID)
      (cli.ListMergeRequestComments m.pid m.mrID) w with
  | (.error _, w1) => ("", w1)
  | (.ok comments, w1) =>
    if comments.length == 0 then ("", w1)
    else
      let reviewers := comments.foldl (fun s c =>
        if genMergeDescF m.author c L.regAddLgtm then sets.Insert1 s c.AuthorUsername else s) []
      let signers := comments.foldl (fun s c =>
        if genMergeDescF m.author c L.regAddApprove then sets.Insert1 s c.AuthorUsername else s) []
      if signers.length == 0 && reviewers.length == 0 then ("", w1)
      else
        ("From: @" ++ m.author ++ " \nReviewed-by: @" ++ strings.Join reviewers ", @"
          ++ " \nSigned-off-by: @" ++ strings.Join signers ", @" ++ " \n", w1)

/-- The method `mergeHelper.merge()`. -/
def mergeHelper.merge (L : Lib) (cli : iClient σ) (m : mergeHelper) (w : World σ) :
    Except Err Unit × World σ :=
  match mergeHelper.genMergeDesc L cli m w with
  | (desc, w1) =>
    match invoke (Call.UpdateMergeRequest m.pid m.mrID ⟨some desc, some [], some []⟩)
        (cli.UpdateMergeRequest m.pid m.mrID ⟨some desc, some [], some []⟩) w1 with
    | (.error err, w2) => (.error err, w2)
    | (.ok _, w2) =>
      invoke (Call.MergeMergeRequest m.pid m.mrID) (cli.MergeMergeRequest m.pid m.mrID) w2

/-- The `mergeHelper` that `tryMerge` builds from the event, the configuration and the
merge request it fetched. -/
def tryMergeHelper (e : MergeCommentEvent) (cfg : botConfig) (mergeRequest : MergeRequest) :
    mergeHelper :=
  { cfg := cfg, pid := e.ProjectID, mrID := e.MergeRequestIID, org := e.Org,
    author := mergeRequest.AuthorUsername, mr := mergeRequest, trigger := e.CommentAuthor }

/-- The method `robot.tryMerge(e, cfg, addComment, log)`: the returned error, if any;
`none` when the evaluation ends in a nil-pointer dereference. -/
def tryMerge (L : Lib) (cli : iClient σ) (e : MergeCommentEvent) (cfg : botConfig)
    (addComment : Bool) (w : World σ) : Option (Except Err Unit) × World σ :=
  match invoke (Call.GetMergeRequest e.ProjectID e.MergeRequestIID)
      (cli.GetMergeRequest e.ProjectID e.MergeRequestIID) w with
  | (.error err, w1) => (some (.error err), w1)
  | (.ok mergeRequest, w1) =>
    match mergeHelper.canMerge L cli (tryMergeHelper e cfg mergeRequest) w1 with
    | (none, w2) => (none, w2)
    | (some (r, false), w2) =>
      if r.length > 0 && addComment then
        match invoke (Call.CreateMergeRequestComment e.ProjectID e.MergeRequestIID
            ("@" ++ e.CommentAuthor ++ " , this pr is not mergeable and the reasons are below:\n"
              ++ strings.Join r "\n"))
          (cli.CreateMergeRequestComment e.ProjectID e.MergeRequestIID
            ("@" ++ e.CommentAuthor ++ " , this pr is not mergeable and the reasons are below:\n"
              ++ strings.Join r "\n")) w2 with
        | (res, w3) => (some res, w3)
      else (some (.ok ()), w2)
    | (some (_, true), w2) =>
      match mergeHelper.merge L cli (tryMergeHelper e cfg mergeRequest) w2 with
      | (res, w3) => (some res, w3)

/-! ## `permission.go` -/

def ownerFile : String := "OWNERS"
def sigInfoFile : String := "sig-info.yaml"

/-- The function `decodeSigInfoFile(content, log)`. -/
def decodeSigInfoFile (L : Lib) (content : String) : List String :=
  match L.base64Decode content with
  | .error _ => []
  | .ok c =>
    match L.unmarshalSigInfos c with
    | .error _ => []
    | .ok m => sets.Insert [] (m.Maintainers.map (fun v => L.ToLower v.GiteeID))

/-- The function `decodeOwnerFile(content, log)`. -/
def decodeOwnerFile (L : Lib) (content : String) : List String :=
  match L.base64Decode content with
  | .error _ => []
  | .ok c =>
    match L.unmarshalOwners c with
    | .error _ => []
    | .ok m =>
      sets.Insert (sets.Insert [] (m.Maintainers.map L.ToLower)) (m.Committers.map L.ToLower)

/-- The slice `ownerFilePath` that the loop of `listDirectoryTree` builds. -/
def ownerFilePath (trees : List TreeNode) : List String :=
  (trees.filter (fun t =>
    strings.CountSlash t.Path == 2 && strings.Contains t.Path ownerFile)).map TreeNode.Path

/-- The slice `sigInfoFilePath` that the loop of `listDirectoryTree` builds. -/
def sigInfoFilePath (trees : List TreeNode) : List String :=
  (trees.filter (fun t =>
    strings.CountSlash t.Path == 2 && strings.Contains t.Path sigInfoFile)).map TreeNode.Path

/-- The method `robot.listDirectoryTree(pid, branch, dirPath)`. -/
def listDirectoryTree (cli : iClient σ) (pid : Int) (branch dirPath : String) (w : World σ) :
    Except Err (List String × List String) × World σ :=
  match invoke (Call.GetDirectoryTree pid ⟨dirPath, branch, true⟩)
      (cli.GetDirectoryTree pid ⟨dirPath, branch, true⟩) w with
  | (.error err, w1) => (.error err, w1)
  | (.ok trees, w1) => (.ok (ownerFilePath trees, sigInfoFilePath trees), w1)

/-- The first loop of `isOwnerOfSig`: the directories of the changed files, or `none`
where the source returns `false, nil` for a file outside the pattern or too deep. -/
def changedDirs (L : Lib) (cfg : botConfig) : List String → List String → Option (List String)
  | [], paths => some paths
  | file :: rest, paths =>
    if file == "" then changedDirs L cfg rest paths
    else if !cfg.regSigDir file || strings.CountSlash file > 2 then none
    else changedDirs L cfg rest (sets.Insert1 paths (L.Dir file))

/-- The two loops of `isOwnerOfSig` over the owner files and over the sig-info files,
which differ in the decoder only: `Sum.inl b` when the loop returns `b, nil`,
`Sum.inr paths` when it ends with `paths` left. -/
def recordLoop (L : Lib) (cli : iClient σ) (decode : String → List String) (pid : Int)
    (commenter : String) : List String → List String → World σ →
    Sum Bool (List String) × World σ
  | [], paths, w => (Sum.inr paths, w)
  | o :: rest, paths, w =>
    if !sets.Has paths (L.Dir o) then recordLoop L cli decode pid commenter rest paths w
    else
      match invoke (Call.GetPathContent pid o "master") (cli.GetPathContent pid o "master") w with
      | (.error _, w1) => (Sum.inl false, w1)
      | (.ok none, w1) => (Sum.inl false, w1)
      | (.ok (some oFile), w1) =>
        if !sets.Has (decode oFile.Content) commenter then (Sum.inl false, w1)
        else if (sets.Delete paths (L.Dir o)).length == 0 then (Sum.inl true, w1)
        else recordLoop L cli decode pid commenter rest (sets.Delete paths (L.Dir o)) w1

/-- The method `robot.isOwnerOfSig(org, repo, commenter, e, cfg, log)`: the pair
`(bool, error)` of the source. The arguments `org` and `repo` are not read. -/
def isOwnerOfSig (L : Lib) (cli : iClient σ) (commenter : String) (e : MergeCommentEvent)
    (cfg : botConfig) (w : World σ) : (Bool × Option Err) × World σ :=
  match invoke (Call.GetMergeRequestChanges e.ProjectID e.MergeRequestIID)
      (cli.GetMergeRequestChanges e.ProjectID e.MergeRequestIID) w with
  | (.error err, w1) => ((false, some err), w1)
  | (.ok changes, w1) =>
    if changes.length == 0 then ((false, none), w1)
    else
      match changedDirs L cfg changes [] with
      | none => ((false, none), w1)
      | some paths =>
        match listDirectoryTree cli e.ProjectID "master" cfg.SigsDir w1 with
        | (.error _, w2) => ((false, none), w2)
        | (.ok (oPath, sPath), w2) =>
          if oPath.length == 0 || sPath.length == 0 then ((false, none), w2)
          else
            match recordLoop L cli (decodeOwnerFile L) e.ProjectID commenter oPath paths w2 with
            | (Sum.inl b, w3) => ((b, none), w3)
            | (Sum.inr paths1, w3) =>
              match recordLoop L cli (decodeSigInfoFile L) e.ProjectID commenter sPath
                  paths1 w3 with
              | (Sum.inl b, w4) => ((b, none), w4)
              | (Sum.inr _, w4) => ((false, none), w4)

/-- The method `robot.hasPermission(org, repo, commenter, commenterID, needCheckSig, e,
cfg, log)`: the pair `(bool, error)` of the source. The arguments `org` and `repo` are
passed on to `isOwnerOfSig`, which does not read them; they are left out. -/
def hasPermission (L : Lib) (cli : iClient σ) (commenter : String) (commenterID : Int)
    (needCheckSig : Bool) (e : MergeCommentEvent) (cfg : botConfig) (w : World σ) :
    (Bool × Option Err) × World σ :=
  match invoke (Call.GetUserPermissionOfProject e.ProjectID commenterID)
      (cli.GetUserPermissionOfProject e.ProjectID commenterID) w with
  | (.error err, w1) => ((false, some err), w1)
  | (.ok true, w1) => ((true, none), w1)
  | (.ok false, w1) =>
    if needCheckSig then isOwnerOfSig L cli (L.ToLower commenter) e cfg w1
    else ((false, none), w1)

/-! ## `lgtm.go` -/

/-- The function `genLGTMLabel(commenter, lgtmCount)`. -/
def genLGTMLabel (L : Lib) (commenter : String) (lgtmCount : Nat) : String :=
  if lgtmCount ≤ 1 then lgtmLabel
  else if (lgtmLabel ++ "-" ++ L.ToLower commenter).length > labelLenLimit then
    String.mk ((lgtmLabel ++ "-" ++ L.ToLower commenter).data.take labelLenLimit)
  else lgtmLabel ++ "-" ++ L.ToLower commenter

/-- The method `robot.createLabelIfNeed(pid, label)`. -/
def createLabelIfNeed (cli : iClient σ) (pid : Int) (label : String) (w : World σ) :
    Except Err Unit × World σ :=
  match invoke (Call.GetProjectLabels pid) (cli.GetProjectLabels pid) w with
  | (.error err, w1) => (.error err, w1)
  | (.ok repoLabels, w1) =>
    if repoLabels.any (fun v => v.Name == label) then (.ok (), w1)
    else invoke (Call.CreateProjectLabel pid label "") (cli.CreateProjectLabel pid label "") w1

/-- The method `robot.addLGTM(cfg, e, log)`: the returned error, if any; `none` when
the evaluation ends in a nil-pointer dereference. -/
def addLGTM (L : Lib) (cli : iClient σ) (cfg : botConfig) (e : MergeCommentEvent)
    (w : World σ) : Option (Except Err Unit) × World σ :=
  if e.MergeRequestAuthorID == e.CommentAuthorID then
    match invoke (Call.CreateMergeRequestComment e.ProjectID e.MergeRequestIID
        commentAddLGTMBySelf)
      (cli.CreateMergeRequestComment e.ProjectID e.MergeRequestIID commentAddLGTMBySelf) w with
    | (res, w1) => (some res, w1)
  else
    match hasPermission L cli e.CommentAuthor e.CommentAuthorID
        cfg.CheckPermissionBasedOnSigOwners e cfg w with
    | ((_, some err), w1) => (some (.error err), w1)
    | ((false, none), w1) =>
      match invoke (Call.CreateMergeRequestComment e.ProjectID e.MergeRequestIID
          (commentNoPermissionForLgtmLabel e.CommentAuthor))
        (cli.CreateMergeRequestComment e.ProjectID e.MergeRequestIID
          (commentNoPermissionForLgtmLabel e.CommentAuthor)) w1 with
      | (res, w2) => (some res, w2)
    | ((true, none), w1) =>
      let label := genLGTMLabel L e.CommentAuthor cfg.LgtmCountsRequired
      let w2 := if label != lgtmLabel then (createLabelIfNeed cli e.ProjectID label w1).2 else w1
      match invoke (Call.AddMergeRequestLabel e.ProjectID e.MergeRequestIID [label])
          (cli.AddMergeRequestLabel e.ProjectID e.MergeRequestIID [label]) w2 with
      | (.error err, w3) => (some (.error err), w3)
      | (.ok _, w3) =>
        tryMerge L cli e cfg false
          (invoke (Call.CreateMergeRequestComment e.ProjectID e.MergeRequestIID
              (commentAddLabel label e.CommentAuthor))
            (cli.CreateMergeRequestComment e.ProjectID e.MergeRequestIID
              (commentAddLabel label e.CommentAuthor)) w3).2

/-- The method `robot.removeLGTM(cfg, e, log)`. -/
def removeLGTM (L : Lib) (cli : iClient σ) (cfg : botConfig) (e : MergeCommentEvent)
    (w : World σ) : Except Err Unit × World σ :=
  if e.MergeRequestAuthorID != e.CommentAuthorID then
    match hasPermission L cli e.CommentAuthor e.CommentAuthorID
        cfg.CheckPermissionBasedOnSigOwners e cfg w with
    | ((_, some err), w1) => (.error err, w1)
    | ((false, none), w1) =>
      invoke (Call.CreateMergeRequestComment e.ProjectID e.MergeRequestIID
          (commentNoPermissionForLabel e.CommentAuthor "remove" lgtmLabel))
        (cli.CreateMergeRequestComment e.ProjectID e.MergeRequestIID
          (commentNoPermissionForLabel e.CommentAuthor "remove" lgtmLabel)) w1
    | ((true, none), w1) =>
      match invoke (Call.RemoveMergeRequestLabel e.ProjectID e.MergeRequestIID
          [genLGTMLabel L e.CommentAuthor cfg.LgtmCountsRequired])
        (cli.RemoveMergeRequestLabel e.ProjectID e.MergeRequestIID
          [genLGTMLabel L e.CommentAuthor cfg.LgtmCountsRequired]) w1 with
      | (.error err, w2) => (.error err, w2)
      | (.ok _, w2) =>
        invoke (Call.CreateMergeRequestComment e.ProjectID e.MergeRequestIID
            (commentRemovedLabel (genLGTMLabel L e.CommentAuthor cfg.LgtmCountsRequired)
              e.CommentAuthor))
          (cli.CreateMergeRequestComment e.ProjectID e.MergeRequestIID
            (commentRemovedLabel (genLGTMLabel L e.CommentAuthor cfg.LgtmCountsRequired)
              e.CommentAuthor)) w2
  else
    match invoke (Call.GetMergeRequestLabels e.ProjectID e.MergeRequestIID)
        (cli.GetMergeRequestLabels e.ProjectID e.MergeRequestIID) w with
    | (.error err, w1) => (.error err, w1)
    | (.ok mrLabels, w1) =>
      if (getLGTMLabelsOnPR (sets.Insert [] mrLabels)).length > 0 then
        invoke (Call.RemoveMergeRequestLabel e.ProjectID e.MergeRequestIID
            (getLGTMLabelsOnPR (sets.Insert [] mrLabels)))
          (cli.RemoveMergeRequestLabel e.ProjectID e.MergeRequestIID
            (getLGTMLabelsOnPR (sets.Insert [] mrLabels))) w1
      else (.ok (), w1)

/-! ## `merge.go`: the handler of label updates -/

/-- A `gitlab.MergeEvent`, by the fields `handleLabelUpdate` reads (`Project.ID`,
`ObjectAttributes.IID`, `ObjectAttributes.Action`) and the values of the accessors of
`gitlabclient` (`CheckLabelUpdate`, `GetMROrgAndRepo`). -/
structure MergeEvent where
  ProjectID : Int
  IID : Int
  Action : String
  LabelUpdate : Bool
  Org : String
  Repo : String
  deriving DecidableEq, Repr

/-- The `mergeHelper` that `handleLabelUpdate` builds: the fields `pid`, `mrID` and
`trigger` are not set in the source and keep their zero values. -/
def labelUpdateHelper (e : MergeEvent) (cfg : botConfig) (mergeRequest : MergeRequest) :
    mergeHelper :=
  { cfg := cfg, org := e.Org, author := mergeRequest.AuthorUsername, mr := mergeRequest,
    pid := 0, mrID := 0, trigger := "" }

/-- The method `robot.handleLabelUpdate(e, cfg, log)`: the returned error, if any;
`none` when the evaluation ends in a nil-pointer dereference. -/
def handleLabelUpdate (L : Lib) (cli : iClient σ) (e : MergeEvent) (cfg : botConfig)
    (w : World σ) : Option (Except Err Unit) × World σ :=
  if e.Action != "update" && !e.LabelUpdate then (some (.ok ()), w)
  else
    match invoke (Call.GetMergeRequest e.ProjectID e.IID)
        (cli.GetMergeRequest e.ProjectID e.IID) w with
    | (.error err, w1) => (some (.error err), w1)
    | (.ok mergeRequest, w1) =>
      match mergeHelper.canMerge L cli (labelUpdateHelper e cfg mergeRequest) w1 with
      | (none, w2) => (none, w2)
      | (some (_, true), w2) =>
        match mergeHelper.merge L cli (labelUpdateHelper e cfg mergeRequest) w2 with
        | (res, w3) => (some res, w3)
      | (some (_, false), w2) => (some (.ok ()), w2)

end

/-! ## A concrete library and a concrete platform, for evaluation -/

/-- The part of a path before its last slash, `.` when it has none: `filepath.Dir` on
clean relative paths. -/
def dirOfChars (cs : List Char) : List Char :=
  match (cs.reverse.dropWhile (fun c => c != '/')).drop 1 with
  | [] => ['.']
  | d => d.reverse

/-- Splits a character list at commas. -/
def splitComma : List Char → List String
  | [] => [""]
  | c :: rest =>
    match splitComma rest with
    | [] => [""]
    | w :: ws => if c == ',' then "" :: w :: ws else String.mk (c :: w.data) :: ws

/-- A library in which files hold their text unencoded, an OWNERS document and a
sig-info document are lists of names separated by commas, a freeze document is the
list of frozen branches separated by commas, and a freeze item is its branch with the
owner list `["release-owner"]`. -/
def plainLib : Lib where
  Dir := fun p => String.mk (dirOfChars p.data)
  ToLower := fun s => String.mk (s.data.map Char.toLower)
  base64Decode := fun s => .ok s
  unmarshalOwners := fun s => .ok ⟨splitComma s.data, []⟩
  unmarshalSigInfos := fun s => .ok ⟨(splitComma s.data).map (fun n => ⟨n, "", "", ""⟩)⟩
  freezeContent := List String
  freezeItem := String
  zeroFreezeContent := []
  unmarshalFreeze := fun s => .ok (splitComma s.data)
  getFreezeItem := fun fc _ branch => if branch ∈ fc then some branch else none
  isFrozen := fun _ => true
  isOwner := fun _ owner => owner == "release-owner"
  Owner := fun _ => ["release-owner"]
  regAddLgtm := fun body => body == "/lgtm"
  regAddApprove := fun body => body == "/approved"

/-- A platform without state on which every call succeeds with an empty answer. -/
def quietClient : iClient Unit where
  GetMergeRequestLabels := fun _ _ s => (.ok [], s)
  CreateMergeRequestComment := fun _ _ _ s => (.ok (), s)
  RemoveMergeRequestLabel := fun _ _ _ s => (.ok (), s)
  GetProjectLabels := fun _ s => (.ok [], s)
  CreateProjectLabel := fun _ _ _ s => (.ok (), s)
  AddMergeRequestLabel := fun _ _ _ s => (.ok (), s)
  GetUserPermissionOfProject := fun _ _ s => (.ok false, s)
  GetMergeRequestChanges := fun _ _ s => (.ok [], s)
  MergeMergeRequest := fun _ _ s => (.ok (), s)
  ListMergeRequestComments := fun _ _ s => (.ok [], s)
  GetMergeRequestLabelChanges := fun _ _ s => (.ok [], s)
  GetMergeRequest := fun _ _ s => (.ok ⟨"", [], "", ""⟩, s)
  UpdateMergeRequest := fun _ _ _ s => (.ok ⟨"", [], "", ""⟩, s)
  GetPathContent := fun _ _ _ s => (.ok none, s)
  GetDirectoryTree := fun _ _ s => (.ok [], s)
  GetGroups := fun s => (.ok [], s)
  GetProjects := fun _ s => (.ok [], s)

/-- A configuration with threshold `n`, nothing else required or excluded, no freeze
file, no ownership check. -/
def plainConfig (n : Nat) : botConfig :=
  ⟨[], [], n, [], false, fun _ => true, "sig"⟩

/-- An add event of the label history is an event for `label` as `getLatestLog` reads
it: its action is `add` and its label name contains `label`. -/
def isAddOf (label : String) (op : LabelEvent) : Bool :=
  op.Action == ActionAddLabel && strings.Contains op.LabelName label

/-- A platform without state that answers the label history with `ops` and the current
labels with `labels`, and every other call as `quietClient` does. -/
def labelClient (ops : List LabelEvent) (labels : List String) : iClient Unit :=
  { quietClient with
    GetMergeRequestLabelChanges := fun _ _ s => (.ok ops, s)
    GetMergeRequestLabels := fun _ _ s => (.ok labels, s) }

/-- A merge helper for request 7 of project 1 by `author`, mergeable by status, with the
labels `labels` in its snapshot, under `cfg`, triggered by `trigger`. -/
def plainHelper (labels : List String) (cfg : botConfig) (trigger : String) : mergeHelper :=
  { mr := ⟨"can_be_merged", labels, "master", "author"⟩, cfg := cfg, pid := 1, mrID := 7,
    org := "org", author := "author", trigger := trigger }

/-- A label history in which `approved` and `lgtm` were each added once, by the bot. -/
def cleanHistory : List LabelEvent :=
  [⟨"add", "approved", "wanghao", 1⟩, ⟨"add", "lgtm", "wanghao", 2⟩]

/-- A platform whose read of the current labels fails, with the label history
`cleanHistory`. -/
def labelsDownClient : iClient Unit :=
  { quietClient with
    GetMergeRequestLabelChanges := fun _ _ s => (.ok cleanHistory, s)
    GetMergeRequestLabels := fun _ _ s => (.error "503", s) }

/-- A platform whose list of groups cannot be read, with the label history
`cleanHistory` and the current labels `approved` and `lgtm`. -/
def groupsDownClient : iClient Unit :=
  { labelClient cleanHistory ["approved", "lgtm"] with
    GetGroups := fun s => (.error "503", s) }

/-- The configuration `plainConfig 1` with one freeze file. -/
def freezeConfig : botConfig :=
  ⟨[], [], 1, [⟨"infra", "release", "freeze.yaml", "master"⟩], false, fun _ => true, "sig"⟩

/-- A platform that holds request 7 of project 1 mergeable by status with the labels
`approved` and `lgtm`, each added once by the bot. -/
def readyClient : iClient Unit :=
  { labelClient cleanHistory ["approved", "lgtm"] with
    GetMergeRequest := fun _ _ s =>
      (.ok ⟨"can_be_merged", ["approved", "lgtm"], "master", "author"⟩, s) }

/-- The platform `readyClient` with an update of the merge request that fails. -/
def updateDownClient : iClient Unit :=
  { readyClient with UpdateMergeRequest := fun _ _ _ s => (.error "503", s) }

/-- A comment `/check-pr` by `rita` (user 200) on request 7 of project 1, whose
author is user 100. -/
def checkEvent : MergeCommentEvent :=
  ⟨1, "note", 7, 100, "opened", "rita", 200, "/check-pr", "org", "repo"⟩

/-- The platform `quietClient` on which every user has direct permission. -/
def memberClient : iClient Unit :=
  { quietClient with GetUserPermissionOfProject := fun _ _ s => (.ok true, s) }

/-- A comment `/lgtm` by user 100, `author`, on request 7 of project 1, which is that
user's own. -/
def selfEvent : MergeCommentEvent :=
  ⟨1, "note", 7, 100, "opened", "author", 100, "/lgtm", "org", "repo"⟩

/-- The platform `quietClient` with the labels `approved`, `lgtm-ann`, `kind/bug` and
`lgtm-bob` on the request. -/
def reviewedClient : iClient Unit :=
  { quietClient with
    GetMergeRequestLabels := fun _ _ s => (.ok ["approved", "lgtm-ann", "kind/bug", "lgtm-bob"], s) }

/-- A platform without state that holds a repository: the changed paths of the request,
the listing of the tree, and the text of each file (`none` where the read fails). No
user has direct permission. -/
def repoClient (changes : List String) (trees : List String) (file : String → Option String) :
    iClient Unit :=
  { quietClient with
    GetMergeRequestChanges := fun _ _ s => (.ok changes, s)
    GetDirectoryTree := fun _ _ s => (.ok (trees.map TreeNode.mk), s)
    GetPathContent := fun _ f _ s =>
      match file f with
      | some c => (.ok (some ⟨c⟩), s)
      | none => (.error "404", s) }

/-- Whether some file of `files` in directory `d` is fetched and lists `who`, where
`content` is what the platform answers for a path and `decode` reads a file. -/
def listedBy (L : Lib) (content : String → Except Err (Option File))
    (decode : String → List String) (who d : String) (files : List String) : Bool :=
  files.any (fun o => L.Dir o == d &&
    match content o with
    | .ok (some f) => sets.Has (decode f.Content) who
    | _ => false)

/-- Whether an owner record of directory `d` lists `who`: an OWNERS file among `oPath`
or a sig-info file among `sPath`. -/
def listedIn (L : Lib) (content : String → Except Err (Option File)) (oPath sPath : List String)
    (who d : String) : Bool :=
  listedBy L content (decodeOwnerFile L) who d oPath ||
    listedBy L content (decodeSigInfoFile L) who d sPath

/-- Whether the first owner record of directory `d` is fetched and lists `who`: the
first OWNERS file of `oPath` in `d`, or without one the first sig-info file of `sPath`
in `d`. -/
def firstRecordLists (L : Lib) (content : String → Except Err (Option File))
    (oPath sPath : List String) (who d : String) : Bool :=
  match oPath.find? (fun o => L.Dir o == d) with
  | some o =>
    (match content o with
     | .ok (some f) => sets.Has (decodeOwnerFile L f.Content) who
     | _ => false)
  | none =>
    match sPath.find? (fun o => L.Dir o == d) with
    | some o =>
      (match content o with
       | .ok (some f) => sets.Has (decodeSigInfoFile L f.Content) who
       | _ => false)
    | none => false

/-- The text of each file of a repository with the directories `sig/foo`, whose
OWNERS file lists `alice` and `carol`, and `sig/bar`, whose OWNERS file lists `bob` and
`carol`; `sig/foo` has a sig-info file too, which lists `dave`. -/
def twoSigFiles (path : String) : Option String :=
  if path = "sig/foo/OWNERS" then some "alice,carol"
  else if path = "sig/bar/OWNERS" then some "bob,carol"
  else if path = "sig/foo/sig-info.yaml" then some "dave"
  else none

/-- The listing of the tree of that repository. -/
def twoSigTree : List String :=
  ["sig/foo/OWNERS", "sig/foo/sig-info.yaml", "sig/bar/OWNERS", "sig/README.md"]

/-- The text of each file of a repository with the same tree, where `dave` is listed in
the sig-info file of `sig/foo` and in the OWNERS file of `sig/bar`, but not in the
OWNERS file of `sig/foo`. -/
def sharedSigFiles (path : String) : Option String :=
  if path = "sig/foo/OWNERS" then some "alice,carol"
  else if path = "sig/bar/OWNERS" then some "bob,carol,dave"
  else if path = "sig/foo/sig-info.yaml" then some "dave"
  else none

/-- What `repoClient` answers for a path. -/
def repoContent (file : String → Option String) (path : String) : Except Err (Option File) :=
  match file path with
  | some c => .ok (some ⟨c⟩)
  | none => .error "404"

/-- The text of each file of a repository whose only owner record is the OWNERS file
of `sig/foo`, which lists `alice`. -/
def ownersOnlyFiles (path : String) : Option String :=
  if path = "sig/foo/OWNERS" then some "alice" else none

/-- A label history in which `lgtm` was last added by hand, by `mallory`, and a later
add event by the bot is for another label, whose name contains `lgtm`. -/
def historyWithNamesake : List LabelEvent :=
  [⟨"add", "approved", "wanghao", 1⟩, ⟨"add", "lgtm", "mallory", 5⟩,
   ⟨"add", "lgtm-bob", "wanghao", 9⟩]

/-- The library `plainLib` with a decoder that rejects the text `%%%`. -/
def strictLib : Lib :=
  { plainLib with
    base64Decode := fun s => if s = "%%%" then .error "illegal base64 data" else .ok s }

/-- The platform `labelClient cleanHistory ["approved", "lgtm"]` with the group `infra`
(5), its project `release` (9), and a freeze file there with the text `text`. -/
def freezeClient (text : String) : iClient Unit :=
  { labelClient cleanHistory ["approved", "lgtm"] with
    GetGroups := fun s => (.ok [⟨"infra", 5⟩], s)
    GetProjects := fun _ s => (.ok [⟨"release", 9⟩], s)
    GetPathContent := fun _ _ _ s => (.ok (some ⟨text⟩), s) }

/-- A merge event with action `update` for request 7 of project 1. -/
def updateEvent : MergeEvent := ⟨1, 7, "update", false, "org", "repo"⟩

/-- The platform `quietClient` with the comments `comments` on the request. -/
def commentClient (comments : List Note) : iClient Unit :=
  { quietClient with ListMergeRequestComments := fun _ _ s => (.ok comments, s) }

/-- Comments on a request of `author`: `rita` says `/lgtm`, `sam` says `/approved`,
`rita` says `/lgtm` again in a comment that was edited later, and `author` says `/lgtm`. -/
def reviewComments : List Note :=
  [⟨"/lgtm", "rita", "2023-03-01 10:00:00 +0000 UTC", "2023-03-01 10:00:00 +0000 UTC"⟩,
   ⟨"/approved", "sam", "2023-03-01 11:00:00 +0000 UTC", "2023-03-01 11:00:00 +0000 UTC"⟩,
   ⟨"/lgtm", "rita", "2023-03-01 12:00:00 +0000 UTC", "2023-03-02 09:30:00 +0000 UTC"⟩,
   ⟨"/lgtm", "author", "2023-03-01 13:00:00 +0000 UTC", "2023-03-01 13:00:00 +0000 UTC"⟩]

/-- A platform that knows request 7 of project 1 only, ready to be merged as on
`readyClient`; every call for another request fails. -/
def idClient : iClient Unit :=
  { quietClient with
    GetMergeRequest := fun p i s =>
      if p = 1 ∧ i = 7 then (.ok ⟨"can_be_merged", ["approved", "lgtm"], "master", "author"⟩, s)
      else (.error "404", s)
    GetMergeRequestLabelChanges := fun p i s =>
      if p = 1 ∧ i = 7 then (.ok cleanHistory, s) else (.error "404", s)
    GetMergeRequestLabels := fun p i s =>
      if p = 1 ∧ i = 7 then (.ok ["approved", "lgtm"], s) else (.error "404", s)
    ListMergeRequestComments := fun p i s =>
      if p = 1 ∧ i = 7 then (.ok [], s) else (.error "404", s)
    UpdateMergeRequest := fun p i _ s =>
      if p = 1 ∧ i = 7 then (.ok ⟨"can_be_merged", ["approved", "lgtm"], "master", "author"⟩, s)
      else (.error "404", s)
    MergeMergeRequest := fun p i s =>
      if p = 1 ∧ i = 7 then (.ok (), s) else (.error "404", s) }

/-- Whether the file at `path` is fetched and lists `who`. -/
def fileLists (content : String → Except Err (Option File)) (decode : String → List String)
    (who path : String) : Bool :=
  match content path with
  | .ok (some f) => sets.Has (decode f.Content) who
  | _ => false

/-- What the first file of `files` in directory `d` says of `who`: `none` when no file
of `files` is in `d`, else whether that file is fetched and lists `who`. -/
def recordOf (L : Lib) (content : String → Except Err (Option File))
    (decode : String → List String) (who d : String) (files : List String) : Option Bool :=
  (files.find? (fun o => L.Dir o == d)).map (fileLists content decode who)

/-! ## Predicates on the trace -/

/-- The trace of `w1` is the trace of `w` followed by calls that all satisfy `P`. -/
def Extends {σ : Type} (w w1 : World σ) (P : Ev → Prop) : Prop :=
  ∃ new, w1.trace = w.trace ++ new ∧ ∀ ev ∈ new, P ev

/-- A call other than the read of the current labels. -/
def notLabelsRead (ev : Ev) : Prop := ∀ p i, ev.call ≠ Call.GetMergeRequestLabels p i

/-- A call made to resolve or fetch a freeze file. -/
def freezeCall (ev : Ev) : Prop :=
  ev.call = Call.GetGroups ∨ (∃ g, ev.call = Call.GetProjects g) ∨
    ∃ p f b, ev.call = Call.GetPathContent p f b

/-- A call other than a merge. -/
def noMerge (ev : Ev) : Prop := ∀ p i, ev.call ≠ Call.MergeMergeRequest p i

/-- A call made by the permission resolver. -/
def permCall (ev : Ev) : Prop :=
  (∃ p u, ev.call = Call.GetUserPermissionOfProject p u) ∨
  (∃ p i, ev.call = Call.GetMergeRequestChanges p i) ∨
  (∃ p o, ev.call = Call.GetDirectoryTree p o) ∨
  ∃ p f b, ev.call = Call.GetPathContent p f b

/-! ## Lemmas on sets and on the texts of the reasons -/

theorem sets.mem_Insert1 (s : List String) (x y : String) :
    y ∈ sets.Insert1 s x ↔ y ∈ s ∨ y = x := by
  unfold sets.Insert1
  split
  · constructor
    · intro h; exact Or.inl h
    · rintro (h | h)
      · exact h
      · subst h; assumption
  · simp

theorem sets.mem_Insert (xs : List String) : ∀ (s : List String) (y : String),
    y ∈ sets.Insert s xs ↔ y ∈ s ∨ y ∈ xs := by
  induction xs with
  | nil => intro s y; simp [sets.Insert]
  | cons x xs ih =>
    intro s y
    have h := ih (sets.Insert1 s x) y
    simp only [sets.Insert, List.foldl_cons] at h ⊢
    rw [h, sets.mem_Insert1]
    simp only [List.mem_cons]
    tauto

theorem sets.mem_NewString (xs : List String) (y : String) :
    y ∈ sets.NewString xs ↔ y ∈ xs := by
  simp [sets.NewString, sets.mem_Insert]

theorem sets.nodup_Insert1 (s : List String) (x : String) (h : s.Nodup) :
    (sets.Insert1 s x).Nodup := by
  unfold sets.Insert1
  split
  · exact h
  · rename_i hx
    rw [List.nodup_append]
    refine ⟨h, List.nodup_singleton x, ?_⟩
    intro a ha hb
    simp only [List.mem_singleton] at hb
    subst hb
    exact hx ha

theorem sets.nodup_Insert (xs : List String) : ∀ (s : List String), s.Nodup →
    (sets.Insert s xs).Nodup := by
  induction xs with
  | nil => intro s h; simpa [sets.Insert] using h
  | cons x xs ih =>
    intro s h
    have := ih (sets.Insert1 s x) (sets.nodup_Insert1 s x h)
    simpa [sets.Insert] using this

theorem sets.nodup_NewString (xs : List String) : (sets.NewString xs).Nodup :=
  sets.nodup_Insert xs [] List.nodup_nil

theorem sets.Has_iff (s : List String) (x : String) : sets.Has s x = true ↔ x ∈ s := by
  simp [sets.Has]

theorem mem_neededLabels (cfg : botConfig) (l : String) :
    l ∈ neededLabels cfg ↔
      l = approvedLabel ∨ l ∈ cfg.LabelsForMerge ∨
        (cfg.LgtmCountsRequired = 1 ∧ l = lgtmLabel) := by
  unfold neededLabels
  by_cases h : cfg.LgtmCountsRequired = 1
  · simp [h, sets.mem_Insert, sets.mem_NewString]
    tauto
  · simp [h, sets.mem_Insert, sets.mem_NewString]

/-- The reason of `checkLabelsLegal`, when there is one, opens with its fixed heading. -/
theorem checkLabelsLegal_heading (labels needs : List String) (ops : List LabelEvent)
    (h : checkLabelsLegal labels needs ops ≠ "") :
    ∃ rest : String, checkLabelsLegal labels needs ops = "**The following " ++ rest := by
  unfold checkLabelsLegal at h ⊢
  by_cases hn : (checkLabelsLegalEntries labels needs ops).length > 0
  · simp only [hn, if_true, String.append_assoc]
    exact ⟨_, rfl⟩
  · simp [hn] at h

/-- Every reason of `isLabelMatched` opens with one of four fixed texts. -/
theorem isLabelMatched_cases (labels : List String) (cfg : botConfig) (ops : List LabelEvent)
    (r : String) (hr : r ∈ isLabelMatched labels cfg ops) :
    (r ∈ lgtmCountReasons labels cfg ∧ ∃ rest : String, r = "PR needs " ++ rest) ∨
    (∃ rest : String, r = "**The following " ++ rest) ∨
    (r ∈ missingReasons labels cfg ∧ ∃ rest : String, r = "PR does not have these lables: " ++ rest) ∨
    (∃ rest : String, r = "PR should remove these labels: " ++ rest) := by
  unfold isLabelMatched at hr
  simp only [List.mem_append] at hr
  rcases hr with ((hr | hr) | hr) | hr
  · left
    refine ⟨hr, ?_⟩
    unfold lgtmCountReasons at hr
    simp only at hr
    split at hr
    · simp at hr
    · split at hr
      · simp only [List.mem_singleton] at hr
        subst hr
        simp only [msgNotEnoughLGTMLabel, String.append_assoc]
        exact ⟨_, rfl⟩
      · simp at hr
  · right; left
    unfold legalReasons at hr
    simp only at hr
    split at hr
    · rename_i hne
      simp only [List.mem_singleton] at hr
      subst hr
      obtain ⟨rest, hrest⟩ := checkLabelsLegal_heading labels (neededLabels cfg) ops
        (by simpa using hne)
      exact ⟨rest ++ "\n", by rw [hrest, String.append_assoc]⟩
    · simp at hr
  · right; right; left
    refine ⟨hr, ?_⟩
    unfold missingReasons at hr
    simp only at hr
    split at hr
    · simp only [List.mem_singleton] at hr
      subst hr
      exact ⟨_, rfl⟩
    · simp at hr
  · right; right; right
    unfold invalidReasons at hr
    split at hr
    · simp only at hr
      split at hr
      · simp only [List.mem_singleton] at hr
        subst hr
        exact ⟨_, rfl⟩
      · simp at hr
    · simp at hr

theorem intercalate_go_eq (sep : String) : ∀ (rest : List String) (acc b : String),
    String.intercalate.go acc sep (b :: rest) = acc ++ sep ++ strings.Join (b :: rest) sep := by
  intro rest
  induction rest with
  | nil => intro acc b; simp [String.intercalate.go, strings.Join]
  | cons c r ih =>
    intro acc b
    rw [String.intercalate.go, ih]
    simp [strings.Join, String.append_assoc]

/-- The join of the embedding is the library's `String.intercalate`. -/
theorem strings.Join_eq_intercalate (v : List String) (sep : String) :
    strings.Join v sep = String.intercalate sep v := by
  cases v with
  | nil => rfl
  | cons a rest =>
    cases rest with
    | nil => simp [strings.Join, String.intercalate, String.intercalate.go]
    | cons b r =>
      rw [String.intercalate, intercalate_go_eq]
      simp [strings.Join]

/-- Every element of a joined list occurs in the joined text. -/
theorem strings.infix_Join (sep x : String) : ∀ (v : List String), x ∈ v →
    x.data <:+: (strings.Join v sep).data := by
  intro v
  induction v with
  | nil => intro h; simp at h
  | cons a rest ih =>
    intro h
    cases rest with
    | nil =>
      simp only [List.mem_singleton] at h
      subst h
      simp [strings.Join]
    | cons b r =>
      simp only [strings.Join, String.data_append]
      rcases List.mem_cons.mp h with rfl | h
      · rw [List.append_assoc]
        exact (List.prefix_append _ _).isInfix
      · exact (ih h).trans (List.suffix_append _ _).isInfix

/-! ## Label gates: the completeness gate -/

/-- C8: with `LgtmCountsRequired = 1`, a label set without `lgtm` gets the
missing-labels reason: the text "PR does not have these lables: " followed by a list of
labels joined by ", ", where the list includes `lgtm`, so that `lgtm` occurs in the
text, and holds only required labels that the set lacks; a label set with `lgtm`, `approved` and every configured required label gets no
reason that opens with the missing-labels text and none that opens with the lgtm-count
text. -/
theorem C8_threshold_one_completeness (labels : List String) (cfg : botConfig)
    (ops : List LabelEvent) (h1 : cfg.LgtmCountsRequired = 1) :
    ("lgtm" ∉ labels →
        ∃ v : List String, "lgtm" ∈ v ∧
          ("PR does not have these lables: " ++ String.intercalate ", " v)
            ∈ isLabelMatched labels cfg ops ∧
          "lgtm".data <:+:
            ("PR does not have these lables: " ++ String.intercalate ", " v).data ∧
          ∀ x ∈ v, x ∈ neededLabels cfg ∧ x ∉ labels) ∧
    (lgtmLabel ∈ labels → approvedLabel ∈ labels →
      (∀ l ∈ cfg.LabelsForMerge, l ∈ labels) →
        ∀ r ∈ isLabelMatched labels cfg ops,
          strings.HasPrefix r "PR does not have these lables: " = false ∧
          strings.HasPrefix r "PR needs " = false) := by
  constructor
  · intro hl0
    have hl : lgtmLabel ∉ labels := hl0
    have hmem : lgtmLabel ∈ sets.Difference (neededLabels cfg) labels := by
      simp only [sets.Difference, List.mem_filter, mem_neededLabels]
      refine ⟨Or.inr (Or.inr ⟨h1, trivial⟩), ?_⟩
      simp [sets.Has, hl]
    have hlen : (sets.Difference (neededLabels cfg) labels).length > 0 :=
      List.length_pos_of_mem hmem
    refine ⟨sets.Difference (neededLabels cfg) labels, hmem, ?_, ?_, ?_⟩
    · rw [← strings.Join_eq_intercalate]
      unfold isLabelMatched
      simp only [List.mem_append]
      left; right
      simp [missingReasons, hlen, msgMissingLabels]
    · rw [← strings.Join_eq_intercalate, String.data_append]
      exact (strings.infix_Join ", " "lgtm" _ hmem).trans (List.suffix_append _ _).isInfix
    · intro x hx
      simp only [sets.Difference, List.mem_filter] at hx
      refine ⟨hx.1, ?_⟩
      have h2 := hx.2
      simpa [sets.Has] using h2
  · intro hl ha hreq r hr
    have hdiff : sets.Difference (neededLabels cfg) labels = [] := by
      simp only [sets.Difference, List.filter_eq_nil_iff, mem_neededLabels]
      rintro a (rfl | h | ⟨_, rfl⟩)
      · simp [sets.Has, ha]
      · simp [sets.Has, hreq a h]
      · simp [sets.Has, hl]
    have hmiss : missingReasons labels cfg = [] := by simp [missingReasons, hdiff]
    have hcnt : lgtmCountReasons labels cfg = [] := by simp [lgtmCountReasons, h1]
    rcases isLabelMatched_cases labels cfg ops r hr with
      ⟨h, _⟩ | ⟨rest, rfl⟩ | ⟨h, _⟩ | ⟨rest, rfl⟩
    · simp [hcnt] at h
    · simp [strings.HasPrefix, String.data_append, List.isPrefixOf]
    · simp [hmiss] at h
    · simp [strings.HasPrefix, String.data_append, List.isPrefixOf]

/-- Witness of C8, at the label set {approved} and at {approved, lgtm}. -/
theorem C8_threshold_one_completeness_witness :
    "PR does not have these lables: lgtm"
      ∈ isLabelMatched ["approved"] ⟨[], [], 1, [], false, fun _ => true, ""⟩
        [⟨"add", "approved", "wanghao", 1⟩] ∧
    (∃ v : List String, "lgtm" ∈ v ∧
      ("PR does not have these lables: " ++ String.intercalate ", " v)
        ∈ isLabelMatched ["approved"] ⟨[], [], 1, [], false, fun _ => true, ""⟩
          [⟨"add", "approved", "wanghao", 1⟩] ∧
      "lgtm".data <:+:
        ("PR does not have these lables: " ++ String.intercalate ", " v).data ∧
      ∀ x ∈ v, x ∈ neededLabels ⟨[], [], 1, [], false, fun _ => true, ""⟩ ∧
        x ∉ ["approved"]) ∧
    (∀ r ∈ isLabelMatched ["approved", "lgtm"] ⟨[], [], 1, [], false, fun _ => true, ""⟩
        [⟨"add", "approved", "wanghao", 1⟩],
      strings.HasPrefix r "PR does not have these lables: " = false ∧
      strings.HasPrefix r "PR needs " = false) :=
  ⟨by decide,
   (C8_threshold_one_completeness ["approved"] ⟨[], [], 1, [], false, fun _ => true, ""⟩
      [⟨"add", "approved", "wanghao", 1⟩] rfl).1 (by decide),
   (C8_threshold_one_completeness ["approved", "lgtm"] ⟨[], [], 1, [], false, fun _ => true, ""⟩
      [⟨"add", "approved", "wanghao", 1⟩] rfl).2 (by decide) (by decide) (by simp)⟩

/-- C9: with a threshold `N > 1` and `M` labels of the lgtm family on the request,
`isLabelMatched` returns the reason "PR needs N lgtm labels and now gets M" (closed
by a line break) when `M < N`, and no reason that opens with "PR needs " when
`M ≥ N`. -/
theorem C9_lgtm_count_threshold (labels : List String) (cfg : botConfig)
    (ops : List LabelEvent) (hN : 1 < cfg.LgtmCountsRequired) :
    ((labels.filter (fun l => strings.HasPrefix l "lgtm")).length < cfg.LgtmCountsRequired →
      ("PR needs " ++ toString cfg.LgtmCountsRequired ++ " lgtm labels and now gets "
          ++ toString (labels.filter (fun l => strings.HasPrefix l "lgtm")).length ++ "\n")
        ∈ isLabelMatched labels cfg ops) ∧
    (cfg.LgtmCountsRequired ≤ (labels.filter (fun l => strings.HasPrefix l "lgtm")).length →
      ∀ r ∈ isLabelMatched labels cfg ops, strings.HasPrefix r "PR needs " = false) := by
  have hne : cfg.LgtmCountsRequired ≠ 1 := by omega
  constructor
  · intro hlt
    unfold isLabelMatched
    simp only [List.mem_append]
    left; left; left
    have hlt2 : (getLGTMLabelsOnPR labels).length < cfg.LgtmCountsRequired := hlt
    simpa [lgtmCountReasons, hne, msgNotEnoughLGTMLabel, getLGTMLabelsOnPR, lgtmLabel]
      using hlt
  · intro hge r hr
    have hge2 : ¬ (getLGTMLabelsOnPR labels).length < cfg.LgtmCountsRequired :=
      Nat.not_lt.mpr hge
    have hcnt : lgtmCountReasons labels cfg = [] := by simp [lgtmCountReasons, hne, hge2]
    rcases isLabelMatched_cases labels cfg ops r hr with
      ⟨h, _⟩ | ⟨rest, rfl⟩ | ⟨_, rest, rfl⟩ | ⟨rest, rfl⟩
    · simp [hcnt] at h
    · simp [strings.HasPrefix, String.data_append, List.isPrefixOf]
    · simp [strings.HasPrefix, String.data_append, List.isPrefixOf]
    · simp [strings.HasPrefix, String.data_append, List.isPrefixOf]

/-- Witness of C9: threshold 3 with two `lgtm-<id>` labels gives "needs 3 ... gets 2";
with three the count passes. -/
theorem C9_lgtm_count_threshold_witness :
    "PR needs 3 lgtm labels and now gets 2\n" ∈
        isLabelMatched ["approved", "lgtm-ann", "lgtm-bob"]
          ⟨[], [], 3, [], false, fun _ => true, ""⟩ [] ∧
    (∀ r ∈ isLabelMatched ["approved", "lgtm-ann", "lgtm-bob", "lgtm-cy"]
          ⟨[], [], 3, [], false, fun _ => true, ""⟩ [],
      strings.HasPrefix r "PR needs " = false) :=
  ⟨(C9_lgtm_count_threshold ["approved", "lgtm-ann", "lgtm-bob"]
      ⟨[], [], 3, [], false, fun _ => true, ""⟩ [] (by decide)).1 (by decide),
   (C9_lgtm_count_threshold ["approved", "lgtm-ann", "lgtm-bob", "lgtm-cy"]
      ⟨[], [], 3, [], false, fun _ => true, ""⟩ [] (by decide)).2 (by decide)⟩

/-! ## Label gates: the provenance gate -/

theorem getLatestLogLoop_keep (label : String) : ∀ (l : List LabelEvent) (i : Nat)
    (index : Int) (t : Nat), 0 ≤ index →
    (∀ x ∈ l, isAddOf label x = true → x.CreatedAt ≤ t) →
    getLatestLogLoop label l i index t = (index, t) := by
  intro l
  induction l with
  | nil => intro i index t _ _; rfl
  | cons x rest ih =>
    intro i index t hidx h
    have hrest : ∀ y ∈ rest, isAddOf label y = true → y.CreatedAt ≤ t :=
      fun y hy => h y (List.mem_cons_of_mem x hy)
    unfold getLatestLogLoop
    by_cases hx : isAddOf label x = true
    · have hle : x.CreatedAt ≤ t := h x (List.mem_cons_self x rest) hx
      have h1 : ¬ ((x.Action != ActionAddLabel || !strings.Contains x.LabelName label) = true) := by
        simp only [isAddOf, Bool.and_eq_true, beq_iff_eq] at hx
        simp [hx.1, hx.2]
      have h2 : ¬ ((decide (index < 0) || decide (x.CreatedAt > t)) = true) := by
        simp only [Bool.or_eq_true, decide_eq_true_eq, not_or]
        constructor <;> omega
      simp only [h1, h2, if_false]
      exact ih (i + 1) index t hidx hrest
    · have h1 : (x.Action != ActionAddLabel || !strings.Contains x.LabelName label) = true := by
        simp only [isAddOf, Bool.and_eq_true, beq_iff_eq, not_and, Bool.not_eq_true] at hx
        by_cases ha : x.Action = ActionAddLabel
        · simp [hx ha]
        · simp [ha]
      simp only [h1, if_true]
      exact ih (i + 1) index t hidx hrest

theorem getLatestLogLoop_select (label : String) (e : LabelEvent) (post : List LabelEvent)
    (he : isAddOf label e = true)
    (hpost : ∀ x ∈ post, isAddOf label x = true → x.CreatedAt ≤ e.CreatedAt) :
    ∀ (pre : List LabelEvent) (i : Nat) (index : Int) (t : Nat),
    (index < 0 ∨ t < e.CreatedAt) →
    (∀ x ∈ pre, isAddOf label x = true → x.CreatedAt < e.CreatedAt) →
    getLatestLogLoop label (pre ++ e :: post) i index t =
      (Int.ofNat (i + pre.length), e.CreatedAt) := by
  intro pre
  induction pre with
  | nil =>
    intro i index t hsel _
    simp only [List.nil_append, List.length_nil, Nat.add_zero]
    unfold getLatestLogLoop
    have h1 : ¬ ((e.Action != ActionAddLabel || !strings.Contains e.LabelName label) = true) := by
      simp only [isAddOf, Bool.and_eq_true, beq_iff_eq] at he
      simp [he.1, he.2]
    have h2 : (decide (index < 0) || decide (e.CreatedAt > t)) = true := by
      simp only [Bool.or_eq_true, decide_eq_true_eq]
      rcases hsel with h | h
      · exact Or.inl h
      · exact Or.inr h
    simp only [h1, h2, if_false, if_true]
    exact getLatestLogLoop_keep label post (i + 1) (Int.ofNat i) e.CreatedAt
      (Int.ofNat_nonneg i) hpost
  | cons x rest ih =>
    intro i index t hsel hpre
    have hrest : ∀ y ∈ rest, isAddOf label y = true → y.CreatedAt < e.CreatedAt :=
      fun y hy => hpre y (List.mem_cons_of_mem x hy)
    have hlen : i + (x :: rest).length = (i + 1) + rest.length := by
      simp only [List.length_cons]; omega
    rw [hlen, List.cons_append]
    unfold getLatestLogLoop
    split
    · exact ih (i + 1) index t hsel hrest
    · rename_i hmatch
      have hx : isAddOf label x = true := by
        simp only [Bool.or_eq_true, bne_iff_ne, ne_eq, Bool.not_eq_true', not_or,
          Decidable.not_not, Bool.not_eq_false] at hmatch
        simp [isAddOf, hmatch.1, hmatch.2]
      split
      · exact ih (i + 1) (Int.ofNat i) x.CreatedAt
          (Or.inr (hpre x (List.mem_cons_self x rest) hx)) hrest
      · exact ih (i + 1) index t hsel hrest

/-- What `getLatestLog` returns when the history is split at the event `e` that is the
latest add event whose label name contains `label`, the first listed of the latest. -/
theorem getLatestLog_select (label : String) (pre post : List LabelEvent) (e : LabelEvent)
    (he : isAddOf label e = true)
    (hpre : ∀ x ∈ pre, isAddOf label x = true → x.CreatedAt < e.CreatedAt)
    (hpost : ∀ x ∈ post, isAddOf label x = true → x.CreatedAt ≤ e.CreatedAt) :
    getLatestLog (pre ++ e :: post) label =
      if e.Username != "" then (⟨label, e.Username, e.CreatedAt⟩, true)
      else (⟨"", "", 0⟩, false) := by
  unfold getLatestLog
  have hloop := getLatestLogLoop_select label e post he hpost pre 0 (-1) 0
    (Or.inl (by decide)) hpre
  simp only [hloop, Nat.zero_add]
  have hge : Int.ofNat pre.length ≥ 0 := Int.ofNat_nonneg _
  have htn : (Int.ofNat pre.length).toNat = pre.length := rfl
  simp only [hge, if_true, htn]
  have hget : (pre ++ e :: post).get? pre.length = some e := by
    rw [List.get?_eq_getElem?, List.getElem?_append_right (Nat.le_refl _)]
    simp
  rw [hget]

/-- The text `f` gives for a label whose selected add event `e` is not by the bot. -/
theorem checkLabelsLegalF_select (label : String) (pre post : List LabelEvent)
    (e : LabelEvent) (he : isAddOf label e = true)
    (hpre : ∀ x ∈ pre, isAddOf label x = true → x.CreatedAt < e.CreatedAt)
    (hpost : ∀ x ∈ post, isAddOf label x = true → x.CreatedAt ≤ e.CreatedAt) :
    checkLabelsLegalF (pre ++ e :: post) label =
      if e.Username = "" then
        "The corresponding operation log is missing. you should delete the label and add it again by correct way"
      else if e.Username = legalLabelsAddedBy then ""
      else if strings.HasPrefix label "openeuler-cla/" then
        e.Username ++ " You can't add " ++ label
          ++ " by yourself, please remove it and use /check-cla to add it"
      else
        e.Username ++ " You can't add " ++ label ++ " by yourself, please contact the maintainers" := by
  unfold checkLabelsLegalF
  rw [getLatestLog_select label pre post e he hpre hpost]
  by_cases hu : e.Username = ""
  · simp [hu]
  · have hne : (e.Username != "") = true := by simp [hu]
    simp only [hne, if_true, hu, if_false]
    by_cases hb : e.Username = legalLabelsAddedBy
    · simp [hb]
    · simp [hb]

theorem invoke_fst {σ α : Type} (c : Call) (op : σ → Except Err α × σ) (w : World σ) :
    (invoke c op w).1 = (op w.st).1 := rfl

theorem invoke_eq {σ α : Type} (c : Call) (op : σ → Except Err α × σ) (w : World σ) :
    invoke c op w = ((op w.st).1, (invoke c op w).2) := rfl

/-- Once the history is read, a non-empty answer of `isLabelMatched` makes `canMerge`
return `false`; so does a status other than `can_be_merged`. -/
theorem canMerge_blocked_of_reasons {σ : Type} (L : Lib) (cli : iClient σ) (m : mergeHelper)
    (w : World σ) (ops : List LabelEvent)
    (hops : (cli.GetMergeRequestLabelChanges m.pid m.mrID w.st).1 = .ok ops)
    (hr : isLabelMatched (mergeHelper.getMRLabels cli m
        (invoke (Call.GetMergeRequestLabelChanges m.pid m.mrID)
          (cli.GetMergeRequestLabelChanges m.pid m.mrID) w).2).1 m.cfg ops ≠ []) :
    ∃ r, (mergeHelper.canMerge L cli m w).1 = some (r, false) := by
  unfold mergeHelper.canMerge
  by_cases hs : (m.mr.MergeStatus != canMergeStatus) = true
  · simp only [hs, if_true]
    exact ⟨_, rfl⟩
  · simp only [hs]
    rw [invoke_eq, hops]
    have hlen : (isLabelMatched (mergeHelper.getMRLabels cli m
        (invoke (Call.GetMergeRequestLabelChanges m.pid m.mrID)
          (cli.GetMergeRequestLabelChanges m.pid m.mrID) w).2).1 m.cfg ops).length > 0 :=
      List.length_pos.mpr hr
    simp only [hlen, if_true, Bool.false_eq_true, if_false]
    exact ⟨_, rfl⟩

theorem provenance_text_ne_empty (who label tail : String) :
    who ++ " You can't add " ++ label ++ tail ≠ "" := by
  intro h
  have := congrArg String.data h
  simp [String.data_append] at this

/-- The provenance gate on the event that `getLatestLog` selects: let a label of the
request be in the required set (`approved`, a configured required label, or `lgtm`
when the threshold is 1), and let `e` be the add event `getLatestLog` selects for it:
the latest among the add events whose label NAME CONTAINS the label as a substring
(not only the events of the label itself), the first listed among the latest. If the
actor of `e` is not the bot identity, the slice of `checkLabelsLegal` holds an entry
for the label (the missing-log text when the actor is empty, else the "You can't add"
text), `isLabelMatched` returns the reason of `checkLabelsLegal`, and `canMerge`
returns `ok = false`. -/
theorem provenance_gate_of_selected_event {σ : Type} (L : Lib) (cli : iClient σ) (m : mergeHelper)
    (w : World σ) (labels : List String) (pre post : List LabelEvent) (e : LabelEvent)
    (label : String) (hlab : label ∈ labels)
    (hneed : label = approvedLabel ∨ label ∈ m.cfg.LabelsForMerge ∨
      (m.cfg.LgtmCountsRequired = 1 ∧ label = lgtmLabel))
    (he : e.Action = ActionAddLabel ∧ strings.Contains e.LabelName label = true)
    (hpre : ∀ x ∈ pre, x.Action = ActionAddLabel → strings.Contains x.LabelName label = true →
      x.CreatedAt < e.CreatedAt)
    (hpost : ∀ x ∈ post, x.Action = ActionAddLabel → strings.Contains x.LabelName label = true →
      x.CreatedAt ≤ e.CreatedAt)
    (hwho : e.Username ≠ legalLabelsAddedBy) :
    (label ++ ": " ++
        (if e.Username = "" then
          "The corresponding operation log is missing. you should delete the label and add it again by correct way"
        else if strings.HasPrefix label "openeuler-cla/" then
          e.Username ++ " You can't add " ++ label
            ++ " by yourself, please remove it and use /check-cla to add it"
        else
          e.Username ++ " You can't add " ++ label
            ++ " by yourself, please contact the maintainers"))
      ∈ checkLabelsLegalEntries labels (neededLabels m.cfg) (pre ++ e :: post) ∧
    (checkLabelsLegal labels (neededLabels m.cfg) (pre ++ e :: post) ++ "\n")
      ∈ isLabelMatched labels m.cfg (pre ++ e :: post) ∧
    isLabelMatched labels m.cfg (pre ++ e :: post) ≠ [] ∧
    ((cli.GetMergeRequestLabelChanges m.pid m.mrID w.st).1 = .ok (pre ++ e :: post) →
      (mergeHelper.getMRLabels cli m
        (invoke (Call.GetMergeRequestLabelChanges m.pid m.mrID)
          (cli.GetMergeRequestLabelChanges m.pid m.mrID) w).2).1 = labels →
      ∃ r, (mergeHelper.canMerge L cli m w).1 = some (r, false)) := by
  have he' : isAddOf label e = true := by simp [isAddOf, he.1, he.2]
  have hpre' : ∀ x ∈ pre, isAddOf label x = true → x.CreatedAt < e.CreatedAt := by
    intro x hx hxa
    simp only [isAddOf, Bool.and_eq_true, beq_iff_eq] at hxa
    exact hpre x hx hxa.1 hxa.2
  have hpost' : ∀ x ∈ post, isAddOf label x = true → x.CreatedAt ≤ e.CreatedAt := by
    intro x hx hxa
    simp only [isAddOf, Bool.and_eq_true, beq_iff_eq] at hxa
    exact hpost x hx hxa.1 hxa.2
  have hF := checkLabelsLegalF_select label pre post e he' hpre' hpost'
  simp only [hwho, if_false] at hF
  have hFne : checkLabelsLegalF (pre ++ e :: post) label ≠ "" := by
    rw [hF]
    split
    · decide
    · split
      · exact provenance_text_ne_empty _ _ _
      · exact provenance_text_ne_empty _ _ _
  have hentry : (label ++ ": " ++ checkLabelsLegalF (pre ++ e :: post) label)
      ∈ checkLabelsLegalEntries labels (neededLabels m.cfg) (pre ++ e :: post) := by
    unfold checkLabelsLegalEntries
    rw [List.mem_filterMap]
    refine ⟨label, hlab, ?_⟩
    have hn : sets.Has (neededLabels m.cfg) label = true := by
      rw [sets.Has_iff, mem_neededLabels]; exact hneed
    simp [hn, hFne]
  have hlegal : checkLabelsLegal labels (neededLabels m.cfg) (pre ++ e :: post) ≠ "" := by
    unfold checkLabelsLegal
    have hpos : (checkLabelsLegalEntries labels (neededLabels m.cfg) (pre ++ e :: post)).length > 0 :=
      List.length_pos_of_mem hentry
    simp only [hpos, if_true]
    intro h
    have := congrArg String.data h
    simp [String.data_append] at this
  have hmem : (checkLabelsLegal labels (neededLabels m.cfg) (pre ++ e :: post) ++ "\n")
      ∈ isLabelMatched labels m.cfg (pre ++ e :: post) := by
    unfold isLabelMatched
    simp only [List.mem_append]
    left; left; right
    simp [legalReasons, hlegal]
  refine ⟨?_, hmem, List.ne_nil_of_mem hmem, ?_⟩
  · rw [hF] at hentry; exact hentry
  · intro hops hlabels
    apply canMerge_blocked_of_reasons L cli m w (pre ++ e :: post) hops
    rw [hlabels]
    exact List.ne_nil_of_mem hmem

/-- An instance of the provenance gate: `lgtm` last added by `mallory`, with no
namesake label in the history. -/
theorem provenance_gate_of_selected_event_example :
    "lgtm: mallory You can't add lgtm by yourself, please contact the maintainers"
      ∈ checkLabelsLegalEntries ["approved", "lgtm"] (neededLabels (plainConfig 1))
          [⟨"add", "approved", "wanghao", 1⟩, ⟨"add", "lgtm", "mallory", 5⟩] ∧
    ∃ r, (mergeHelper.canMerge plainLib
      (labelClient [⟨"add", "approved", "wanghao", 1⟩, ⟨"add", "lgtm", "mallory", 5⟩]
        ["approved", "lgtm"])
      (plainHelper ["approved", "lgtm"] (plainConfig 1) "rita") ⟨(), []⟩).1
      = some (r, false) :=
  have h := provenance_gate_of_selected_event plainLib
    (labelClient [⟨"add", "approved", "wanghao", 1⟩, ⟨"add", "lgtm", "mallory", 5⟩]
      ["approved", "lgtm"])
    (plainHelper ["approved", "lgtm"] (plainConfig 1) "rita") ⟨(), []⟩
    ["approved", "lgtm"] [⟨"add", "approved", "wanghao", 1⟩] [] ⟨"add", "lgtm", "mallory", 5⟩
    "lgtm" (by decide) (Or.inr (Or.inr ⟨rfl, rfl⟩)) (by decide) (by decide) (by decide)
    (by decide)
  ⟨h.1, h.2.2.2 rfl (by decide)⟩

/-- C2, the code at a request with the labels `approved` and `lgtm`, threshold 1, whose
label history is: `approved` added by the bot, `lgtm` added by hand by `mallory`, then
`lgtm-bob` added by the bot. `lgtm` is on the request and required, its only add event,
hence its most recent one, is by `mallory`, not by the bot identity; yet
`isLabelMatched` returns no reason and `canMerge` returns `ok = true`, because
`getLatestLog` tests the label name with `strings.Contains` and answers for `lgtm`
with the later add event of `lgtm-bob`. On the same history without the `lgtm-bob`
event the provenance reason for `lgtm` is returned and `canMerge` returns
`ok = false`. -/
theorem C2_namesake_hides_manual_add :
    "lgtm" ∈ ["approved", "lgtm"] ∧ "lgtm" ∈ neededLabels (plainConfig 1) ∧
    (⟨"add", "lgtm", "mallory", 5⟩ : LabelEvent) ∈ historyWithNamesake ∧
    (∀ x ∈ historyWithNamesake, x.Action = "add" → x.LabelName = "lgtm" →
      x = ⟨"add", "lgtm", "mallory", 5⟩) ∧
    "mallory" ≠ legalLabelsAddedBy ∧
    getLatestLog historyWithNamesake "lgtm" = (⟨"lgtm", "wanghao", 9⟩, true) ∧
    isLabelMatched ["approved", "lgtm"] (plainConfig 1) historyWithNamesake = [] ∧
    (mergeHelper.canMerge plainLib (labelClient historyWithNamesake ["approved", "lgtm"])
      (plainHelper ["approved", "lgtm"] (plainConfig 1) "rita") ⟨(), []⟩).1
      = some ([], true) ∧
    isLabelMatched ["approved", "lgtm"] (plainConfig 1)
        [⟨"add", "approved", "wanghao", 1⟩, ⟨"add", "lgtm", "mallory", 5⟩]
      = ["**The following label is not ready**.\n\nlgtm: mallory You can't add lgtm by yourself, please contact the maintainers\n"] ∧
    (mergeHelper.canMerge plainLib
      (labelClient [⟨"add", "approved", "wanghao", 1⟩, ⟨"add", "lgtm", "mallory", 5⟩]
        ["approved", "lgtm"])
      (plainHelper ["approved", "lgtm"] (plainConfig 1) "rita") ⟨(), []⟩).1
      = some (["**The following label is not ready**.\n\nlgtm: mallory You can't add lgtm by yourself, please contact the maintainers\n"], false) := by
  decide

/-! ## The trace of `canMerge` -/

theorem invoke_error_trace {σ α : Type} {c : Call} {op : σ → Except Err α × σ} {w w1 : World σ}
    {e : Err} (h : invoke c op w = (Except.error e, w1)) :
    w1.trace = w.trace ++ [⟨c, true⟩] := by
  have h1 : (op w.st).1 = Except.error e := congrArg Prod.fst h
  have h2 : (invoke c op w).2 = w1 := congrArg Prod.snd h
  rw [← h2]
  simp [invoke, h1, isError]

theorem invoke_ok_trace {σ α : Type} {c : Call} {op : σ → Except Err α × σ} {w w1 : World σ}
    {a : α} (h : invoke c op w = (Except.ok a, w1)) :
    w1.trace = w.trace ++ [⟨c, false⟩] := by
  have h1 : (op w.st).1 = Except.ok a := congrArg Prod.fst h
  have h2 : (invoke c op w).2 = w1 := congrArg Prod.snd h
  rw [← h2]
  simp [invoke, h1, isError]

theorem Extends.refl {σ : Type} (w : World σ) (P : Ev → Prop) : Extends w w P :=
  ⟨[], by simp, by simp⟩

theorem Extends.trans {σ : Type} {w w1 w2 : World σ} {P : Ev → Prop}
    (h1 : Extends w w1 P) (h2 : Extends w1 w2 P) : Extends w w2 P := by
  obtain ⟨n1, e1, p1⟩ := h1
  obtain ⟨n2, e2, p2⟩ := h2
  refine ⟨n1 ++ n2, by rw [e2, e1, List.append_assoc], ?_⟩
  intro ev hev
  rcases List.mem_append.mp hev with h | h
  · exact p1 ev h
  · exact p2 ev h

theorem Extends.mono {σ : Type} {w w1 : World σ} {P Q : Ev → Prop}
    (h : Extends w w1 P) (hpq : ∀ ev, P ev → Q ev) : Extends w w1 Q := by
  obtain ⟨n, e, p⟩ := h
  exact ⟨n, e, fun ev hev => hpq ev (p ev hev)⟩

theorem Extends.of_error {σ α : Type} {c : Call} {op : σ → Except Err α × σ} {w w1 : World σ}
    {e : Err} {P : Ev → Prop} (h : invoke c op w = (Except.error e, w1)) (hp : P ⟨c, true⟩) :
    Extends w w1 P :=
  ⟨[⟨c, true⟩], invoke_error_trace h, by simpa using hp⟩

theorem Extends.of_ok {σ α : Type} {c : Call} {op : σ → Except Err α × σ} {w w1 : World σ}
    {a : α} {P : Ev → Prop} (h : invoke c op w = (Except.ok a, w1)) (hp : P ⟨c, false⟩) :
    Extends w w1 P :=
  ⟨[⟨c, false⟩], invoke_ok_trace h, by simpa using hp⟩

theorem freezeCall.notLabelsRead {ev : Ev} (h : freezeCall ev) : notLabelsRead ev := by
  intro p i hc
  rcases h with h | ⟨g, h⟩ | ⟨p1, f, b, h⟩ <;> rw [h] at hc <;> simp at hc

/-- The calls of `getFreezeProjectID`: none reads the labels, and a failed one makes the
function return an error. -/
theorem getFreezeProjectID_trace {σ : Type} (cli : iClient σ) (org repo : String)
    (w : World σ) :
    Extends w (mergeHelper.getFreezeProjectID cli org repo w).2 (fun ev =>
      freezeCall ev ∧ (ev.failed = true →
        ∃ e, (mergeHelper.getFreezeProjectID cli org repo w).1 = Except.error e)) := by
  unfold mergeHelper.getFreezeProjectID
  split
  · rename_i err w1 h
    exact Extends.of_error h ⟨by simp [freezeCall], fun _ => ⟨err, rfl⟩⟩
  · rename_i grps w1 h
    split
    · exact Extends.of_ok h ⟨by simp [freezeCall], fun hf => by simp at hf⟩
    · simp only
      split
      · rename_i err w2 h2
        exact Extends.trans
          (Extends.of_ok h ⟨by simp [freezeCall], fun hf => by simp at hf⟩)
          (Extends.of_error h2 ⟨by simp [freezeCall], fun _ => ⟨err, rfl⟩⟩)
      · rename_i prjs w2 h2
        split
        · exact Extends.trans
            (Extends.of_ok h ⟨by simp [freezeCall], fun hf => by simp at hf⟩)
            (Extends.of_ok h2 ⟨by simp [freezeCall], fun hf => by simp at hf⟩)
        · exact Extends.trans
            (Extends.of_ok h ⟨by simp [freezeCall], fun hf => by simp at hf⟩)
            (Extends.of_ok h2 ⟨by simp [freezeCall], fun hf => by simp at hf⟩)

/-- The calls of `getFreezeContent`: none reads the labels, and a failed one makes the
function return that error. -/
theorem getFreezeContent_trace {σ : Type} (L : Lib) (cli : iClient σ) (f : freezeFile)
    (w : World σ) :
    Extends w (mergeHelper.getFreezeContent L cli f w).2 (fun ev =>
      freezeCall ev ∧ (ev.failed = true →
        ∃ e, (mergeHelper.getFreezeContent L cli f w).1 = Except.error (Fault.err e))) := by
  have hp := getFreezeProjectID_trace cli f.Owner f.Repo w
  unfold mergeHelper.getFreezeContent
  split
  · rename_i err w1 h
    rw [h] at hp
    exact hp.mono (fun ev hev => ⟨hev.1, fun _ => ⟨err, rfl⟩⟩)
  · rename_i pid w1 h
    rw [h] at hp
    have hp1 : Extends w w1 (fun ev => freezeCall ev ∧ ev.failed = false) :=
      hp.mono (fun ev hev => ⟨hev.1, by
        cases hf : ev.failed
        · rfl
        · obtain ⟨e, he⟩ := hev.2 hf
          simp at he⟩)
    split
    · exact hp1.mono (fun ev hev => ⟨hev.1, fun hf => by simp [hev.2] at hf⟩)
    · split
      · rename_i err w2 h2
        exact Extends.trans
          (hp1.mono (fun ev hev => ⟨hev.1, fun hf => by simp [hev.2] at hf⟩))
          (Extends.of_error h2 ⟨by simp [freezeCall], fun _ => ⟨err, rfl⟩⟩)
      · rename_i w2 h2
        exact Extends.trans
          (hp1.mono (fun ev hev => ⟨hev.1, fun hf => by simp [hev.2] at hf⟩))
          (Extends.of_ok h2 ⟨by simp [freezeCall], fun hf => by simp at hf⟩)
      · rename_i c w2 h2
        have hall : Extends w w2 (fun ev => freezeCall ev ∧ ev.failed = false) :=
          Extends.trans hp1 (Extends.of_ok h2 ⟨by simp [freezeCall], rfl⟩)
        split
        · exact hall.mono (fun ev hev => ⟨hev.1, fun hf => by simp [hev.2] at hf⟩)
        · split
          · exact hall.mono (fun ev hev => ⟨hev.1, fun hf => by simp [hev.2] at hf⟩)
          · exact hall.mono (fun ev hev => ⟨hev.1, fun hf => by simp [hev.2] at hf⟩)

/-- The calls of the loop of `getFreezeInfo`: none reads the labels, and a failed one
makes the function return that error. -/
theorem getFreezeInfoLoop_trace {σ : Type} (L : Lib) (cli : iClient σ) (m : mergeHelper) :
    ∀ (fs : List freezeFile) (w : World σ),
    Extends w (mergeHelper.getFreezeInfoLoop L cli m fs w).2 (fun ev =>
      freezeCall ev ∧ (ev.failed = true →
        ∃ e, (mergeHelper.getFreezeInfoLoop L cli m fs w).1 = Except.error (Fault.err e))) := by
  intro fs
  induction fs with
  | nil => intro w; exact Extends.refl _ _
  | cons v rest ih =>
    intro w
    have hc := getFreezeContent_trace L cli v w
    unfold mergeHelper.getFreezeInfoLoop
    split
    · rename_i err w1 h
      rw [h] at hc
      exact hc.mono (fun ev hev => ⟨hev.1, fun hf => by
        obtain ⟨e, he⟩ := hev.2 hf
        exact ⟨e, by simpa using he⟩⟩)
    · rename_i fc w1 h
      rw [h] at hc
      have hc1 : Extends w w1 (fun ev => freezeCall ev ∧ ev.failed = false) :=
        hc.mono (fun ev hev => ⟨hev.1, by
          cases hf : ev.failed
          · rfl
          · obtain ⟨e, he⟩ := hev.2 hf
            simp at he⟩)
      split
      · exact hc1.mono (fun ev hev => ⟨hev.1, fun hf => by simp [hev.2] at hf⟩)
      · exact Extends.trans
          (hc1.mono (fun ev hev => ⟨hev.1, fun hf => by simp [hev.2] at hf⟩))
          (ih w1)

/-- The only call of `getMRLabels` is the read of the current labels. -/
theorem getMRLabels_trace {σ : Type} (cli : iClient σ) (m : mergeHelper) (w : World σ) :
    Extends w (mergeHelper.getMRLabels cli m w).2 (fun ev => ¬ notLabelsRead ev) := by
  unfold mergeHelper.getMRLabels
  split
  · exact Extends.refl _ _
  · split
    · rename_i h
      exact Extends.of_error h (by simp [notLabelsRead])
    · rename_i h
      exact Extends.of_ok h (by simp [notLabelsRead])

/-- The calls of `canMerge`: a failed one, unless it is the read of the current labels,
makes `canMerge` return `false`. -/
theorem canMerge_trace {σ : Type} (L : Lib) (cli : iClient σ) (m : mergeHelper)
    (w : World σ) :
    Extends w (mergeHelper.canMerge L cli m w).2 (fun ev =>
      ev.failed = true → notLabelsRead ev →
        ∃ r, (mergeHelper.canMerge L cli m w).1 = some (r, false)) := by
  unfold mergeHelper.canMerge
  split
  · exact Extends.refl _ _
  · split
    · rename_i h
      exact Extends.of_error h (fun _ _ => ⟨_, rfl⟩)
    · rename_i ops w1 h
      have h1 : Extends w w1 (fun ev => ev.failed = false ∨ ¬ notLabelsRead ev) :=
        Extends.of_ok h (Or.inl rfl)
      split
      rename_i labels w2 hl
      have h2 : Extends w w2 (fun ev => ev.failed = false ∨ ¬ notLabelsRead ev) := by
        have := getMRLabels_trace cli m w1
        rw [hl] at this
        exact Extends.trans h1 (this.mono (fun ev hev => Or.inr hev))
      have hfree := getFreezeInfoLoop_trace L cli m m.cfg.FreezeFile w2
      split
      · exact h2.mono (fun ev hev _ _ => ⟨_, rfl⟩)
      · unfold mergeHelper.getFreezeInfo
        split
        · rename_i hf
          rw [hf] at hfree
          exact Extends.trans (h2.mono (fun ev hev _ _ => ⟨_, rfl⟩))
            (hfree.mono (fun ev hev _ _ => ⟨_, rfl⟩))
        · rename_i hf
          rw [hf] at hfree
          refine Extends.trans (h2.mono (fun ev hev hfail hn => ?_))
            (hfree.mono (fun ev hev hfail hn => ?_))
          · rcases hev with h | h
            · simp [h] at hfail
            · exact absurd hn h
          · obtain ⟨e, he⟩ := hev.2 hfail
            simp at he
        · rename_i hf
          rw [hf] at hfree
          refine Extends.trans (h2.mono (fun ev hev hfail hn => ?_))
            (hfree.mono (fun ev hev hfail hn => ?_))
          · rcases hev with h | h
            · simp [h] at hfail
            · exact absurd hn h
          · obtain ⟨e, he⟩ := hev.2 hfail
            simp at he
        · rename_i freeze w3 hf
          rw [hf] at hfree
          have h3 : Extends w w3 (fun ev => ev.failed = true → notLabelsRead ev → False) := by
            refine Extends.trans (h2.mono (fun ev hev hfail hn => ?_))
              (hfree.mono (fun ev hev hfail hn => ?_))
            · rcases hev with h | h
              · simp [h] at hfail
              · exact absurd hn h
            · obtain ⟨e, he⟩ := hev.2 hfail
              simp at he
          split
          · exact h3.mono (fun ev hev hfail hn => (hev hfail hn).elim)
          · split
            · exact h3.mono (fun ev hev hfail hn => (hev hfail hn).elim)
            · split
              · exact h3.mono (fun ev hev hfail hn => (hev hfail hn).elim)
              · exact h3.mono (fun ev hev hfail hn => (hev hfail hn).elim)

/-! ## Failed calls during `canMerge` -/

/-- C3, as the code has it: when a call made while `canMerge` evaluates its gates
fails, and the call is the read of the label history or one made to resolve or fetch a
freeze file, `canMerge` returns `ok = false`. A failed read of the current labels is
not such a call: `getMRLabels` then answers with the labels of the merge request it
holds, and the evaluation goes on with them. -/
theorem C3_failed_call_blocks {σ : Type} (L : Lib) (cli : iClient σ) (m : mergeHelper)
    (s : σ) (w : World σ) (ev : Ev)
    (hev : ev ∈ (mergeHelper.canMerge L cli m ⟨s, []⟩).2.trace)
    (hfail : ev.failed = true) :
    ((∀ p i, ev.call ≠ Call.GetMergeRequestLabels p i) →
      ∃ r, (mergeHelper.canMerge L cli m ⟨s, []⟩).1 = some (r, false)) ∧
    (isError (cli.GetMergeRequestLabels m.pid m.mrID w.st).1 = true →
      (mergeHelper.getMRLabels cli m w).1 = sets.NewString m.mr.Labels) := by
  constructor
  · intro hcall
    obtain ⟨new, htr, hnew⟩ := canMerge_trace L cli m ⟨s, []⟩
    rw [htr] at hev
    simp only [List.nil_append] at hev
    exact hnew ev hev hfail hcall
  · intro herr
    unfold mergeHelper.getMRLabels
    split
    · rfl
    · rw [invoke_eq]
      cases h : (cli.GetMergeRequestLabels m.pid m.mrID w.st).1 with
      | error e => rfl
      | ok a => rw [h] at herr; simp [isError] at herr

/-- Counterexample to C3 as stated: the read of the current labels fails while
`canMerge` evaluates the label gates, and `canMerge` returns `ok = true`, on the labels
of the merge request it holds. -/
theorem C3_counterexample :
    (⟨Call.GetMergeRequestLabels 1 7, true⟩ : Ev) ∈
      (mergeHelper.canMerge plainLib labelsDownClient
        (plainHelper ["approved", "lgtm"] (plainConfig 1) "rita") ⟨(), []⟩).2.trace ∧
    (mergeHelper.canMerge plainLib labelsDownClient
        (plainHelper ["approved", "lgtm"] (plainConfig 1) "rita") ⟨(), []⟩).1
      = some ([], true) := by
  decide

/-- Witness of C3: the list of groups cannot be read while the freeze file is resolved. -/
theorem C3_failed_call_blocks_witness :
    (⟨Call.GetGroups, true⟩ : Ev) ∈
      (mergeHelper.canMerge plainLib groupsDownClient
        (plainHelper ["approved", "lgtm"] freezeConfig "rita") ⟨(), []⟩).2.trace ∧
    ∃ r, (mergeHelper.canMerge plainLib groupsDownClient
        (plainHelper ["approved", "lgtm"] freezeConfig "rita") ⟨(), []⟩).1
      = some (r, false) :=
  ⟨by decide,
   (C3_failed_call_blocks plainLib groupsDownClient
      (plainHelper ["approved", "lgtm"] freezeConfig "rita") () ⟨(), []⟩
      ⟨Call.GetGroups, true⟩ (by decide) rfl).1 (fun _ _ => by simp)⟩

/-! ## A request that passes every gate -/

theorem strings.Contains_self (s : String) : strings.Contains s s = true := by
  unfold strings.Contains
  cases s.data with
  | nil => rfl
  | cons c rest => simp [strings.containsChars]

theorem getLatestLogLoop_index (label : String) : ∀ (l : List LabelEvent) (i : Nat)
    (index : Int) (t : Nat),
    (getLatestLogLoop label l i index t).1 = index ∨
    ∃ k e, l.get? k = some e ∧ isAddOf label e = true ∧
      (getLatestLogLoop label l i index t).1 = Int.ofNat (i + k) := by
  intro l
  induction l with
  | nil => intro i index t; exact Or.inl rfl
  | cons x rest ih =>
    intro i index t
    have shift : ∀ (idx : Int) (tt : Nat),
        (∃ k e, rest.get? k = some e ∧ isAddOf label e = true ∧
          (getLatestLogLoop label rest (i + 1) idx tt).1 = Int.ofNat (i + 1 + k)) →
        ∃ k e, (x :: rest).get? k = some e ∧ isAddOf label e = true ∧
          (getLatestLogLoop label rest (i + 1) idx tt).1 = Int.ofNat (i + k) := by
      rintro idx tt ⟨k, e, hk, he, hr⟩
      refine ⟨k + 1, e, by simpa using hk, he, ?_⟩
      rw [hr]
      congr 1
      omega
    unfold getLatestLogLoop
    split
    · rcases ih (i + 1) index t with h | h
      · exact Or.inl h
      · exact Or.inr (shift index t h)
    · rename_i hmatch
      have hx : isAddOf label x = true := by
        simp only [Bool.or_eq_true, bne_iff_ne, ne_eq, Bool.not_eq_true', not_or,
          Decidable.not_not, Bool.not_eq_false] at hmatch
        simp [isAddOf, hmatch.1, hmatch.2]
      split
      · rcases ih (i + 1) (Int.ofNat i) x.CreatedAt with h | h
        · exact Or.inr ⟨0, x, rfl, hx, by rw [h]; rfl⟩
        · exact Or.inr (shift _ _ h)
      · rcases ih (i + 1) index t with h | h
        · exact Or.inl h
        · exact Or.inr (shift index t h)

theorem getLatestLogLoop_found (label : String) : ∀ (l : List LabelEvent) (i : Nat)
    (index : Int) (t : Nat), (0 ≤ index ∨ ∃ x ∈ l, isAddOf label x = true) →
    0 ≤ (getLatestLogLoop label l i index t).1 := by
  intro l
  induction l with
  | nil =>
    intro i index t h
    rcases h with h | ⟨x, hx, _⟩
    · exact h
    · simp at hx
  | cons x rest ih =>
    intro i index t h
    unfold getLatestLogLoop
    split
    · rename_i hmatch
      apply ih
      rcases h with h | ⟨y, hy, hya⟩
      · exact Or.inl h
      · rcases List.mem_cons.mp hy with rfl | hy
        · exfalso
          simp only [isAddOf, Bool.and_eq_true, beq_iff_eq] at hya
          simp [hya.1, hya.2] at hmatch
        · exact Or.inr ⟨y, hy, hya⟩
    · split
      · exact ih _ _ _ (Or.inl (Int.ofNat_nonneg i))
      · rename_i hsel
        apply ih
        left
        simp only [Bool.or_eq_true, decide_eq_true_eq, not_or, not_lt] at hsel
        exact hsel.1

/-- When the history holds an add event whose label name contains `label`,
`getLatestLog` answers with the actor of one of them. -/
theorem getLatestLog_of_exists (label : String) (ops : List LabelEvent)
    (h : ∃ x ∈ ops, isAddOf label x = true) :
    ∃ e ∈ ops, isAddOf label e = true ∧
      getLatestLog ops label =
        if e.Username != "" then
          (⟨label, e.Username, (getLatestLogLoop label ops 0 (-1) 0).2⟩, true)
        else (⟨"", "", 0⟩, false) := by
  have hfound := getLatestLogLoop_found label ops 0 (-1) 0 (Or.inr h)
  rcases getLatestLogLoop_index label ops 0 (-1) 0 with hidx | ⟨k, e, hk, he, hidx⟩
  · rw [hidx] at hfound
    exact absurd hfound (by decide)
  · refine ⟨e, List.get?_mem hk, he, ?_⟩
    unfold getLatestLog
    have hge : (getLatestLogLoop label ops 0 (-1) 0).1 ≥ 0 := hfound
    have htn : (getLatestLogLoop label ops 0 (-1) 0).1.toNat = k := by
      rw [hidx]; simp
    simp only [hge, if_true, htn, hk]

/-- The text of `f` is empty for a label that has an add event when every add event
is by the bot. -/
theorem checkLabelsLegalF_clean (label : String) (ops : List LabelEvent)
    (hbot : ∀ op ∈ ops, op.Action = ActionAddLabel → op.Username = legalLabelsAddedBy)
    (hhas : ∃ op ∈ ops, op.Action = ActionAddLabel ∧ op.LabelName = label) :
    checkLabelsLegalF ops label = "" := by
  obtain ⟨op, hop, hact, hname⟩ := hhas
  have hex : ∃ x ∈ ops, isAddOf label x = true :=
    ⟨op, hop, by simp [isAddOf, hact, hname, strings.Contains_self]⟩
  obtain ⟨e, he, hea, hlog⟩ := getLatestLog_of_exists label ops hex
  have hact2 : e.Action = ActionAddLabel := by
    simp only [isAddOf, Bool.and_eq_true, beq_iff_eq] at hea
    exact hea.1
  have hwho := hbot e he hact2
  unfold checkLabelsLegalF
  rw [hlog, hwho]
  simp [legalLabelsAddedBy]

/-- The label gates pass for the label set {approved, lgtm} under threshold 1 with
nothing else required or excluded, when every add event of the history is by the bot
and each of the two labels has one. -/
theorem isLabelMatched_clean (labels : List String) (cfg : botConfig) (ops : List LabelEvent)
    (hlabels : ∀ l, l ∈ labels ↔ l = approvedLabel ∨ l = lgtmLabel)
    (h1 : cfg.LgtmCountsRequired = 1) (hreq : cfg.LabelsForMerge = [])
    (hforb : cfg.MissingLabelsForMerge = [])
    (hbot : ∀ op ∈ ops, op.Action = ActionAddLabel → op.Username = legalLabelsAddedBy)
    (happ : ∃ op ∈ ops, op.Action = ActionAddLabel ∧ op.LabelName = approvedLabel)
    (hlgtm : ∃ op ∈ ops, op.Action = ActionAddLabel ∧ op.LabelName = lgtmLabel) :
    isLabelMatched labels cfg ops = [] := by
  have hcnt : lgtmCountReasons labels cfg = [] := by simp [lgtmCountReasons, h1]
  have hinv : invalidReasons labels cfg = [] := by simp [invalidReasons, hforb]
  have hmiss : missingReasons labels cfg = [] := by
    have hdiff : sets.Difference (neededLabels cfg) labels = [] := by
      simp only [sets.Difference, List.filter_eq_nil_iff, mem_neededLabels, hreq]
      rintro a (rfl | h | ⟨_, rfl⟩)
      · simp [sets.Has, (hlabels approvedLabel).mpr (Or.inl rfl)]
      · simp at h
      · simp [sets.Has, (hlabels lgtmLabel).mpr (Or.inr rfl)]
    simp [missingReasons, hdiff]
  have hent : checkLabelsLegalEntries labels (neededLabels cfg) ops = [] := by
    unfold checkLabelsLegalEntries
    rw [List.filterMap_eq_nil_iff]
    intro l hl
    have hF : checkLabelsLegalF ops l = "" := by
      rcases (hlabels l).mp hl with rfl | rfl
      · exact checkLabelsLegalF_clean _ ops hbot happ
      · exact checkLabelsLegalF_clean _ ops hbot hlgtm
    simp [hF]
  have hleg : legalReasons labels cfg ops = [] := by
    simp [legalReasons, checkLabelsLegal, hent]
  simp [isLabelMatched, hcnt, hinv, hmiss, hleg]

theorem freezeCall.noMerge {ev : Ev} (h : freezeCall ev) : noMerge ev := by
  intro p i hc
  rcases h with h | ⟨g, h⟩ | ⟨p1, f, b, h⟩ <;> rw [h] at hc <;> simp at hc

theorem noMerge_of_labelsRead {ev : Ev} (h : ¬ notLabelsRead ev) : noMerge ev := by
  intro p i hc
  apply h
  intro p1 i1 hc1
  rw [hc] at hc1
  simp at hc1

/-- No call of `canMerge` is a merge. -/
theorem canMerge_calls {σ : Type} (L : Lib) (cli : iClient σ) (m : mergeHelper)
    (w : World σ) : Extends w (mergeHelper.canMerge L cli m w).2 noMerge := by
  unfold mergeHelper.canMerge
  split
  · exact Extends.refl _ _
  · split
    · rename_i h
      exact Extends.of_error h (by simp [noMerge])
    · rename_i ops w1 h
      have h1 : Extends w w1 noMerge := Extends.of_ok h (by simp [noMerge])
      split
      rename_i labels w2 hl
      have h2 : Extends w w2 noMerge := by
        have := getMRLabels_trace cli m w1
        rw [hl] at this
        exact Extends.trans h1 (this.mono (fun ev hev => noMerge_of_labelsRead hev))
      have hfree := (getFreezeInfoLoop_trace L cli m m.cfg.FreezeFile w2).mono
        (fun ev hev => hev.1.noMerge)
      split
      · exact h2
      · unfold mergeHelper.getFreezeInfo
        split
        · rename_i hf; rw [hf] at hfree; exact Extends.trans h2 hfree
        · rename_i hf; rw [hf] at hfree; exact Extends.trans h2 hfree
        · rename_i hf; rw [hf] at hfree; exact Extends.trans h2 hfree
        · rename_i hf
          rw [hf] at hfree
          have h3 := Extends.trans h2 hfree
          split
          · exact h3
          · split
            · exact h3
            · split
              · exact h3
              · exact h3

/-- The only call of `genMergeDesc` is the read of the comments. -/
theorem genMergeDesc_calls {σ : Type} (L : Lib) (cli : iClient σ) (m : mergeHelper)
    (w : World σ) : Extends w (mergeHelper.genMergeDesc L cli m w).2 noMerge := by
  unfold mergeHelper.genMergeDesc
  split
  · rename_i h
    exact Extends.of_error h (by simp [noMerge])
  · rename_i h
    have h1 := Extends.of_ok (P := noMerge) h (by simp [noMerge])
    split
    · exact h1
    · simp only
      split
      · exact h1
      · exact h1

/-- The calls of `merge` after the read of the comments: the update, and the merge
when the update succeeded. -/
theorem merge_trace {σ : Type} (L : Lib) (cli : iClient σ) (m : mergeHelper) (w : World σ) :
    ∃ opts,
      ((mergeHelper.merge L cli m w).2.trace =
          (mergeHelper.genMergeDesc L cli m w).2.trace
            ++ [⟨Call.UpdateMergeRequest m.pid m.mrID opts, true⟩] ∧
        ∃ err, (mergeHelper.merge L cli m w).1 = .error err) ∨
      ∃ failed, (mergeHelper.merge L cli m w).2.trace =
        (mergeHelper.genMergeDesc L cli m w).2.trace
          ++ [⟨Call.UpdateMergeRequest m.pid m.mrID opts, false⟩,
            ⟨Call.MergeMergeRequest m.pid m.mrID, failed⟩] := by
  unfold mergeHelper.merge
  split
  rename_i desc w1 hd
  refine ⟨⟨some desc, some [], some []⟩, ?_⟩
  rw [hd]
  split
  · rename_i err w2 hu
    left
    exact ⟨invoke_error_trace hu, err, rfl⟩
  · rename_i a w2 hu
    right
    refine ⟨isError (cli.MergeMergeRequest m.pid m.mrID w2.st).1, ?_⟩
    simp only [invoke, invoke_ok_trace hu, List.append_assoc, List.singleton_append]

/-- When the merge request is fetched and `canMerge` answers `true`, `tryMerge` is
`merge`. -/
theorem tryMerge_of_canMerge {σ : Type} (L : Lib) (cli : iClient σ) (e : MergeCommentEvent)
    (cfg : botConfig) (addComment : Bool) (w : World σ) (mr : MergeRequest) (r : List String)
    (hmr : (cli.GetMergeRequest e.ProjectID e.MergeRequestIID w.st).1 = .ok mr)
    (hcan : (mergeHelper.canMerge L cli (tryMergeHelper e cfg mr)
        (invoke (Call.GetMergeRequest e.ProjectID e.MergeRequestIID)
          (cli.GetMergeRequest e.ProjectID e.MergeRequestIID) w).2).1 = some (r, true)) :
    tryMerge L cli e cfg addComment w =
      (some (mergeHelper.merge L cli (tryMergeHelper e cfg mr)
          (mergeHelper.canMerge L cli (tryMergeHelper e cfg mr)
            (invoke (Call.GetMergeRequest e.ProjectID e.MergeRequestIID)
              (cli.GetMergeRequest e.ProjectID e.MergeRequestIID) w).2).2).1,
        (mergeHelper.merge L cli (tryMergeHelper e cfg mr)
          (mergeHelper.canMerge L cli (tryMergeHelper e cfg mr)
            (invoke (Call.GetMergeRequest e.ProjectID e.MergeRequestIID)
              (cli.GetMergeRequest e.ProjectID e.MergeRequestIID) w).2).2).2) := by
  unfold tryMerge
  rw [invoke_eq (Call.GetMergeRequest _ _), hmr]
  simp only
  have hc : mergeHelper.canMerge L cli (tryMergeHelper e cfg mr)
        (invoke (Call.GetMergeRequest e.ProjectID e.MergeRequestIID)
          (cli.GetMergeRequest e.ProjectID e.MergeRequestIID) w).2
      = (some (r, true), (mergeHelper.canMerge L cli (tryMergeHelper e cfg mr)
        (invoke (Call.GetMergeRequest e.ProjectID e.MergeRequestIID)
          (cli.GetMergeRequest e.ProjectID e.MergeRequestIID) w).2).2) :=
    Prod.ext hcan rfl
  rw [hc]

/-- C1, as the code has it: a merge request with status `can_be_merged` and the label
set {approved, lgtm}, under `LgtmCountsRequired = 1` with no other required label and
no label to be absent, a label history whose add events are all by the bot and include
one for each of the two labels, and a freeze lookup that finds no frozen rule:
`canMerge` returns no reason and `ok = true`, and `tryMerge` then calls
`UpdateMergeRequest` for that request and, when that call succeeds, `MergeMergeRequest`
for it right after; when the update fails `tryMerge` returns the error and no merge
call is made. -/
theorem C1_ready_request_is_merged {σ : Type} (L : Lib) (cli : iClient σ)
    (e : MergeCommentEvent) (cfg : botConfig) (addComment : Bool) (s : σ)
    (mr : MergeRequest) (ops : List LabelEvent) (fi : Option L.freezeItem)
    (hmr : (cli.GetMergeRequest e.ProjectID e.MergeRequestIID s).1 = .ok mr)
    (hstatus : mr.MergeStatus = canMergeStatus)
    (hops : (cli.GetMergeRequestLabelChanges e.ProjectID e.MergeRequestIID
      (invoke (Call.GetMergeRequest e.ProjectID e.MergeRequestIID)
        (cli.GetMergeRequest e.ProjectID e.MergeRequestIID) ⟨s, []⟩).2.st).1 = .ok ops)
    (hlabels : ∀ l, l ∈ (mergeHelper.getMRLabels cli (tryMergeHelper e cfg mr)
        (invoke (Call.GetMergeRequestLabelChanges e.ProjectID e.MergeRequestIID)
          (cli.GetMergeRequestLabelChanges e.ProjectID e.MergeRequestIID)
          (invoke (Call.GetMergeRequest e.ProjectID e.MergeRequestIID)
            (cli.GetMergeRequest e.ProjectID e.MergeRequestIID) ⟨s, []⟩).2).2).1
      ↔ l = approvedLabel ∨ l = lgtmLabel)
    (h1 : cfg.LgtmCountsRequired = 1) (hreq : cfg.LabelsForMerge = [])
    (hforb : cfg.MissingLabelsForMerge = [])
    (hbot : ∀ op ∈ ops, op.Action = ActionAddLabel → op.Username = legalLabelsAddedBy)
    (happ : ∃ op ∈ ops, op.Action = ActionAddLabel ∧ op.LabelName = approvedLabel)
    (hlgtm : ∃ op ∈ ops, op.Action = ActionAddLabel ∧ op.LabelName = lgtmLabel)
    (hfreeze : (mergeHelper.getFreezeInfo L cli (tryMergeHelper e cfg mr)
        (mergeHelper.getMRLabels cli (tryMergeHelper e cfg mr)
          (invoke (Call.GetMergeRequestLabelChanges e.ProjectID e.MergeRequestIID)
            (cli.GetMergeRequestLabelChanges e.ProjectID e.MergeRequestIID)
            (invoke (Call.GetMergeRequest e.ProjectID e.MergeRequestIID)
              (cli.GetMergeRequest e.ProjectID e.MergeRequestIID) ⟨s, []⟩).2).2).2).1
      = .ok fi)
    (hnot : ∀ f, fi = some f → L.isFrozen f = false) :
    (mergeHelper.canMerge L cli (tryMergeHelper e cfg mr)
        (invoke (Call.GetMergeRequest e.ProjectID e.MergeRequestIID)
          (cli.GetMergeRequest e.ProjectID e.MergeRequestIID) ⟨s, []⟩).2).1
      = some ([], true) ∧
    ∃ pre opts, (∀ ev ∈ pre, ∀ p i, ev.call ≠ Call.MergeMergeRequest p i) ∧
      (((tryMerge L cli e cfg addComment ⟨s, []⟩).2.trace =
            pre ++ [⟨Call.UpdateMergeRequest e.ProjectID e.MergeRequestIID opts, true⟩] ∧
          ∃ err, (tryMerge L cli e cfg addComment ⟨s, []⟩).1 = some (.error err)) ∨
        ∃ failed, (tryMerge L cli e cfg addComment ⟨s, []⟩).2.trace =
          pre ++ [⟨Call.UpdateMergeRequest e.ProjectID e.MergeRequestIID opts, false⟩,
            ⟨Call.MergeMergeRequest e.ProjectID e.MergeRequestIID, failed⟩]) := by
  have hcan : (mergeHelper.canMerge L cli (tryMergeHelper e cfg mr)
        (invoke (Call.GetMergeRequest e.ProjectID e.MergeRequestIID)
          (cli.GetMergeRequest e.ProjectID e.MergeRequestIID) ⟨s, []⟩).2).1
      = some ([], true) := by
    unfold mergeHelper.canMerge
    have hs : ¬ ((tryMergeHelper e cfg mr).mr.MergeStatus != canMergeStatus) = true := by
      simp [tryMergeHelper, hstatus]
    simp only [hs, if_false]
    rw [invoke_eq (Call.GetMergeRequestLabelChanges _ _)]
    have hops2 : (cli.GetMergeRequestLabelChanges (tryMergeHelper e cfg mr).pid
        (tryMergeHelper e cfg mr).mrID
        (invoke (Call.GetMergeRequest e.ProjectID e.MergeRequestIID)
          (cli.GetMergeRequest e.ProjectID e.MergeRequestIID) ⟨s, []⟩).2.st).1 = .ok ops := hops
    rw [hops2]
    have hm := isLabelMatched_clean _ (tryMergeHelper e cfg mr).cfg ops hlabels h1 hreq hforb
      hbot happ hlgtm
    simp only
    have hm2 : isLabelMatched (mergeHelper.getMRLabels cli (tryMergeHelper e cfg mr)
        (invoke (Call.GetMergeRequestLabelChanges (tryMergeHelper e cfg mr).pid
            (tryMergeHelper e cfg mr).mrID)
          (cli.GetMergeRequestLabelChanges (tryMergeHelper e cfg mr).pid
            (tryMergeHelper e cfg mr).mrID)
          (invoke (Call.GetMergeRequest e.ProjectID e.MergeRequestIID)
            (cli.GetMergeRequest e.ProjectID e.MergeRequestIID) ⟨s, []⟩).2).2).1
        (tryMergeHelper e cfg mr).cfg ops = [] := hm
    simp only [hm2, List.length_nil, gt_iff_lt, Nat.lt_irrefl, if_false]
    have hfz : mergeHelper.getFreezeInfo L cli (tryMergeHelper e cfg mr)
        (mergeHelper.getMRLabels cli (tryMergeHelper e cfg mr)
          (invoke (Call.GetMergeRequestLabelChanges (tryMergeHelper e cfg mr).pid
              (tryMergeHelper e cfg mr).mrID)
            (cli.GetMergeRequestLabelChanges (tryMergeHelper e cfg mr).pid
              (tryMergeHelper e cfg mr).mrID)
            (invoke (Call.GetMergeRequest e.ProjectID e.MergeRequestIID)
              (cli.GetMergeRequest e.ProjectID e.MergeRequestIID) ⟨s, []⟩).2).2).2
        = (.ok fi, (mergeHelper.getFreezeInfo L cli (tryMergeHelper e cfg mr)
        (mergeHelper.getMRLabels cli (tryMergeHelper e cfg mr)
          (invoke (Call.GetMergeRequestLabelChanges (tryMergeHelper e cfg mr).pid
              (tryMergeHelper e cfg mr).mrID)
            (cli.GetMergeRequestLabelChanges (tryMergeHelper e cfg mr).pid
              (tryMergeHelper e cfg mr).mrID)
            (invoke (Call.GetMergeRequest e.ProjectID e.MergeRequestIID)
              (cli.GetMergeRequest e.ProjectID e.MergeRequestIID) ⟨s, []⟩).2).2).2).2) := by
      apply Prod.ext
      · exact hfreeze
      · rfl
    rw [hfz]
    cases fi with
    | none => rfl
    | some f => simp [hnot f rfl]
  refine ⟨hcan, ?_⟩
  have htry := tryMerge_of_canMerge L cli e cfg addComment ⟨s, []⟩ mr [] hmr hcan
  have hpre : Extends ⟨s, []⟩ (mergeHelper.genMergeDesc L cli (tryMergeHelper e cfg mr)
      (mergeHelper.canMerge L cli (tryMergeHelper e cfg mr)
        (invoke (Call.GetMergeRequest e.ProjectID e.MergeRequestIID)
          (cli.GetMergeRequest e.ProjectID e.MergeRequestIID) ⟨s, []⟩).2).2).2 noMerge := by
    refine Extends.trans (Extends.trans ?_ (canMerge_calls L cli _ _))
      (genMergeDesc_calls L cli _ _)
    exact Extends.of_ok (a := mr) (Prod.ext hmr rfl) (by simp [noMerge])
  obtain ⟨new, hnew, hno⟩ := hpre
  simp only [List.nil_append] at hnew
  obtain ⟨opts, hm⟩ := merge_trace L cli (tryMergeHelper e cfg mr)
    (mergeHelper.canMerge L cli (tryMergeHelper e cfg mr)
      (invoke (Call.GetMergeRequest e.ProjectID e.MergeRequestIID)
        (cli.GetMergeRequest e.ProjectID e.MergeRequestIID) ⟨s, []⟩).2).2
  refine ⟨new, opts, hno, ?_⟩
  rw [htry]
  rw [hnew] at hm
  rcases hm with ⟨ht, err, herr⟩ | ⟨failed, ht⟩
  · left
    exact ⟨ht, err, by simp only [herr]⟩
  · right
    exact ⟨failed, ht⟩

/-- Counterexample to C1 as stated: the request is ready (status `can_be_merged`, labels
{approved, lgtm}, threshold 1, both labels added by the bot, no freeze file) and
`canMerge` returns no reason and `ok = true`, but the update of the merge request
fails: `tryMerge` returns that error and never calls `MergeMergeRequest`. -/
theorem C1_counterexample :
    (mergeHelper.canMerge plainLib updateDownClient
        (tryMergeHelper checkEvent (plainConfig 1)
          ⟨"can_be_merged", ["approved", "lgtm"], "master", "author"⟩)
        (invoke (Call.GetMergeRequest 1 7) (updateDownClient.GetMergeRequest 1 7) ⟨(), []⟩).2).1
      = some ([], true) ∧
    (tryMerge plainLib updateDownClient checkEvent (plainConfig 1) true ⟨(), []⟩).1
      = some (.error "503") ∧
    (tryMerge plainLib updateDownClient checkEvent (plainConfig 1) true ⟨(), []⟩).2.trace
      = [⟨Call.GetMergeRequest 1 7, false⟩, ⟨Call.GetMergeRequestLabelChanges 1 7, false⟩,
         ⟨Call.GetMergeRequestLabels 1 7, false⟩, ⟨Call.ListMergeRequestComments 1 7, false⟩,
         ⟨Call.UpdateMergeRequest 1 7 ⟨some "", some [], some []⟩, true⟩] :=
  ⟨by decide, rfl, by decide⟩

/-- Witness of C1: the ready request on a platform whose calls all succeed. -/
theorem C1_ready_request_is_merged_witness :
    (mergeHelper.canMerge plainLib readyClient
        (tryMergeHelper checkEvent (plainConfig 1)
          ⟨"can_be_merged", ["approved", "lgtm"], "master", "author"⟩)
        (invoke (Call.GetMergeRequest 1 7) (readyClient.GetMergeRequest 1 7) ⟨(), []⟩).2).1
      = some ([], true) ∧
    ∃ pre opts, (∀ ev ∈ pre, ∀ p i, ev.call ≠ Call.MergeMergeRequest p i) ∧
      (((tryMerge plainLib readyClient checkEvent (plainConfig 1) true ⟨(), []⟩).2.trace =
            pre ++ [⟨Call.UpdateMergeRequest 1 7 opts, true⟩] ∧
          ∃ err, (tryMerge plainLib readyClient checkEvent (plainConfig 1) true ⟨(), []⟩).1
            = some (.error err)) ∨
        ∃ failed, (tryMerge plainLib readyClient checkEvent (plainConfig 1) true ⟨(), []⟩).2.trace =
          pre ++ [⟨Call.UpdateMergeRequest 1 7 opts, false⟩,
            ⟨Call.MergeMergeRequest 1 7, failed⟩]) :=
  C1_ready_request_is_merged plainLib readyClient checkEvent (plainConfig 1) true ()
    ⟨"can_be_merged", ["approved", "lgtm"], "master", "author"⟩ cleanHistory none
    rfl rfl rfl (by intro l; simp [mergeHelper.getMRLabels, tryMergeHelper, checkEvent, invoke,
      readyClient, labelClient, sets.NewString, sets.Insert, sets.Insert1, approvedLabel,
      lgtmLabel])
    rfl rfl rfl (by decide) (by decide) (by decide) rfl (by simp)

/-! ## The permission resolver -/

/-- C6: `hasPermission` returns `true` exactly when the platform reports direct
permission, or it reports none, `needCheckSig` is set and `isOwnerOfSig` returns
`true`; with direct permission it returns `true, nil` after the one permission call,
without reading the changed paths or the directory tree; a failed permission call is
returned as `false` with its error, after that one call. -/
theorem C6_hasPermission_contract {σ : Type} (L : Lib) (cli : iClient σ)
    (commenter : String) (commenterID : Int) (needCheckSig : Bool) (e : MergeCommentEvent)
    (cfg : botConfig) (s : σ) :
    ((hasPermission L cli commenter commenterID needCheckSig e cfg ⟨s, []⟩).1.1 = true ↔
      (cli.GetUserPermissionOfProject e.ProjectID commenterID s).1 = .ok true ∨
      ((cli.GetUserPermissionOfProject e.ProjectID commenterID s).1 = .ok false ∧
        needCheckSig = true ∧
        (isOwnerOfSig L cli (L.ToLower commenter) e cfg
          (invoke (Call.GetUserPermissionOfProject e.ProjectID commenterID)
            (cli.GetUserPermissionOfProject e.ProjectID commenterID) ⟨s, []⟩).2).1.1 = true)) ∧
    ((cli.GetUserPermissionOfProject e.ProjectID commenterID s).1 = .ok true →
      (hasPermission L cli commenter commenterID needCheckSig e cfg ⟨s, []⟩).1 = (true, none) ∧
      (hasPermission L cli commenter commenterID needCheckSig e cfg ⟨s, []⟩).2.trace
        = [⟨Call.GetUserPermissionOfProject e.ProjectID commenterID, false⟩]) ∧
    (∀ err, (cli.GetUserPermissionOfProject e.ProjectID commenterID s).1 = .error err →
      (hasPermission L cli commenter commenterID needCheckSig e cfg ⟨s, []⟩).1
        = (false, some err) ∧
      (hasPermission L cli commenter commenterID needCheckSig e cfg ⟨s, []⟩).2.trace
        = [⟨Call.GetUserPermissionOfProject e.ProjectID commenterID, true⟩]) := by
  unfold hasPermission
  rw [invoke_eq (Call.GetUserPermissionOfProject _ _)]
  cases hd : (cli.GetUserPermissionOfProject e.ProjectID commenterID ({ st := s, trace := [] } : World σ).st).1 with
  | error err =>
    have hd2 : (cli.GetUserPermissionOfProject e.ProjectID commenterID s).1 = .error err := hd
    simp [hd2, invoke, isError]
  | ok b =>
    have hd2 : (cli.GetUserPermissionOfProject e.ProjectID commenterID s).1 = .ok b := hd
    cases b with
    | true => simp [hd2, invoke, isError]
    | false =>
      cases needCheckSig with
      | true => simp [hd2]
      | false => simp [hd2]

/-- Witness of C6: a user with direct permission. -/
theorem C6_hasPermission_contract_witness :
    (hasPermission plainLib memberClient "Rita" 200 true checkEvent (plainConfig 1)
        ⟨(), []⟩).1 = (true, none) ∧
    (hasPermission plainLib memberClient "Rita" 200 true checkEvent (plainConfig 1)
        ⟨(), []⟩).2.trace = [⟨Call.GetUserPermissionOfProject 1 200, false⟩] :=
  (C6_hasPermission_contract plainLib memberClient "Rita" 200 true checkEvent
    (plainConfig 1) ()).2.1 rfl

/-! ## The lgtm commands -/

/-- C7: when the commenter is the author of the merge request, `addLGTM` posts the
self-review comment and returns what that call returns; it makes no other call: no
permission query, no label attached. -/
theorem C7_addLGTM_self_review {σ : Type} (L : Lib) (cli : iClient σ) (cfg : botConfig)
    (e : MergeCommentEvent) (s : σ) (hself : e.MergeRequestAuthorID = e.CommentAuthorID) :
    (addLGTM L cli cfg e ⟨s, []⟩).1 =
      some (cli.CreateMergeRequestComment e.ProjectID e.MergeRequestIID
        "***lgtm*** can not be added in your self-own pull request. :astonished:" s).1 ∧
    (addLGTM L cli cfg e ⟨s, []⟩).2.trace =
      [⟨Call.CreateMergeRequestComment e.ProjectID e.MergeRequestIID
          "***lgtm*** can not be added in your self-own pull request. :astonished:",
        isError (cli.CreateMergeRequestComment e.ProjectID e.MergeRequestIID
          "***lgtm*** can not be added in your self-own pull request. :astonished:" s).1⟩] := by
  unfold addLGTM
  simp [hself, invoke, commentAddLGTMBySelf]

/-- Witness of C7: the author comments `/lgtm` on a platform that would grant every
user permission. -/
theorem C7_addLGTM_self_review_witness :
    (addLGTM plainLib memberClient (plainConfig 1) selfEvent ⟨(), []⟩).2.trace =
      [⟨Call.CreateMergeRequestComment 1 7
          "***lgtm*** can not be added in your self-own pull request. :astonished:", false⟩] :=
  (C7_addLGTM_self_review plainLib memberClient (plainConfig 1) selfEvent () rfl).2

/-- The calls of the two loops of `isOwnerOfSig` read file contents. -/
theorem recordLoop_calls {σ : Type} (L : Lib) (cli : iClient σ) (decode : String → List String)
    (pid : Int) (commenter : String) : ∀ (files paths : List String) (w : World σ),
    Extends w (recordLoop L cli decode pid commenter files paths w).2 permCall := by
  intro files
  induction files with
  | nil => intro paths w; exact Extends.refl _ _
  | cons o rest ih =>
    intro paths w
    unfold recordLoop
    split
    · exact ih paths w
    · split
      · rename_i h
        exact Extends.of_error h (by simp [permCall])
      · rename_i h
        exact Extends.of_ok h (by simp [permCall])
      · rename_i oFile w1 h
        have h1 : Extends w w1 permCall := Extends.of_ok h (by simp [permCall])
        split
        · exact h1
        · split
          · exact h1
          · exact Extends.trans h1 (ih _ w1)

theorem listDirectoryTree_calls {σ : Type} (cli : iClient σ) (pid : Int)
    (branch dirPath : String) (w : World σ) :
    Extends w (listDirectoryTree cli pid branch dirPath w).2 permCall := by
  unfold listDirectoryTree
  split
  · rename_i h
    exact Extends.of_error h (by simp [permCall])
  · rename_i h
    exact Extends.of_ok h (by simp [permCall])

theorem isOwnerOfSig_calls {σ : Type} (L : Lib) (cli : iClient σ) (commenter : String)
    (e : MergeCommentEvent) (cfg : botConfig) (w : World σ) :
    Extends w (isOwnerOfSig L cli commenter e cfg w).2 permCall := by
  unfold isOwnerOfSig
  split
  · rename_i h
    exact Extends.of_error h (by simp [permCall])
  · rename_i changes w1 h
    have h1 : Extends w w1 permCall := Extends.of_ok h (by simp [permCall])
    split
    · exact h1
    · split
      · exact h1
      · rename_i paths hp
        have ht := listDirectoryTree_calls cli e.ProjectID "master" cfg.SigsDir w1
        split
        · rename_i hl
          rw [hl] at ht
          exact Extends.trans h1 ht
        · rename_i oPath sPath w2 hl
          rw [hl] at ht
          have h2 := Extends.trans h1 ht
          split
          · exact h2
          · have ho := recordLoop_calls L cli (decodeOwnerFile L) e.ProjectID commenter
              oPath paths w2
            split
            · rename_i hr
              rw [hr] at ho
              exact Extends.trans h2 ho
            · rename_i paths1 w3 hr
              rw [hr] at ho
              have h3 := Extends.trans h2 ho
              have hs := recordLoop_calls L cli (decodeSigInfoFile L) e.ProjectID commenter
                sPath paths1 w3
              split
              · rename_i hr2
                rw [hr2] at hs
                exact Extends.trans h3 hs
              · rename_i hr2
                rw [hr2] at hs
                exact Extends.trans h3 hs

/-- The calls of `hasPermission`: the permission query and the reads of `isOwnerOfSig`. -/
theorem hasPermission_calls {σ : Type} (L : Lib) (cli : iClient σ) (commenter : String)
    (commenterID : Int) (needCheckSig : Bool) (e : MergeCommentEvent) (cfg : botConfig)
    (w : World σ) :
    Extends w (hasPermission L cli commenter commenterID needCheckSig e cfg w).2 permCall := by
  unfold hasPermission
  split
  · rename_i h
    exact Extends.of_error h (by simp [permCall])
  · rename_i h
    exact Extends.of_ok h (by simp [permCall])
  · rename_i w1 h
    have h1 : Extends w w1 permCall := Extends.of_ok h (by simp [permCall])
    split
    · exact Extends.trans h1 (isOwnerOfSig_calls L cli _ e cfg w1)
    · exact h1

theorem permCall.noRemove {ev : Ev} (h : permCall ev) :
    ∀ p i ls, ev.call ≠ Call.RemoveMergeRequestLabel p i ls := by
  intro p i ls hc
  rcases h with ⟨a, b, h⟩ | ⟨a, b, h⟩ | ⟨a, b, h⟩ | ⟨a, b, c, h⟩ <;> rw [h] at hc <;> simp at hc

theorem mem_getLGTMLabelsOnPR_Insert (mrLabels : List String) (l : String) :
    l ∈ getLGTMLabelsOnPR (sets.Insert [] mrLabels) ↔
      l ∈ mrLabels ∧ strings.HasPrefix l "lgtm" = true := by
  simp [getLGTMLabelsOnPR, sets.mem_Insert, lgtmLabel]

theorem nodup_getLGTMLabelsOnPR_Insert (mrLabels : List String) :
    (getLGTMLabelsOnPR (sets.Insert [] mrLabels)).Nodup :=
  List.Nodup.filter _ (sets.nodup_Insert mrLabels [] List.nodup_nil)

/-- The trace of `removeLGTM` for a commenter who is not the author, by the answer of
`hasPermission`. -/
theorem removeLGTM_other_trace {σ : Type} (L : Lib) (cli : iClient σ) (cfg : botConfig)
    (e : MergeCommentEvent) (w : World σ)
    (hother : e.MergeRequestAuthorID ≠ e.CommentAuthorID) :
    ((hasPermission L cli e.CommentAuthor e.CommentAuthorID
        cfg.CheckPermissionBasedOnSigOwners e cfg w).1 = (true, none) →
      ∃ failed tail, (∀ ev ∈ tail, ∀ p i ls, ev.call ≠ Call.RemoveMergeRequestLabel p i ls) ∧
        (removeLGTM L cli cfg e w).2.trace =
          (hasPermission L cli e.CommentAuthor e.CommentAuthorID
            cfg.CheckPermissionBasedOnSigOwners e cfg w).2.trace
          ++ ⟨Call.RemoveMergeRequestLabel e.ProjectID e.MergeRequestIID
              [genLGTMLabel L e.CommentAuthor cfg.LgtmCountsRequired], failed⟩ :: tail) ∧
    ((hasPermission L cli e.CommentAuthor e.CommentAuthorID
        cfg.CheckPermissionBasedOnSigOwners e cfg w).1 = (false, none) →
      ∃ failed c, (removeLGTM L cli cfg e w).2.trace =
          (hasPermission L cli e.CommentAuthor e.CommentAuthorID
            cfg.CheckPermissionBasedOnSigOwners e cfg w).2.trace
          ++ [⟨Call.CreateMergeRequestComment e.ProjectID e.MergeRequestIID c, failed⟩]) := by
  have hne : (e.MergeRequestAuthorID != e.CommentAuthorID) = true := by simpa using hother
  constructor
  · intro hp
    have hp2 : hasPermission L cli e.CommentAuthor e.CommentAuthorID
        cfg.CheckPermissionBasedOnSigOwners e cfg w = ((true, none),
          (hasPermission L cli e.CommentAuthor e.CommentAuthorID
            cfg.CheckPermissionBasedOnSigOwners e cfg w).2) := Prod.ext hp rfl
    unfold removeLGTM
    simp only [hne, if_true]
    rw [hp2]
    simp only
    split
    · rename_i err w2 h
      exact ⟨true, [], by simp, by rw [invoke_error_trace h]⟩
    · rename_i a w2 h
      refine ⟨false, [⟨Call.CreateMergeRequestComment e.ProjectID e.MergeRequestIID
        (commentRemovedLabel (genLGTMLabel L e.CommentAuthor cfg.LgtmCountsRequired)
          e.CommentAuthor),
        isError (cli.CreateMergeRequestComment e.ProjectID e.MergeRequestIID
          (commentRemovedLabel (genLGTMLabel L e.CommentAuthor cfg.LgtmCountsRequired)
            e.CommentAuthor) w2.st).1⟩], by simp, ?_⟩
      simp only [invoke, invoke_ok_trace h, List.append_assoc, List.singleton_append]
  · intro hp
    have hp2 : hasPermission L cli e.CommentAuthor e.CommentAuthorID
        cfg.CheckPermissionBasedOnSigOwners e cfg w = ((false, none),
          (hasPermission L cli e.CommentAuthor e.CommentAuthorID
            cfg.CheckPermissionBasedOnSigOwners e cfg w).2) := Prod.ext hp rfl
    unfold removeLGTM
    simp only [hne, if_true]
    rw [hp2]
    exact ⟨_, _, rfl⟩

/-- C10: in `removeLGTM`, when the commenter is the author and the labels of the
request are read, the calls are that read and then one `RemoveMergeRequestLabel` whose
list is the labels of the request that start with "lgtm", each once (no such call when
there are none), hence no permission query; when the commenter is not the author and
`hasPermission` answers `true`, a `RemoveMergeRequestLabel` call is made for
`genLGTMLabel(commenter, threshold)` alone and no other removal; when `hasPermission`
answers `false`, no removal is made. -/
theorem C10_removeLGTM_asymmetry {σ : Type} (L : Lib) (cli : iClient σ) (cfg : botConfig)
    (e : MergeCommentEvent) (s : σ) :
    (e.MergeRequestAuthorID = e.CommentAuthorID →
      ∀ mrLabels, (cli.GetMergeRequestLabels e.ProjectID e.MergeRequestIID s).1 = .ok mrLabels →
        (∀ l, l ∈ getLGTMLabelsOnPR (sets.Insert [] mrLabels) ↔
          l ∈ mrLabels ∧ strings.HasPrefix l "lgtm" = true) ∧
        (getLGTMLabelsOnPR (sets.Insert [] mrLabels)).Nodup ∧
        ∃ failed, (removeLGTM L cli cfg e ⟨s, []⟩).2.trace =
          ⟨Call.GetMergeRequestLabels e.ProjectID e.MergeRequestIID, false⟩ ::
            (if getLGTMLabelsOnPR (sets.Insert [] mrLabels) = [] then []
             else [⟨Call.RemoveMergeRequestLabel e.ProjectID e.MergeRequestIID
               (getLGTMLabelsOnPR (sets.Insert [] mrLabels)), failed⟩])) ∧
    (e.MergeRequestAuthorID ≠ e.CommentAuthorID →
      (hasPermission L cli e.CommentAuthor e.CommentAuthorID
        cfg.CheckPermissionBasedOnSigOwners e cfg ⟨s, []⟩).1 = (true, none) →
      (∃ failed, (⟨Call.RemoveMergeRequestLabel e.ProjectID e.MergeRequestIID
          [genLGTMLabel L e.CommentAuthor cfg.LgtmCountsRequired], failed⟩ : Ev)
          ∈ (removeLGTM L cli cfg e ⟨s, []⟩).2.trace) ∧
      ∀ ev ∈ (removeLGTM L cli cfg e ⟨s, []⟩).2.trace, ∀ p i ls,
        ev.call = Call.RemoveMergeRequestLabel p i ls →
          p = e.ProjectID ∧ i = e.MergeRequestIID ∧
            ls = [genLGTMLabel L e.CommentAuthor cfg.LgtmCountsRequired]) ∧
    (e.MergeRequestAuthorID ≠ e.CommentAuthorID →
      (hasPermission L cli e.CommentAuthor e.CommentAuthorID
        cfg.CheckPermissionBasedOnSigOwners e cfg ⟨s, []⟩).1 = (false, none) →
      ∀ ev ∈ (removeLGTM L cli cfg e ⟨s, []⟩).2.trace, ∀ p i ls,
        ev.call ≠ Call.RemoveMergeRequestLabel p i ls) := by
  refine ⟨?_, ?_, ?_⟩
  · intro hself mrLabels hread
    refine ⟨mem_getLGTMLabelsOnPR_Insert mrLabels, nodup_getLGTMLabelsOnPR_Insert mrLabels, ?_⟩
    have hne : ¬ (e.MergeRequestAuthorID != e.CommentAuthorID) = true := by simp [hself]
    unfold removeLGTM
    rw [if_neg hne, invoke_eq (Call.GetMergeRequestLabels _ _)]
    have hread2 : (cli.GetMergeRequestLabels e.ProjectID e.MergeRequestIID
        ({ st := s, trace := [] } : World σ).st).1 = .ok mrLabels := hread
    rw [hread2]
    simp only
    by_cases hl : getLGTMLabelsOnPR (sets.Insert [] mrLabels) = []
    · refine ⟨false, ?_⟩
      simp [hl, invoke, hread, isError]
    · have hpos : (getLGTMLabelsOnPR (sets.Insert [] mrLabels)).length > 0 :=
        List.length_pos.mpr hl
      refine ⟨isError (cli.RemoveMergeRequestLabel e.ProjectID e.MergeRequestIID
        (getLGTMLabelsOnPR (sets.Insert [] mrLabels))
        (cli.GetMergeRequestLabels e.ProjectID e.MergeRequestIID s).2).1, ?_⟩
      simp only [hpos, if_true, hl, if_false]
      simp only [invoke, hread, isError, List.nil_append, List.singleton_append]
  · intro hother hp
    obtain ⟨failed, tail, htail, htr⟩ := (removeLGTM_other_trace L cli cfg e ⟨s, []⟩ hother).1 hp
    obtain ⟨new, hnew, hperm⟩ := hasPermission_calls L cli e.CommentAuthor e.CommentAuthorID
      cfg.CheckPermissionBasedOnSigOwners e cfg ⟨s, []⟩
    rw [htr]
    constructor
    · exact ⟨failed, by simp⟩
    · intro ev hev p i ls hc
      rcases List.mem_append.mp hev with h | h
      · rw [hnew] at h
        simp only [List.nil_append] at h
        exact absurd hc ((hperm ev h).noRemove p i ls)
      · rcases List.mem_cons.mp h with rfl | h
        · simp only [Call.RemoveMergeRequestLabel.injEq] at hc
          exact ⟨hc.1.symm, hc.2.1.symm, hc.2.2.symm⟩
        · exact absurd hc (htail ev h p i ls)
  · intro hother hp ev hev p i ls
    obtain ⟨failed, c, htr⟩ := (removeLGTM_other_trace L cli cfg e ⟨s, []⟩ hother).2 hp
    obtain ⟨new, hnew, hperm⟩ := hasPermission_calls L cli e.CommentAuthor e.CommentAuthorID
      cfg.CheckPermissionBasedOnSigOwners e cfg ⟨s, []⟩
    rw [htr] at hev
    rcases List.mem_append.mp hev with h | h
    · rw [hnew] at h
      simp only [List.nil_append] at h
      exact (hperm ev h).noRemove p i ls
    · simp only [List.mem_singleton] at h
      subst h
      simp

/-- Witness of C10: the author cancels; the request carries `lgtm-ann` and `lgtm-bob`
among its labels. -/
theorem C10_removeLGTM_asymmetry_witness :
    ∃ failed, (removeLGTM plainLib reviewedClient (plainConfig 2) selfEvent ⟨(), []⟩).2.trace =
      ⟨Call.GetMergeRequestLabels 1 7, false⟩ ::
        (if getLGTMLabelsOnPR (sets.Insert [] ["approved", "lgtm-ann", "kind/bug", "lgtm-bob"])
            = [] then []
         else [⟨Call.RemoveMergeRequestLabel 1 7
           (getLGTMLabelsOnPR (sets.Insert [] ["approved", "lgtm-ann", "kind/bug", "lgtm-bob"])),
           failed⟩]) :=
  ((C10_removeLGTM_asymmetry plainLib reviewedClient (plainConfig 2) selfEvent ()).1 rfl
    ["approved", "lgtm-ann", "kind/bug", "lgtm-bob"] rfl).2.2

/-! ## Ownership of the touched directories -/

theorem sets.mem_Delete (s : List String) (x y : String) :
    y ∈ sets.Delete s x ↔ y ∈ s ∧ y ≠ x := by
  simp [sets.Delete]

/-- The directories `changedDirs` returns are those of the non-empty changed paths. -/
theorem changedDirs_mem (L : Lib) (cfg : botConfig) : ∀ (changes acc paths : List String),
    changedDirs L cfg changes acc = some paths →
    ∀ d, d ∈ paths ↔ d ∈ acc ∨ ∃ f ∈ changes, f ≠ "" ∧ L.Dir f = d := by
  intro changes
  induction changes with
  | nil =>
    intro acc paths h d
    simp only [changedDirs, Option.some.injEq] at h
    subst h
    simp
  | cons file rest ih =>
    intro acc paths h d
    unfold changedDirs at h
    split at h
    · rename_i hempty
      have hfe : file = "" := by simpa using hempty
      rw [ih acc paths h d]
      constructor
      · rintro (h1 | ⟨f, hf, hne, hd⟩)
        · exact Or.inl h1
        · exact Or.inr ⟨f, List.mem_cons_of_mem _ hf, hne, hd⟩
      · rintro (h1 | ⟨f, hf, hne, hd⟩)
        · exact Or.inl h1
        · rcases List.mem_cons.mp hf with rfl | hf
          · exact absurd hfe hne
          · exact Or.inr ⟨f, hf, hne, hd⟩
    · rename_i hne0
      have hfne : file ≠ "" := by simpa using hne0
      split at h
      · simp at h
      · rw [ih _ paths h d, sets.mem_Insert1]
        constructor
        · rintro ((h1 | h1) | ⟨f, hf, hne, hd⟩)
          · exact Or.inl h1
          · exact Or.inr ⟨file, List.mem_cons_self _ _, hfne, h1.symm⟩
          · exact Or.inr ⟨f, List.mem_cons_of_mem _ hf, hne, hd⟩
        · rintro (h1 | ⟨f, hf, hne, hd⟩)
          · exact Or.inl (Or.inl h1)
          · rcases List.mem_cons.mp hf with rfl | hf
            · exact Or.inl (Or.inr hd.symm)
            · exact Or.inr ⟨f, hf, hne, hd⟩

/-- When every non-empty changed path matches the pattern and is at most two slashes
deep, `changedDirs` returns a set. -/
theorem changedDirs_isSome (L : Lib) (cfg : botConfig) : ∀ (changes acc : List String),
    (∀ f ∈ changes, f ≠ "" → cfg.regSigDir f = true ∧ strings.CountSlash f ≤ 2) →
    ∃ paths, changedDirs L cfg changes acc = some paths := by
  intro changes
  induction changes with
  | nil => intro acc _; exact ⟨acc, rfl⟩
  | cons file rest ih =>
    intro acc h
    have hrest : ∀ f ∈ rest, f ≠ "" → cfg.regSigDir f = true ∧ strings.CountSlash f ≤ 2 :=
      fun f hf => h f (List.mem_cons_of_mem _ hf)
    unfold changedDirs
    split
    · exact ih acc hrest
    · rename_i hne0
      have hfne : file ≠ "" := by simpa using hne0
      obtain ⟨hreg, hcnt⟩ := h file (List.mem_cons_self _ _) hfne
      have hc : ¬ ((!cfg.regSigDir file || decide (strings.CountSlash file > 2)) = true) := by
        simp [hreg]; omega
      simp only [hc, if_false]
      exact ih _ hrest

theorem listedBy_cons (L : Lib) (content : String → Except Err (Option File))
    (decode : String → List String) (who d o : String) (rest : List String)
    (h : listedBy L content decode who d rest = true) :
    listedBy L content decode who d (o :: rest) = true := by
  simp only [listedBy, List.any_cons, Bool.or_eq_true] at h ⊢
  exact Or.inr h

/-- What a loop of `isOwnerOfSig` has checked when it returns `true` or ends: every
directory of `paths` that is no longer among the paths left has a file of `files` that
was fetched and lists the commenter. -/
theorem recordLoop_sound {σ : Type} (L : Lib) (cli : iClient σ) (decode : String → List String)
    (pid : Int) (who : String) (content : String → Except Err (Option File))
    (hread : ∀ st o, (cli.GetPathContent pid o "master" st).1 = content o) :
    ∀ (files paths : List String) (w : World σ),
      ((recordLoop L cli decode pid who files paths w).1 = Sum.inl true →
        ∀ d ∈ paths, listedBy L content decode who d files = true) ∧
      (∀ paths1, (recordLoop L cli decode pid who files paths w).1 = Sum.inr paths1 →
        ∀ d ∈ paths, d ∈ paths1 ∨ listedBy L content decode who d files = true) := by
  intro files
  induction files with
  | nil =>
    intro paths w
    constructor
    · intro h; simp [recordLoop] at h
    · intro paths1 h d hd
      simp only [recordLoop, Sum.inr.injEq] at h
      subst h
      exact Or.inl hd
  | cons o rest ih =>
    intro paths w
    unfold recordLoop
    split
    · obtain ⟨ih1, ih2⟩ := ih paths w
      constructor
      · intro h d hd
        exact listedBy_cons L content decode who d o rest (ih1 h d hd)
      · intro paths1 h d hd
        rcases ih2 paths1 h d hd with h1 | h1
        · exact Or.inl h1
        · exact Or.inr (listedBy_cons L content decode who d o rest h1)
    · split
      · constructor
        · intro h; simp at h
        · intro paths1 h; simp at h
      · constructor
        · intro h; simp at h
        · intro paths1 h; simp at h
      · rename_i oFile w1 hinv
        have hc : content o = .ok (some oFile) := by
          rw [← hread w.st o]
          exact congrArg Prod.fst hinv
        split
        · constructor
          · intro h; simp at h
          · intro paths1 h; simp at h
        · rename_i hhas
          have hhas2 : sets.Has (decode oFile.Content) who = true := by simpa using hhas
          have hself : listedBy L content decode who (L.Dir o) (o :: rest) = true := by
            simp [listedBy, hc, hhas2]
          split
          · rename_i hlen
            have hnil : sets.Delete paths (L.Dir o) = [] := by
              simpa using hlen
            constructor
            · intro _ d hd
              by_cases hdo : d = L.Dir o
              · rw [hdo]; exact hself
              · have : d ∈ sets.Delete paths (L.Dir o) := (sets.mem_Delete _ _ _).mpr ⟨hd, hdo⟩
                rw [hnil] at this
                simp at this
            · intro paths1 h; simp at h
          · obtain ⟨ih1, ih2⟩ := ih (sets.Delete paths (L.Dir o)) w1
            constructor
            · intro h d hd
              by_cases hdo : d = L.Dir o
              · rw [hdo]; exact hself
              · exact listedBy_cons L content decode who d o rest
                  (ih1 h d ((sets.mem_Delete _ _ _).mpr ⟨hd, hdo⟩))
            · intro paths1 h d hd
              by_cases hdo : d = L.Dir o
              · rw [hdo]; exact Or.inr hself
              · rcases ih2 paths1 h d ((sets.mem_Delete _ _ _).mpr ⟨hd, hdo⟩) with h1 | h1
                · exact Or.inl h1
                · exact Or.inr (listedBy_cons L content decode who d o rest h1)

/-- What `isOwnerOfSig` answers when the changed paths and the tree are read: no error,
and `true` only if every directory of a non-empty changed path has an owner record
that lists the commenter. -/
theorem isOwnerOfSig_sound {σ : Type} (L : Lib) (cli : iClient σ) (who : String)
    (e : MergeCommentEvent) (cfg : botConfig) (w : World σ)
    (changes : List String) (trees : List TreeNode)
    (content : String → Except Err (Option File))
    (hchanges : ∀ st, (cli.GetMergeRequestChanges e.ProjectID e.MergeRequestIID st).1
      = .ok changes)
    (htree : ∀ st, (cli.GetDirectoryTree e.ProjectID ⟨cfg.SigsDir, "master", true⟩ st).1
      = .ok trees)
    (hread : ∀ st o, (cli.GetPathContent e.ProjectID o "master" st).1 = content o) :
    ∃ b, (isOwnerOfSig L cli who e cfg w).1 = (b, none) ∧
      (b = true → ∀ d, (∃ f ∈ changes, f ≠ "" ∧ L.Dir f = d) →
        listedIn L content (ownerFilePath trees) (sigInfoFilePath trees) who d = true) := by
  unfold isOwnerOfSig
  rw [invoke_eq (Call.GetMergeRequestChanges _ _), hchanges]
  simp only
  split
  · exact ⟨false, rfl, by simp⟩
  · split
    · exact ⟨false, rfl, by simp⟩
    · rename_i paths hpaths
      have hmem := changedDirs_mem L cfg changes [] paths hpaths
      unfold listDirectoryTree
      rw [invoke_eq (Call.GetDirectoryTree _ _), htree]
      simp only
      split
      · exact ⟨false, rfl, by simp⟩
      · split
        · rename_i b w3 hr
          refine ⟨b, rfl, ?_⟩
          intro hb d hd
          subst hb
          have hs := (recordLoop_sound L cli (decodeOwnerFile L) e.ProjectID who content hread
            (ownerFilePath trees) paths _).1 (congrArg Prod.fst hr) d
            ((hmem d).mpr (Or.inr hd))
          simp [listedIn, hs]
        · rename_i paths1 w3 hr
          have hs1 := (recordLoop_sound L cli (decodeOwnerFile L) e.ProjectID who content hread
            (ownerFilePath trees) paths _).2 paths1 (congrArg Prod.fst hr)
          split
          · rename_i b w4 hr2
            refine ⟨b, rfl, ?_⟩
            intro hb d hd
            subst hb
            rcases hs1 d ((hmem d).mpr (Or.inr hd)) with h1 | h1
            · have hs2 := (recordLoop_sound L cli (decodeSigInfoFile L) e.ProjectID who content
                hread (sigInfoFilePath trees) paths1 w3).1 (congrArg Prod.fst hr2) d h1
              simp [listedIn, hs2]
            · simp [listedIn, h1]
          · exact ⟨false, rfl, by simp⟩

theorem recordOf_cons (L : Lib) (content : String → Except Err (Option File))
    (decode : String → List String) (who d o : String) (rest : List String) :
    recordOf L content decode who d (o :: rest) =
      if L.Dir o = d then some (fileLists content decode who o)
      else recordOf L content decode who d rest := by
  unfold recordOf
  by_cases h : L.Dir o = d
  · simp [List.find?, h]
  · have hb : (L.Dir o == d) = false := by simpa using h
    simp [List.find?, hb, h]

theorem firstRecordLists_eq (L : Lib) (content : String → Except Err (Option File))
    (oPath sPath : List String) (who d : String) :
    firstRecordLists L content oPath sPath who d =
      match recordOf L content (decodeOwnerFile L) who d oPath with
      | some b => b
      | none =>
        match recordOf L content (decodeSigInfoFile L) who d sPath with
        | some b => b
        | none => false := by
  unfold firstRecordLists recordOf fileLists
  cases oPath.find? (fun o => L.Dir o == d) with
  | some o => rfl
  | none =>
    cases sPath.find? (fun o => L.Dir o == d) with
    | some o => rfl
    | none => rfl

theorem recordLoop_cons_not_mem {σ : Type} (L : Lib) (cli : iClient σ)
    (decode : String → List String) (pid : Int) (who o : String) (rest P : List String)
    (w : World σ) (h : sets.Has P (L.Dir o) = false) :
    recordLoop L cli decode pid who (o :: rest) P w = recordLoop L cli decode pid who rest P w := by
  rw [recordLoop]
  simp [h]

theorem recordLoop_cons_mem {σ : Type} (L : Lib) (cli : iClient σ)
    (decode : String → List String) (pid : Int) (who : String)
    (content : String → Except Err (Option File))
    (hread : ∀ st o, (cli.GetPathContent pid o "master" st).1 = content o)
    (o : String) (rest P : List String) (w : World σ) (h : sets.Has P (L.Dir o) = true) :
    (recordLoop L cli decode pid who (o :: rest) P w).1 =
      if fileLists content decode who o = true then
        if (sets.Delete P (L.Dir o)).length == 0 then Sum.inl true
        else (recordLoop L cli decode pid who rest (sets.Delete P (L.Dir o))
          (invoke (Call.GetPathContent pid o "master")
            (cli.GetPathContent pid o "master") w).2).1
      else Sum.inl false := by
  rw [recordLoop]
  simp only [h, Bool.not_true, Bool.false_eq_true, if_false]
  rw [invoke_eq (Call.GetPathContent _ _ _), hread]
  unfold fileLists
  cases hc : content o with
  | error err => simp
  | ok fo =>
    cases fo with
    | none => simp
    | some f =>
      simp only
      by_cases hl : sets.Has (decode f.Content) who = true
      · simp only [hl, Bool.not_true, Bool.false_eq_true, if_false, if_true]
        split
        · rfl
        · rfl
      · have hl2 : sets.Has (decode f.Content) who = false := by simpa using hl
        simp [hl2]

/-- What a loop of `isOwnerOfSig` returns over the set `P` of touched directories, by
what the first file of each directory says: `false` when one of them does not list the
commenter; `true` when every directory has a first file and all list the commenter;
else it ends, and the directories left are those without a file. -/
theorem recordLoop_spec {σ : Type} (L : Lib) (cli : iClient σ) (decode : String → List String)
    (pid : Int) (who : String) (content : String → Except Err (Option File))
    (hread : ∀ st o, (cli.GetPathContent pid o "master" st).1 = content o) :
    ∀ (files P : List String) (w : World σ),
      ((∃ d ∈ P, recordOf L content decode who d files = some false) →
        (recordLoop L cli decode pid who files P w).1 = Sum.inl false) ∧
      ((∀ d ∈ P, recordOf L content decode who d files ≠ some false) →
        ((P ≠ [] ∧ ∀ d ∈ P, recordOf L content decode who d files = some true) →
          (recordLoop L cli decode pid who files P w).1 = Sum.inl true) ∧
        (¬ (P ≠ [] ∧ ∀ d ∈ P, recordOf L content decode who d files = some true) →
          ∃ rem, (recordLoop L cli decode pid who files P w).1 = Sum.inr rem ∧
            ∀ d, d ∈ rem ↔ d ∈ P ∧ recordOf L content decode who d files = none)) := by
  intro files
  induction files with
  | nil =>
    intro P w
    refine ⟨?_, fun _ => ⟨?_, ?_⟩⟩
    · rintro ⟨d, _, hd⟩
      simp [recordOf] at hd
    · rintro ⟨hne, hall⟩
      obtain ⟨d, hd⟩ := List.exists_mem_of_ne_nil P hne
      have := hall d hd
      simp [recordOf] at this
    · intro _
      exact ⟨P, rfl, fun d => by simp [recordOf]⟩
  | cons o rest ih =>
    intro P w
    by_cases hin : sets.Has P (L.Dir o) = true
    · have hd0 : L.Dir o ∈ P := (sets.Has_iff _ _).mp hin
      have hrec0 : recordOf L content decode who (L.Dir o) (o :: rest)
          = some (fileLists content decode who o) := by
        rw [recordOf_cons]; simp
      have hrecd : ∀ d, d ≠ L.Dir o → recordOf L content decode who d (o :: rest)
          = recordOf L content decode who d rest := by
        intro d hd
        rw [recordOf_cons]
        simp [Ne.symm hd]
      rw [recordLoop_cons_mem L cli decode pid who content hread o rest P w hin]
      by_cases hl : fileLists content decode who o = true
      · simp only [hl, if_true]
        rw [hl] at hrec0
        by_cases hlen : ((sets.Delete P (L.Dir o)).length == 0) = true
        · have hnil : sets.Delete P (L.Dir o) = [] := by simpa using hlen
          have hall0 : ∀ d ∈ P, d = L.Dir o := by
            intro d hd
            by_contra hne
            have : d ∈ sets.Delete P (L.Dir o) := (sets.mem_Delete _ _ _).mpr ⟨hd, hne⟩
            rw [hnil] at this
            simp at this
          simp only [hlen, if_true]
          refine ⟨?_, fun _ => ⟨fun _ => trivial, ?_⟩⟩
          · rintro ⟨d, hd, hf⟩
            rw [hall0 d hd, hrec0] at hf
            simp at hf
          · intro hnot
            exfalso
            apply hnot
            refine ⟨List.ne_nil_of_mem hd0, ?_⟩
            intro d hd
            rw [hall0 d hd, hrec0]
        · simp only [hlen, Bool.false_eq_true, if_false]
          have hne' : sets.Delete P (L.Dir o) ≠ [] := by
            intro h
            apply hlen
            simp [h]
          obtain ⟨ih1, ih2⟩ := ih (sets.Delete P (L.Dir o))
            (invoke (Call.GetPathContent pid o "master")
              (cli.GetPathContent pid o "master") w).2
          have hsub : ∀ d ∈ sets.Delete P (L.Dir o),
              recordOf L content decode who d (o :: rest)
                = recordOf L content decode who d rest :=
            fun d hd => hrecd d ((sets.mem_Delete _ _ _).mp hd).2
          refine ⟨?_, fun hnf => ⟨?_, ?_⟩⟩
          · rintro ⟨d, hd, hf⟩
            have hdne : d ≠ L.Dir o := by
              intro h
              rw [h, hrec0] at hf
              simp at hf
            apply ih1
            refine ⟨d, (sets.mem_Delete _ _ _).mpr ⟨hd, hdne⟩, ?_⟩
            rw [← hrecd d hdne]
            exact hf
          · rintro ⟨_, hall⟩
            have hnf' : ∀ d ∈ sets.Delete P (L.Dir o),
                recordOf L content decode who d rest ≠ some false := by
              intro d hd
              rw [← hsub d hd]
              exact hnf d ((sets.mem_Delete _ _ _).mp hd).1
            apply (ih2 hnf').1
            refine ⟨hne', ?_⟩
            intro d hd
            rw [← hsub d hd]
            exact hall d ((sets.mem_Delete _ _ _).mp hd).1
          · intro hnot
            have hnf' : ∀ d ∈ sets.Delete P (L.Dir o),
                recordOf L content decode who d rest ≠ some false := by
              intro d hd
              rw [← hsub d hd]
              exact hnf d ((sets.mem_Delete _ _ _).mp hd).1
            have hnot' : ¬ (sets.Delete P (L.Dir o) ≠ [] ∧ ∀ d ∈ sets.Delete P (L.Dir o),
                recordOf L content decode who d rest = some true) := by
              rintro ⟨_, hall⟩
              apply hnot
              refine ⟨List.ne_nil_of_mem hd0, ?_⟩
              intro d hd
              by_cases hdo : d = L.Dir o
              · rw [hdo, hrec0]
              · rw [hrecd d hdo]
                exact hall d ((sets.mem_Delete _ _ _).mpr ⟨hd, hdo⟩)
            obtain ⟨rem, hrem, hmemrem⟩ := (ih2 hnf').2 hnot'
            refine ⟨rem, hrem, ?_⟩
            intro d
            rw [hmemrem d, sets.mem_Delete]
            constructor
            · rintro ⟨⟨hd, hdo⟩, hnone⟩
              exact ⟨hd, by rw [hrecd d hdo]; exact hnone⟩
            · rintro ⟨hd, hnone⟩
              have hdo : d ≠ L.Dir o := by
                intro h
                rw [h, hrec0] at hnone
                simp at hnone
              exact ⟨⟨hd, hdo⟩, by rw [← hrecd d hdo]; exact hnone⟩
      · have hl2 : fileLists content decode who o = false := by simpa using hl
        simp only [hl2, Bool.false_eq_true, if_false]
        rw [hl2] at hrec0
        refine ⟨fun _ => trivial, fun hnf => ?_⟩
        exact absurd hrec0 (hnf _ hd0)
    · have hin2 : sets.Has P (L.Dir o) = false := by simpa using hin
      have hd0 : L.Dir o ∉ P := by
        intro h
        exact hin ((sets.Has_iff _ _).mpr h)
      have hrecd : ∀ d ∈ P, recordOf L content decode who d (o :: rest)
          = recordOf L content decode who d rest := by
        intro d hd
        rw [recordOf_cons]
        have : L.Dir o ≠ d := by
          intro h
          exact hd0 (h ▸ hd)
        simp [this]
      rw [recordLoop_cons_not_mem L cli decode pid who o rest P w hin2]
      obtain ⟨ih1, ih2⟩ := ih P w
      refine ⟨?_, fun hnf => ⟨?_, ?_⟩⟩
      · rintro ⟨d, hd, hf⟩
        exact ih1 ⟨d, hd, by rw [← hrecd d hd]; exact hf⟩
      · rintro ⟨hne, hall⟩
        exact (ih2 (fun d hd => by rw [← hrecd d hd]; exact hnf d hd)).1
          ⟨hne, fun d hd => by rw [← hrecd d hd]; exact hall d hd⟩
      · intro hnot
        obtain ⟨rem, hrem, hmemrem⟩ :=
          (ih2 (fun d hd => by rw [← hrecd d hd]; exact hnf d hd)).2
            (by
              rintro ⟨hne, hall⟩
              exact hnot ⟨hne, fun d hd => by rw [hrecd d hd]; exact hall d hd⟩)
        refine ⟨rem, hrem, ?_⟩
        intro d
        rw [hmemrem d]
        constructor
        · rintro ⟨hd, hnone⟩
          exact ⟨hd, by rw [hrecd d hd]; exact hnone⟩
        · rintro ⟨hd, hnone⟩
          exact ⟨hd, by rw [← hrecd d hd]; exact hnone⟩

theorem optionBool_cases (x : Option Bool) : x = none ∨ x = some true ∨ x = some false := by
  cases x with
  | none => exact Or.inl rfl
  | some b => cases b <;> simp

/-- What `isOwnerOfSig` answers when every changed path passes the constraint: `true`
exactly when the tree lists an OWNERS path and a sig-info path and the first owner
record of every touched directory is fetched and lists the commenter. -/
theorem isOwnerOfSig_all {σ : Type} (L : Lib) (cli : iClient σ) (who : String)
    (e : MergeCommentEvent) (cfg : botConfig) (w : World σ)
    (changes : List String) (trees : List TreeNode)
    (content : String → Except Err (Option File))
    (hchanges : ∀ st, (cli.GetMergeRequestChanges e.ProjectID e.MergeRequestIID st).1
      = .ok changes)
    (htree : ∀ st, (cli.GetDirectoryTree e.ProjectID ⟨cfg.SigsDir, "master", true⟩ st).1
      = .ok trees)
    (hread : ∀ st o, (cli.GetPathContent e.ProjectID o "master" st).1 = content o)
    (hcons : ∀ f ∈ changes, f ≠ "" → cfg.regSigDir f = true ∧ strings.CountSlash f ≤ 2)
    (hne : ∃ f ∈ changes, f ≠ "") :
    ∃ b, (isOwnerOfSig L cli who e cfg w).1 = (b, none) ∧
      (b = true ↔ ownerFilePath trees ≠ [] ∧ sigInfoFilePath trees ≠ [] ∧
        ∀ d, (∃ f ∈ changes, f ≠ "" ∧ L.Dir f = d) →
          firstRecordLists L content (ownerFilePath trees) (sigInfoFilePath trees) who d
            = true) := by
  obtain ⟨paths, hpaths⟩ := changedDirs_isSome L cfg changes [] hcons
  have hmem0 := changedDirs_mem L cfg changes [] paths hpaths
  have hmem : ∀ d, d ∈ paths ↔ ∃ f ∈ changes, f ≠ "" ∧ L.Dir f = d := by
    intro d
    rw [hmem0 d]
    simp
  have hpne : paths ≠ [] := by
    obtain ⟨f, hf, hfn⟩ := hne
    exact List.ne_nil_of_mem ((hmem (L.Dir f)).mpr ⟨f, hf, hfn, rfl⟩)
  have hlen : ¬ (changes.length == 0) = true := by
    obtain ⟨f, hf, _⟩ := hne
    have := List.length_pos_of_mem hf
    simp only [beq_iff_eq]
    omega
  unfold isOwnerOfSig
  rw [invoke_eq (Call.GetMergeRequestChanges _ _), hchanges]
  simp only
  rw [if_neg hlen, hpaths]
  simp only
  unfold listDirectoryTree
  rw [invoke_eq (Call.GetDirectoryTree _ _), htree]
  simp only
  by_cases hg : ((ownerFilePath trees).length == 0 || (sigInfoFilePath trees).length == 0) = true
  · rw [if_pos hg]
    refine ⟨false, rfl, ?_⟩
    constructor
    · intro h; simp at h
    · rintro ⟨ho, hs, _⟩
      simp only [Bool.or_eq_true, beq_iff_eq, List.length_eq_zero] at hg
      rcases hg with h | h
      · exact absurd h ho
      · exact absurd h hs
  · rw [if_neg hg]
    have ho : ownerFilePath trees ≠ [] := by
      intro h; apply hg; simp [h]
    have hs : sigInfoFilePath trees ≠ [] := by
      intro h; apply hg; simp [h]
    generalize (invoke (Call.GetDirectoryTree e.ProjectID ⟨cfg.SigsDir, "master", true⟩)
      (cli.GetDirectoryTree e.ProjectID ⟨cfg.SigsDir, "master", true⟩)
      (invoke (Call.GetMergeRequestChanges e.ProjectID e.MergeRequestIID)
        (cli.GetMergeRequestChanges e.ProjectID e.MergeRequestIID) w).2).2 = W
    have s1 := recordLoop_spec L cli (decodeOwnerFile L) e.ProjectID who content hread
      (ownerFilePath trees) paths W
    rcases h1 : recordLoop L cli (decodeOwnerFile L) e.ProjectID who (ownerFilePath trees)
      paths W with ⟨r1, w3⟩
    rw [h1] at s1
    simp only at s1
    by_cases hf1 : ∃ d ∈ paths, recordOf L content (decodeOwnerFile L) who d
        (ownerFilePath trees) = some false
    · have hr1 : r1 = Sum.inl false := s1.1 hf1
      subst hr1
      refine ⟨false, rfl, ?_⟩
      constructor
      · intro h; simp at h
      · rintro ⟨_, _, hall⟩
        obtain ⟨d, hd, hrec⟩ := hf1
        have := hall d ((hmem d).mp hd)
        rw [firstRecordLists_eq, hrec] at this
        simp at this
    · have hnf1 : ∀ d ∈ paths, recordOf L content (decodeOwnerFile L) who d
          (ownerFilePath trees) ≠ some false := by
        intro d hd h
        exact hf1 ⟨d, hd, h⟩
      by_cases ha1 : ∀ d ∈ paths, recordOf L content (decodeOwnerFile L) who d
          (ownerFilePath trees) = some true
      · have hr1 : r1 = Sum.inl true := (s1.2 hnf1).1 ⟨hpne, ha1⟩
        subst hr1
        refine ⟨true, rfl, ?_⟩
        constructor
        · intro _
          refine ⟨ho, hs, ?_⟩
          intro d hd
          rw [firstRecordLists_eq, ha1 d ((hmem d).mpr hd)]
        · intro _; rfl
      · obtain ⟨rem, hrem, hmemrem⟩ := (s1.2 hnf1).2 (fun h => ha1 h.2)
        subst hrem
        simp only
        have hremne : rem ≠ [] := by
          by_contra hnil
          apply ha1
          intro d hd
          rcases optionBool_cases (recordOf L content (decodeOwnerFile L) who d
            (ownerFilePath trees)) with h | h | h
          · have : d ∈ rem := (hmemrem d).mpr ⟨hd, h⟩
            rw [hnil] at this
            simp at this
          · exact h
          · exact absurd h (hnf1 d hd)
        have s2 := recordLoop_spec L cli (decodeSigInfoFile L) e.ProjectID who content hread
          (sigInfoFilePath trees) rem w3
        rcases h2 : recordLoop L cli (decodeSigInfoFile L) e.ProjectID who
          (sigInfoFilePath trees) rem w3 with ⟨r2, w4⟩
        rw [h2] at s2
        simp only at s2
        by_cases hf2 : ∃ d ∈ rem, recordOf L content (decodeSigInfoFile L) who d
            (sigInfoFilePath trees) = some false
        · have hr2 : r2 = Sum.inl false := s2.1 hf2
          subst hr2
          refine ⟨false, rfl, ?_⟩
          constructor
          · intro h; simp at h
          · rintro ⟨_, _, hall⟩
            obtain ⟨d, hd, hrec⟩ := hf2
            obtain ⟨hdp, hnone⟩ := (hmemrem d).mp hd
            have := hall d ((hmem d).mp hdp)
            rw [firstRecordLists_eq, hnone] at this
            simp only [hrec] at this
            simp at this
        · have hnf2 : ∀ d ∈ rem, recordOf L content (decodeSigInfoFile L) who d
              (sigInfoFilePath trees) ≠ some false := by
            intro d hd h
            exact hf2 ⟨d, hd, h⟩
          by_cases ha2 : ∀ d ∈ rem, recordOf L content (decodeSigInfoFile L) who d
              (sigInfoFilePath trees) = some true
          · have hr2 : r2 = Sum.inl true := (s2.2 hnf2).1 ⟨hremne, ha2⟩
            subst hr2
            refine ⟨true, rfl, ?_⟩
            constructor
            · intro _
              refine ⟨ho, hs, ?_⟩
              intro d hd
              have hdp := (hmem d).mpr hd
              rw [firstRecordLists_eq]
              rcases optionBool_cases (recordOf L content (decodeOwnerFile L) who d
                (ownerFilePath trees)) with h | h | h
              · rw [h]
                simp only
                rw [ha2 d ((hmemrem d).mpr ⟨hdp, h⟩)]
              · rw [h]
              · exact absurd h (hnf1 d hdp)
            · intro _; rfl
          · obtain ⟨rem2, hrem2, _⟩ := (s2.2 hnf2).2 (fun h => ha2 h.2)
            subst hrem2
            refine ⟨false, rfl, ?_⟩
            constructor
            · intro h; simp at h
            · rintro ⟨_, _, hall⟩
              exfalso
              apply ha2
              intro d hd
              obtain ⟨hdp, hnone⟩ := (hmemrem d).mp hd
              rcases optionBool_cases (recordOf L content (decodeSigInfoFile L) who d
                (sigInfoFilePath trees)) with h | h | h
              · have := hall d ((hmem d).mp hdp)
                rw [firstRecordLists_eq, hnone] at this
                simp only [h] at this
                simp at this
              · exact h
              · exact absurd h (hnf2 d hd)

/-- C4: let the changed paths of a merge request pass the path constraint and lie in
two distinct directories, for an identity without direct permission, on a platform
whose answers for the changed paths, the tree and the file contents do not change
during the call. `hasPermission` with the ownership check returns `b, nil` where `b`
is `true` exactly when the tree lists an OWNERS path and a sig-info path and, for each
of the two directories, its first owner record (its first OWNERS file in listing
order, or without one its first sig-info file) is fetched and lists the lower-cased
identity. So it returns `false` as soon as the identity is missing from the owner
record of one directory, or a directory has none, and `true` only if the identity is
listed for both; in particular `true` needs some record of each directory to list it. -/
theorem C4_two_directories_need_both {σ : Type} (L : Lib) (cli : iClient σ)
    (commenter : String) (commenterID : Int) (e : MergeCommentEvent) (cfg : botConfig)
    (s : σ) (changes : List String) (trees : List TreeNode)
    (content : String → Except Err (Option File)) (d1 d2 : String)
    (hdirect : (cli.GetUserPermissionOfProject e.ProjectID commenterID s).1 = .ok false)
    (hchanges : ∀ st, (cli.GetMergeRequestChanges e.ProjectID e.MergeRequestIID st).1
      = .ok changes)
    (htree : ∀ st, (cli.GetDirectoryTree e.ProjectID ⟨cfg.SigsDir, "master", true⟩ st).1
      = .ok trees)
    (hread : ∀ st o, (cli.GetPathContent e.ProjectID o "master" st).1 = content o)
    (hcons : ∀ f ∈ changes, f ≠ "" → cfg.regSigDir f = true ∧ strings.CountSlash f ≤ 2 ∧
      (L.Dir f = d1 ∨ L.Dir f = d2))
    (h1 : ∃ f ∈ changes, f ≠ "" ∧ L.Dir f = d1)
    (h2 : ∃ f ∈ changes, f ≠ "" ∧ L.Dir f = d2)
    (_hdist : d1 ≠ d2) :
    (hasPermission L cli commenter commenterID true e cfg ⟨s, []⟩).1 =
      (!(ownerFilePath trees).isEmpty && !(sigInfoFilePath trees).isEmpty &&
        firstRecordLists L content (ownerFilePath trees) (sigInfoFilePath trees)
          (L.ToLower commenter) d1 &&
        firstRecordLists L content (ownerFilePath trees) (sigInfoFilePath trees)
          (L.ToLower commenter) d2, none) ∧
    ((firstRecordLists L content (ownerFilePath trees) (sigInfoFilePath trees)
          (L.ToLower commenter) d1 = false ∨
      firstRecordLists L content (ownerFilePath trees) (sigInfoFilePath trees)
          (L.ToLower commenter) d2 = false) →
      (hasPermission L cli commenter commenterID true e cfg ⟨s, []⟩).1 = (false, none)) ∧
    ((hasPermission L cli commenter commenterID true e cfg ⟨s, []⟩).1.1 = true →
      listedIn L content (ownerFilePath trees) (sigInfoFilePath trees) (L.ToLower commenter) d1
        = true ∧
      listedIn L content (ownerFilePath trees) (sigInfoFilePath trees) (L.ToLower commenter) d2
        = true) ∧
    ((listedIn L content (ownerFilePath trees) (sigInfoFilePath trees) (L.ToLower commenter) d1
        = false ∨
      listedIn L content (ownerFilePath trees) (sigInfoFilePath trees) (L.ToLower commenter) d2
        = false) →
      (hasPermission L cli commenter commenterID true e cfg ⟨s, []⟩).1 = (false, none)) := by
  have hhp : (hasPermission L cli commenter commenterID true e cfg ⟨s, []⟩).1 =
      (isOwnerOfSig L cli (L.ToLower commenter) e cfg
        (invoke (Call.GetUserPermissionOfProject e.ProjectID commenterID)
          (cli.GetUserPermissionOfProject e.ProjectID commenterID) ⟨s, []⟩).2).1 := by
    unfold hasPermission
    rw [invoke_eq (Call.GetUserPermissionOfProject _ _)]
    have hd2 : (cli.GetUserPermissionOfProject e.ProjectID commenterID
        ({ st := s, trace := [] } : World σ).st).1 = .ok false := hdirect
    rw [hd2]
    simp
  obtain ⟨b, hb, hiff⟩ := isOwnerOfSig_all L cli (L.ToLower commenter) e cfg
    (invoke (Call.GetUserPermissionOfProject e.ProjectID commenterID)
      (cli.GetUserPermissionOfProject e.ProjectID commenterID) ⟨s, []⟩).2
    changes trees content hchanges htree hread
    (fun f hf hfn => ⟨(hcons f hf hfn).1, (hcons f hf hfn).2.1⟩)
    (by obtain ⟨f, hf, hfn, _⟩ := h1; exact ⟨f, hf, hfn⟩)
  obtain ⟨b2, hb2, hlist⟩ := isOwnerOfSig_sound L cli (L.ToLower commenter) e cfg
    (invoke (Call.GetUserPermissionOfProject e.ProjectID commenterID)
      (cli.GetUserPermissionOfProject e.ProjectID commenterID) ⟨s, []⟩).2
    changes trees content hchanges htree hread
  have hbb : b2 = b := by
    rw [hb] at hb2
    simp only [Prod.mk.injEq, and_true] at hb2
    exact hb2.symm
  subst hbb
  rw [hhp, hb]
  have hboth : b2 = true ↔
      (ownerFilePath trees ≠ [] ∧ sigInfoFilePath trees ≠ [] ∧
        firstRecordLists L content (ownerFilePath trees) (sigInfoFilePath trees)
          (L.ToLower commenter) d1 = true ∧
        firstRecordLists L content (ownerFilePath trees) (sigInfoFilePath trees)
          (L.ToLower commenter) d2 = true) := by
    rw [hiff]
    constructor
    · rintro ⟨ho, hs, hall⟩
      exact ⟨ho, hs, hall d1 h1, hall d2 h2⟩
    · rintro ⟨ho, hs, hf1, hf2⟩
      refine ⟨ho, hs, ?_⟩
      rintro d ⟨f, hf, hfn, hfd⟩
      rcases (hcons f hf hfn).2.2 with h | h
      · rw [← hfd, h]; exact hf1
      · rw [← hfd, h]; exact hf2
  refine ⟨?_, ?_, ?_, ?_⟩
  · have : b2 = (!(ownerFilePath trees).isEmpty && !(sigInfoFilePath trees).isEmpty &&
        firstRecordLists L content (ownerFilePath trees) (sigInfoFilePath trees)
          (L.ToLower commenter) d1 &&
        firstRecordLists L content (ownerFilePath trees) (sigInfoFilePath trees)
          (L.ToLower commenter) d2) := by
      rw [Bool.eq_iff_iff, hboth]
      simp only [Bool.and_eq_true, Bool.not_eq_true', List.isEmpty_eq_false, ne_eq]
      tauto
    rw [← this]
  · intro hnot
    cases hbv : b2 with
    | false => rfl
    | true =>
      have := hboth.mp hbv
      rcases hnot with h | h
      · rw [this.2.2.1] at h; simp at h
      · rw [this.2.2.2] at h; simp at h
  · intro hbt
    exact ⟨hlist hbt d1 h1, hlist hbt d2 h2⟩
  · intro hnot
    cases hbv : b2 with
    | false => rfl
    | true =>
      have := hlist hbv
      rcases hnot with h | h
      · rw [this d1 h1] at h; simp at h
      · rw [this d2 h2] at h; simp at h

/-- Witness of C4 on a request that touches `sig/foo` and `sig/bar`: `carol` is in the
OWNERS file of both; `alice` owns `sig/foo` only; `dave` is in the OWNERS file of
`sig/bar` and in the sig-info file of `sig/foo`, so some record of each directory
lists `dave`, but not in the OWNERS file of `sig/foo`, which is the record read. -/
theorem C4_two_directories_need_both_witness :
    (hasPermission plainLib
      (repoClient ["sig/foo/a.go", "sig/bar/b.go"] twoSigTree twoSigFiles)
      "Carol" 200 true checkEvent (plainConfig 1) ⟨(), []⟩).1 = (true, none) ∧
    (hasPermission plainLib
      (repoClient ["sig/foo/a.go", "sig/bar/b.go"] twoSigTree twoSigFiles)
      "Alice" 200 true checkEvent (plainConfig 1) ⟨(), []⟩).1 = (false, none) ∧
    (listedIn plainLib (repoContent sharedSigFiles) (ownerFilePath (twoSigTree.map TreeNode.mk))
        (sigInfoFilePath (twoSigTree.map TreeNode.mk)) "dave" "sig/foo" = true ∧
      listedIn plainLib (repoContent sharedSigFiles) (ownerFilePath (twoSigTree.map TreeNode.mk))
        (sigInfoFilePath (twoSigTree.map TreeNode.mk)) "dave" "sig/bar" = true ∧
      (hasPermission plainLib
        (repoClient ["sig/foo/a.go", "sig/bar/b.go"] twoSigTree sharedSigFiles)
        "Dave" 200 true checkEvent (plainConfig 1) ⟨(), []⟩).1 = (false, none)) :=
  ⟨(C4_two_directories_need_both plainLib
      (repoClient ["sig/foo/a.go", "sig/bar/b.go"] twoSigTree twoSigFiles)
      "Carol" 200 checkEvent (plainConfig 1) () ["sig/foo/a.go", "sig/bar/b.go"]
      (twoSigTree.map TreeNode.mk) (repoContent twoSigFiles) "sig/foo" "sig/bar"
      rfl (fun _ => rfl) (fun _ => rfl)
      (fun _ o => by
        simp only [repoClient, repoContent]
        cases twoSigFiles o <;> rfl)
      (by decide) (by decide) (by decide) (by decide)).1.trans (by decide),
   (C4_two_directories_need_both plainLib
      (repoClient ["sig/foo/a.go", "sig/bar/b.go"] twoSigTree twoSigFiles)
      "Alice" 200 checkEvent (plainConfig 1) () ["sig/foo/a.go", "sig/bar/b.go"]
      (twoSigTree.map TreeNode.mk) (repoContent twoSigFiles) "sig/foo" "sig/bar"
      rfl (fun _ => rfl) (fun _ => rfl)
      (fun _ o => by
        simp only [repoClient, repoContent]
        cases twoSigFiles o <;> rfl)
      (by decide) (by decide) (by decide) (by decide)).2.1 (Or.inr (by decide)),
   ⟨by decide, by decide,
    (C4_two_directories_need_both plainLib
      (repoClient ["sig/foo/a.go", "sig/bar/b.go"] twoSigTree sharedSigFiles)
      "Dave" 200 checkEvent (plainConfig 1) () ["sig/foo/a.go", "sig/bar/b.go"]
      (twoSigTree.map TreeNode.mk) (repoContent sharedSigFiles) "sig/foo" "sig/bar"
      rfl (fun _ => rfl) (fun _ => rfl)
      (fun _ o => by
        simp only [repoClient, repoContent]
        cases sharedSigFiles o <;> rfl)
      (by decide) (by decide) (by decide) (by decide)).2.1 (Or.inl (by decide))⟩⟩

/-- A loop of `isOwnerOfSig` when every touched directory is `d`: the first file of
`files` in `d` decides. -/
theorem recordLoop_single {σ : Type} (L : Lib) (cli : iClient σ) (decode : String → List String)
    (pid : Int) (who : String) (content : String → Except Err (Option File))
    (hread : ∀ st o, (cli.GetPathContent pid o "master" st).1 = content o) (d : String) :
    ∀ (files paths : List String) (w : World σ), d ∈ paths → (∀ x ∈ paths, x = d) →
      (recordLoop L cli decode pid who files paths w).1 =
        match files.find? (fun o => L.Dir o == d) with
        | some o =>
          Sum.inl (match content o with
            | .ok (some f) => sets.Has (decode f.Content) who
            | _ => false)
        | none => Sum.inr paths := by
  intro files
  induction files with
  | nil => intro paths w _ _; rfl
  | cons o rest ih =>
    intro paths w hd hall
    unfold recordLoop
    by_cases hdo : L.Dir o = d
    · have hhas : sets.Has paths (L.Dir o) = true := by
        rw [hdo, sets.Has_iff]; exact hd
      have hfind : (o :: rest).find? (fun o => L.Dir o == d) = some o := by
        simp [List.find?, hdo]
      rw [hfind]
      simp only [hhas, Bool.not_true, Bool.false_eq_true, if_false]
      rw [invoke_eq (Call.GetPathContent _ _ _), hread]
      cases hc : content o with
      | error err => rfl
      | ok fo =>
        cases fo with
        | none => rfl
        | some f =>
          simp only
          by_cases hl : sets.Has (decode f.Content) who = true
          · have hnil : sets.Delete paths (L.Dir o) = [] := by
              simp only [sets.Delete, List.filter_eq_nil_iff]
              intro x hx
              simp [hall x hx, hdo]
            simp [hl, hnil]
          · have hl2 : sets.Has (decode f.Content) who = false := by simpa using hl
            simp [hl2]
    · have hhas : sets.Has paths (L.Dir o) = false := by
        cases h : sets.Has paths (L.Dir o) with
        | false => rfl
        | true => exact absurd (hall _ ((sets.Has_iff _ _).mp h)) hdo
      have hbeq : (L.Dir o == d) = false := by simpa using hdo
      have hfind : (o :: rest).find? (fun o => L.Dir o == d)
          = rest.find? (fun o => L.Dir o == d) := by
        simp [List.find?, hbeq]
      rw [hfind]
      simp only [hhas, Bool.not_false, if_true]
      exact ih paths w hd hall

/-- What `isOwnerOfSig` answers when every changed path passes the constraint and lies
in the directory `d`, and the tree lists an OWNERS path and a sig-info path. -/
theorem isOwnerOfSig_single {σ : Type} (L : Lib) (cli : iClient σ) (who : String)
    (e : MergeCommentEvent) (cfg : botConfig) (w : World σ)
    (changes : List String) (trees : List TreeNode)
    (content : String → Except Err (Option File)) (d : String)
    (hchanges : ∀ st, (cli.GetMergeRequestChanges e.ProjectID e.MergeRequestIID st).1
      = .ok changes)
    (htree : ∀ st, (cli.GetDirectoryTree e.ProjectID ⟨cfg.SigsDir, "master", true⟩ st).1
      = .ok trees)
    (hread : ∀ st o, (cli.GetPathContent e.ProjectID o "master" st).1 = content o)
    (hcons : ∀ f ∈ changes, f ≠ "" → cfg.regSigDir f = true ∧ strings.CountSlash f ≤ 2 ∧
      L.Dir f = d)
    (hne : ∃ f ∈ changes, f ≠ "")
    (ho : ownerFilePath trees ≠ []) (hs : sigInfoFilePath trees ≠ []) :
    (isOwnerOfSig L cli who e cfg w).1 =
      (firstRecordLists L content (ownerFilePath trees) (sigInfoFilePath trees) who d, none) := by
  obtain ⟨paths, hpaths⟩ := changedDirs_isSome L cfg changes []
    (fun f hf hfn => ⟨(hcons f hf hfn).1, (hcons f hf hfn).2.1⟩)
  have hmem := changedDirs_mem L cfg changes [] paths hpaths
  have hd : d ∈ paths := by
    obtain ⟨f, hf, hfn⟩ := hne
    exact (hmem d).mpr (Or.inr ⟨f, hf, hfn, (hcons f hf hfn).2.2⟩)
  have hall : ∀ x ∈ paths, x = d := by
    intro x hx
    rcases (hmem x).mp hx with h | ⟨f, hf, hfn, hfd⟩
    · simp at h
    · rw [← hfd]; exact (hcons f hf hfn).2.2
  have hlen : ¬ (changes.length == 0) = true := by
    obtain ⟨f, hf, _⟩ := hne
    have := List.length_pos_of_mem hf
    simp only [beq_iff_eq]
    omega
  have hlen2 : ¬ ((ownerFilePath trees).length == 0 || (sigInfoFilePath trees).length == 0)
      = true := by
    have h1 := List.length_pos.mpr ho
    have h2 := List.length_pos.mpr hs
    simp only [Bool.or_eq_true, beq_iff_eq, not_or]
    constructor <;> omega
  unfold isOwnerOfSig
  rw [invoke_eq (Call.GetMergeRequestChanges _ _), hchanges]
  simp only
  rw [if_neg hlen, hpaths]
  simp only
  unfold listDirectoryTree
  rw [invoke_eq (Call.GetDirectoryTree _ _), htree]
  simp only
  rw [if_neg hlen2]
  have h1 := recordLoop_single L cli (decodeOwnerFile L) e.ProjectID who content hread d
    (ownerFilePath trees) paths
    (invoke (Call.GetDirectoryTree e.ProjectID ⟨cfg.SigsDir, "master", true⟩)
      (cli.GetDirectoryTree e.ProjectID ⟨cfg.SigsDir, "master", true⟩)
      (invoke (Call.GetMergeRequestChanges e.ProjectID e.MergeRequestIID)
        (cli.GetMergeRequestChanges e.ProjectID e.MergeRequestIID) w).2).2 hd hall
  unfold firstRecordLists
  split
  · rename_i b w3 hr
    have hb := congrArg Prod.fst hr
    rw [h1] at hb
    split at hb
    · simp only [Sum.inl.injEq] at hb
      rw [← hb]
    · simp at hb
  · rename_i paths1 w3 hr
    have hb := congrArg Prod.fst hr
    rw [h1] at hb
    split at hb
    · simp at hb
    · rename_i hnone
      simp only [Sum.inr.injEq] at hb
      subst hb
      have h2 := recordLoop_single L cli (decodeSigInfoFile L) e.ProjectID who content hread d
        (sigInfoFilePath trees) paths w3 hd hall
      split
      · rename_i b w4 hr2
        have hb2 := congrArg Prod.fst hr2
        rw [h2] at hb2
        split at hb2
        · simp only [Sum.inl.injEq] at hb2
          rw [← hb2]
        · simp at hb2
      · rename_i p2 w4 hr2
        have hb2 := congrArg Prod.fst hr2
        rw [h2] at hb2
        split at hb2
        · simp at hb2
        · rfl

/-- C5, as the code has it: let every changed path of a merge request pass the path
constraint and lie in one directory `d`, for an identity without direct permission, on
a platform whose answers for the changed paths, the tree and the file contents do not
change during the call, and let the listing of the tree hold at least one OWNERS path
and at least one sig-info path at depth two. Then `hasPermission` with the ownership
check returns `true` exactly when the first owner record of `d` (its first OWNERS file
in listing order, or without one its first sig-info file) is fetched and lists the
lower-cased identity; it returns `false` for an identity not listed there. -/
theorem C5_single_directory_owner {σ : Type} (L : Lib) (cli : iClient σ)
    (commenter : String) (commenterID : Int) (e : MergeCommentEvent) (cfg : botConfig)
    (s : σ) (changes : List String) (trees : List TreeNode)
    (content : String → Except Err (Option File)) (d : String)
    (hdirect : (cli.GetUserPermissionOfProject e.ProjectID commenterID s).1 = .ok false)
    (hchanges : ∀ st, (cli.GetMergeRequestChanges e.ProjectID e.MergeRequestIID st).1
      = .ok changes)
    (htree : ∀ st, (cli.GetDirectoryTree e.ProjectID ⟨cfg.SigsDir, "master", true⟩ st).1
      = .ok trees)
    (hread : ∀ st o, (cli.GetPathContent e.ProjectID o "master" st).1 = content o)
    (hcons : ∀ f ∈ changes, f ≠ "" → cfg.regSigDir f = true ∧ strings.CountSlash f ≤ 2 ∧
      L.Dir f = d)
    (hne : ∃ f ∈ changes, f ≠ "")
    (ho : ownerFilePath trees ≠ []) (hs : sigInfoFilePath trees ≠ []) :
    (hasPermission L cli commenter commenterID true e cfg ⟨s, []⟩).1 =
      (firstRecordLists L content (ownerFilePath trees) (sigInfoFilePath trees)
        (L.ToLower commenter) d, none) := by
  unfold hasPermission
  rw [invoke_eq (Call.GetUserPermissionOfProject _ _)]
  have hd2 : (cli.GetUserPermissionOfProject e.ProjectID commenterID
      ({ st := s, trace := [] } : World σ).st).1 = .ok false := hdirect
  rw [hd2]
  simp only [if_true]
  exact isOwnerOfSig_single L cli (L.ToLower commenter) e cfg _ changes trees content d
    hchanges htree hread hcons hne ho hs

/-- Counterexample to C5 as stated: the changed path lies in `sig/foo`, whose OWNERS
file is in the tree and lists `alice`; the tree has no sig-info file. `hasPermission`
with the ownership check returns `false` for `alice`. -/
theorem C5_counterexample :
    strings.CountSlash "sig/foo/a.go" ≤ 2 ∧
    plainLib.Dir "sig/foo/a.go" = "sig/foo" ∧ plainLib.Dir "sig/foo/OWNERS" = "sig/foo" ∧
    ownerFilePath (["sig/foo/OWNERS", "sig/README.md"].map TreeNode.mk) = ["sig/foo/OWNERS"] ∧
    "alice" ∈ decodeOwnerFile plainLib "alice" ∧
    (hasPermission plainLib
      (repoClient ["sig/foo/a.go"] ["sig/foo/OWNERS", "sig/README.md"] ownersOnlyFiles)
      "alice" 200 true checkEvent (plainConfig 1) ⟨(), []⟩).1 = (false, none) := by
  decide

/-- Witness of C5: the request touches `sig/foo` only; `alice` is in its OWNERS file. -/
theorem C5_single_directory_owner_witness :
    (hasPermission plainLib (repoClient ["sig/foo/a.go"] twoSigTree twoSigFiles)
      "Alice" 200 true checkEvent (plainConfig 1) ⟨(), []⟩).1 = (true, none) :=
  C5_single_directory_owner plainLib (repoClient ["sig/foo/a.go"] twoSigTree twoSigFiles)
    "Alice" 200 checkEvent (plainConfig 1) () ["sig/foo/a.go"]
    (twoSigTree.map TreeNode.mk) (repoContent twoSigFiles) "sig/foo"
    rfl (fun _ => rfl) (fun _ => rfl)
    (fun _ o => by
      simp only [repoClient, repoContent]
      cases twoSigFiles o <;> rfl)
    (by decide) (by decide) (by decide) (by decide)

/-! ## The freeze gate -/

/-- What `canMerge` answers once the conflict gate and the label gates are passed: the
answer of the freeze gate, by what `getFreezeInfo` returns. -/
theorem canMerge_freeze_stage {σ : Type} (L : Lib) (cli : iClient σ) (m : mergeHelper)
    (w : World σ) (ops : List LabelEvent)
    (hstatus : m.mr.MergeStatus = canMergeStatus)
    (hops : (cli.GetMergeRequestLabelChanges m.pid m.mrID w.st).1 = .ok ops)
    (hlabels : isLabelMatched (mergeHelper.getMRLabels cli m
        (invoke (Call.GetMergeRequestLabelChanges m.pid m.mrID)
          (cli.GetMergeRequestLabelChanges m.pid m.mrID) w).2).1 m.cfg ops = []) :
    (mergeHelper.canMerge L cli m w).1 =
      match (mergeHelper.getFreezeInfo L cli m (mergeHelper.getMRLabels cli m
        (invoke (Call.GetMergeRequestLabelChanges m.pid m.mrID)
          (cli.GetMergeRequestLabelChanges m.pid m.mrID) w).2).2).1 with
      | .error (Fault.err _) => some ([], false)
      | .error Fault.nilDeref => none
      | .ok none => some ([], true)
      | .ok (some freeze) =>
        if !L.isFrozen freeze then some ([], true)
        else if m.trigger == "" then some ([], false)
        else if L.isOwner freeze m.trigger then some ([], true)
        else some ([msgFrozenWithOwner (L.Owner freeze)], false) := by
  unfold mergeHelper.canMerge
  have hs : ¬ (m.mr.MergeStatus != canMergeStatus) = true := by simp [hstatus]
  rw [if_neg hs, invoke_eq (Call.GetMergeRequestLabelChanges _ _), hops]
  simp only
  rw [hlabels]
  simp only [List.length_nil, gt_iff_lt, Nat.lt_irrefl, if_false]
  generalize mergeHelper.getFreezeInfo L cli m _ = fz
  obtain ⟨r, w3⟩ := fz
  cases r with
  | error f =>
    cases f with
    | err e => rfl
    | nilDeref => rfl
  | ok o =>
    cases o with
    | none => rfl
    | some freeze =>
      simp only
      split
      · rfl
      · split
        · rfl
        · split
          · rfl
          · rfl

/-- C11: for a merge request that passes the conflict gate and the label gates and
whose freeze lookup returns a frozen rule `F`, `canMerge` returns no reason and
`ok = true` when the trigger is not empty and is an owner in `F`; the single reason
"The target branch of PR has been frozen and it can be merge only by branch owners: "
followed by the owners of `F` joined by ", ", and `ok = false`, when the trigger is not
empty and is no owner; and `ok = false` when the trigger is empty. -/
theorem C11_freeze_gate {σ : Type} (L : Lib) (cli : iClient σ) (m : mergeHelper)
    (w : World σ) (ops : List LabelEvent) (F : L.freezeItem)
    (hstatus : m.mr.MergeStatus = canMergeStatus)
    (hops : (cli.GetMergeRequestLabelChanges m.pid m.mrID w.st).1 = .ok ops)
    (hlabels : isLabelMatched (mergeHelper.getMRLabels cli m
        (invoke (Call.GetMergeRequestLabelChanges m.pid m.mrID)
          (cli.GetMergeRequestLabelChanges m.pid m.mrID) w).2).1 m.cfg ops = [])
    (hfreeze : (mergeHelper.getFreezeInfo L cli m (mergeHelper.getMRLabels cli m
        (invoke (Call.GetMergeRequestLabelChanges m.pid m.mrID)
          (cli.GetMergeRequestLabelChanges m.pid m.mrID) w).2).2).1 = .ok (some F))
    (hfrozen : L.isFrozen F = true) :
    (m.trigger ≠ "" → L.isOwner F m.trigger = true →
      (mergeHelper.canMerge L cli m w).1 = some ([], true)) ∧
    (m.trigger ≠ "" → L.isOwner F m.trigger = false →
      (mergeHelper.canMerge L cli m w).1 =
        some (["The target branch of PR has been frozen and it can be merge only by branch owners: "
          ++ strings.Join (L.Owner F) ", "], false)) ∧
    (m.trigger = "" → (mergeHelper.canMerge L cli m w).1 = some ([], false)) := by
  rw [canMerge_freeze_stage L cli m w ops hstatus hops hlabels, hfreeze]
  simp only [hfrozen, Bool.not_true, Bool.false_eq_true, if_false]
  refine ⟨?_, ?_, ?_⟩
  · intro ht ho
    have ht2 : (m.trigger == "") = false := by simpa using ht
    simp [ht2, ho]
  · intro ht ho
    have ht2 : (m.trigger == "") = false := by simpa using ht
    simp [ht2, ho, msgFrozenWithOwner]
  · intro ht
    simp [ht]

/-- Witness of C11: the branch `master` is frozen; `release-owner` may merge, `rita`
may not, and an evaluation without a trigger is blocked. -/
theorem C11_freeze_gate_witness :
    (mergeHelper.canMerge plainLib (freezeClient "master")
        (plainHelper ["approved", "lgtm"] freezeConfig "release-owner") ⟨(), []⟩).1
      = some ([], true) ∧
    (mergeHelper.canMerge plainLib (freezeClient "master")
        (plainHelper ["approved", "lgtm"] freezeConfig "rita") ⟨(), []⟩).1
      = some (["The target branch of PR has been frozen and it can be merge only by branch owners: release-owner"], false) ∧
    (mergeHelper.canMerge plainLib (freezeClient "master")
        (plainHelper ["approved", "lgtm"] freezeConfig "") ⟨(), []⟩).1
      = some ([], false) :=
  ⟨(C11_freeze_gate plainLib (freezeClient "master")
      (plainHelper ["approved", "lgtm"] freezeConfig "release-owner") ⟨(), []⟩ cleanHistory
      "master" rfl rfl (by decide) rfl rfl).1 (by decide) (by decide),
   (C11_freeze_gate plainLib (freezeClient "master")
      (plainHelper ["approved", "lgtm"] freezeConfig "rita") ⟨(), []⟩ cleanHistory
      "master" rfl rfl (by decide) rfl rfl).2.1 (by decide) (by decide),
   (C11_freeze_gate plainLib (freezeClient "master")
      (plainHelper ["approved", "lgtm"] freezeConfig "") ⟨(), []⟩ cleanHistory
      "master" rfl rfl (by decide) rfl rfl).2.2 rfl⟩

/-- The loop of `getFreezeInfo` over `pre ++ l`, when no file of `pre` fails or holds a
rule, goes on with `l`. -/
theorem getFreezeInfoLoop_append {σ : Type} (L : Lib) (cli : iClient σ) (m : mergeHelper)
    (l : List freezeFile) : ∀ (pre : List freezeFile) (w : World σ),
    (mergeHelper.getFreezeInfoLoop L cli m pre w).1 = .ok none →
    mergeHelper.getFreezeInfoLoop L cli m (pre ++ l) w =
      mergeHelper.getFreezeInfoLoop L cli m l (mergeHelper.getFreezeInfoLoop L cli m pre w).2 := by
  intro pre
  induction pre with
  | nil => intro w _; rfl
  | cons v rest ih =>
    intro w h
    have hcons : ∀ (fs : List freezeFile),
        mergeHelper.getFreezeInfoLoop L cli m (v :: fs) w =
          match mergeHelper.getFreezeContent L cli v w with
          | (.error err, w1) => (.error err, w1)
          | (.ok fc, w1) =>
            match L.getFreezeItem fc m.org m.mr.TargetBranch with
            | some item => (.ok (some item), w1)
            | none => mergeHelper.getFreezeInfoLoop L cli m fs w1 := by
      intro fs
      rw [mergeHelper.getFreezeInfoLoop]
    rw [hcons] at h
    rw [List.cons_append, hcons, hcons]
    rcases hc : mergeHelper.getFreezeContent L cli v w with ⟨r, w1⟩
    rw [hc] at h
    cases r with
    | error err => simp at h
    | ok fc =>
      simp only at h ⊢
      cases hitem : L.getFreezeItem fc m.org m.mr.TargetBranch with
      | some item => rw [hitem] at h; simp at h
      | none =>
        rw [hitem] at h
        simp only at h ⊢
        exact ih w1 h

/-- What `getFreezeContent` returns when the project is resolved, the file is fetched
and its content does not decode. -/
theorem getFreezeContent_malformed {σ : Type} (L : Lib) (cli : iClient σ) (f : freezeFile)
    (w : World σ) (pid : Int) (c : File)
    (hpid : (mergeHelper.getFreezeProjectID cli f.Owner f.Repo w).1 = .ok pid)
    (hpid0 : pid ≠ 0)
    (hfetch : (cli.GetPathContent pid f.Path f.Branch
      (mergeHelper.getFreezeProjectID cli f.Owner f.Repo w).2.st).1 = .ok (some c))
    (hmal : (∃ e, L.base64Decode c.Content = .error e) ∨
      ∃ b e, L.base64Decode c.Content = .ok b ∧ L.unmarshalFreeze b = .error e) :
    ∃ e, (mergeHelper.getFreezeContent L cli f w).1 = .error (Fault.err e) := by
  unfold mergeHelper.getFreezeContent
  have hp : mergeHelper.getFreezeProjectID cli f.Owner f.Repo w =
      (.ok pid, (mergeHelper.getFreezeProjectID cli f.Owner f.Repo w).2) := Prod.ext hpid rfl
  rw [hp]
  simp only
  have hz : ¬ (pid == 0) = true := by simpa using hpid0
  rw [if_neg hz, invoke_eq (Call.GetPathContent _ _ _), hfetch]
  simp only
  rcases hmal with ⟨e, he⟩ | ⟨b, e, hb, he⟩
  · rw [he]
    exact ⟨e, rfl⟩
  · rw [hb]
    simp only
    rw [he]
    exact ⟨e, rfl⟩

/-- C12, as the code has it: when the content fetched for a freeze file does not decode
(its base64 or its YAML), `getFreezeContent` returns the error, `getFreezeInfo` returns
it, and `canMerge` returns `ok = false` with no reason for a merge request that passes
the conflict gate and the label gates: the request is blocked, not taken for not
frozen. The file is any file of the configured list that the lookup reaches. -/
theorem C12_malformed_freeze_file_blocks {σ : Type} (L : Lib) (cli : iClient σ)
    (m : mergeHelper) (w : World σ) (ops : List LabelEvent) (pre rest : List freezeFile)
    (v : freezeFile) (pid : Int) (c : File)
    (hstatus : m.mr.MergeStatus = canMergeStatus)
    (hops : (cli.GetMergeRequestLabelChanges m.pid m.mrID w.st).1 = .ok ops)
    (hlabels : isLabelMatched (mergeHelper.getMRLabels cli m
        (invoke (Call.GetMergeRequestLabelChanges m.pid m.mrID)
          (cli.GetMergeRequestLabelChanges m.pid m.mrID) w).2).1 m.cfg ops = [])
    (hcfg : m.cfg.FreezeFile = pre ++ v :: rest)
    (hpre : (mergeHelper.getFreezeInfoLoop L cli m pre (mergeHelper.getMRLabels cli m
        (invoke (Call.GetMergeRequestLabelChanges m.pid m.mrID)
          (cli.GetMergeRequestLabelChanges m.pid m.mrID) w).2).2).1 = .ok none)
    (hpid : (mergeHelper.getFreezeProjectID cli v.Owner v.Repo
      (mergeHelper.getFreezeInfoLoop L cli m pre (mergeHelper.getMRLabels cli m
        (invoke (Call.GetMergeRequestLabelChanges m.pid m.mrID)
          (cli.GetMergeRequestLabelChanges m.pid m.mrID) w).2).2).2).1 = .ok pid)
    (hpid0 : pid ≠ 0)
    (hfetch : (cli.GetPathContent pid v.Path v.Branch
      (mergeHelper.getFreezeProjectID cli v.Owner v.Repo
        (mergeHelper.getFreezeInfoLoop L cli m pre (mergeHelper.getMRLabels cli m
          (invoke (Call.GetMergeRequestLabelChanges m.pid m.mrID)
            (cli.GetMergeRequestLabelChanges m.pid m.mrID) w).2).2).2).2.st).1
      = .ok (some c))
    (hmal : (∃ e, L.base64Decode c.Content = .error e) ∨
      ∃ b e, L.base64Decode c.Content = .ok b ∧ L.unmarshalFreeze b = .error e) :
    (mergeHelper.canMerge L cli m w).1 = some ([], false) := by
  obtain ⟨e, he⟩ := getFreezeContent_malformed L cli v _ pid c hpid hpid0 hfetch hmal
  have hinfo : ∃ e, (mergeHelper.getFreezeInfo L cli m (mergeHelper.getMRLabels cli m
        (invoke (Call.GetMergeRequestLabelChanges m.pid m.mrID)
          (cli.GetMergeRequestLabelChanges m.pid m.mrID) w).2).2).1
      = .error (Fault.err e) := by
    unfold mergeHelper.getFreezeInfo
    rw [hcfg, getFreezeInfoLoop_append L cli m (v :: rest) pre _ hpre]
    unfold mergeHelper.getFreezeInfoLoop
    split
    · rename_i err w1 hc
      have := congrArg Prod.fst hc
      rw [he] at this
      simp only [Except.error.injEq] at this
      exact ⟨e, by rw [← this]⟩
    · rename_i fc w1 hc
      have := congrArg Prod.fst hc
      rw [he] at this
      simp at this
  obtain ⟨e2, he2⟩ := hinfo
  rw [canMerge_freeze_stage L cli m w ops hstatus hops hlabels, he2]

/-- Counterexample to C12 as stated: the request passes the conflict gate and the label
gates, the freeze file is fetched and its content `%%%` does not decode; `canMerge`
returns `ok = false`, for the owner of the release too. -/
theorem C12_counterexample :
    strictLib.base64Decode "%%%" = .error "illegal base64 data" ∧
    isLabelMatched ["approved", "lgtm"] freezeConfig cleanHistory = [] ∧
    (mergeHelper.canMerge strictLib (freezeClient "%%%")
        (plainHelper ["approved", "lgtm"] freezeConfig "release-owner") ⟨(), []⟩).1
      = some ([], false) :=
  ⟨rfl, by decide, by decide⟩

/-- Witness of C12: the only freeze file holds `%%%`. -/
theorem C12_malformed_freeze_file_blocks_witness :
    (mergeHelper.canMerge strictLib (freezeClient "%%%")
        (plainHelper ["approved", "lgtm"] freezeConfig "release-owner") ⟨(), []⟩).1
      = some ([], false) :=
  C12_malformed_freeze_file_blocks strictLib (freezeClient "%%%")
    (plainHelper ["approved", "lgtm"] freezeConfig "release-owner") ⟨(), []⟩ cleanHistory
    [] [] ⟨"infra", "release", "freeze.yaml", "master"⟩ 9 ⟨"%%%"⟩
    rfl rfl (by decide) rfl rfl rfl (by decide) rfl (Or.inl ⟨"illegal base64 data", rfl⟩)

/-! ## The trailers of the merge description -/

/-- The members of a set that `genMergeDesc` collects: those of the start set and the
authors of the comments that qualify. -/
theorem collect_mem (author : String) (reg : String → Bool) : ∀ (comments : List Note)
    (acc : List String) (u : String),
    u ∈ comments.foldl (fun s c =>
        if genMergeDescF author c reg then sets.Insert1 s c.AuthorUsername else s) acc ↔
      u ∈ acc ∨ ∃ c ∈ comments, genMergeDescF author c reg = true ∧ c.AuthorUsername = u := by
  intro comments
  induction comments with
  | nil => intro acc u; simp
  | cons c rest ih =>
    intro acc u
    rw [List.foldl_cons, ih]
    by_cases hq : genMergeDescF author c reg = true
    · simp only [hq, if_true, sets.mem_Insert1, List.mem_cons]
      constructor
      · rintro ((h | h) | ⟨c2, hc2, hq2, hu⟩)
        · exact Or.inl h
        · exact Or.inr ⟨c, Or.inl rfl, hq, h.symm⟩
        · exact Or.inr ⟨c2, Or.inr hc2, hq2, hu⟩
      · rintro (h | ⟨c2, hc2 | hc2, hq2, hu⟩)
        · exact Or.inl (Or.inl h)
        · subst hc2; exact Or.inl (Or.inr hu.symm)
        · exact Or.inr ⟨c2, hc2, hq2, hu⟩
    · simp only [hq, Bool.false_eq_true, if_false, List.mem_cons]
      constructor
      · rintro (h | ⟨c2, hc2, hq2, hu⟩)
        · exact Or.inl h
        · exact Or.inr ⟨c2, Or.inr hc2, hq2, hu⟩
      · rintro (h | ⟨c2, hc2 | hc2, hq2, hu⟩)
        · exact Or.inl h
        · subst hc2; exact absurd hq2 hq
        · exact Or.inr ⟨c2, hc2, hq2, hu⟩

theorem collect_nodup (author : String) (reg : String → Bool) : ∀ (comments : List Note)
    (acc : List String), acc.Nodup →
    (comments.foldl (fun s c =>
        if genMergeDescF author c reg then sets.Insert1 s c.AuthorUsername else s) acc).Nodup := by
  intro comments
  induction comments with
  | nil => intro acc h; simpa using h
  | cons c rest ih =>
    intro acc h
    rw [List.foldl_cons]
    apply ih
    split
    · exact sets.nodup_Insert1 acc _ h
    · exact h

theorem genMergeDescF_iff (author : String) (c : Note) (reg : String → Bool) :
    genMergeDescF author c reg = true ↔
      reg c.Body = true ∧ c.UpdatedAt = c.CreatedAt ∧ c.AuthorUsername ≠ author := by
  simp [genMergeDescF, and_assoc]

/-- C13: when the comments of a merge request with author `A` are read, the text of
`genMergeDesc` is built from a list of reviewers and a list of signers, each without a
repeated identity: an identity is a reviewer exactly when some comment by it matches
the lgtm-add pattern, has its updated timestamp equal to its created timestamp (by
their renderings) and the identity is not `A`; a signer likewise with the approve-add
pattern. When one of the lists is not empty the text is
"From: @A \nReviewed-by: @<reviewers joined by ', @'> \nSigned-off-by: @<signers
joined by ', @'> \n"; when both are empty it is the empty text. -/
theorem C13_genMergeDesc_trailers {σ : Type} (L : Lib) (cli : iClient σ) (m : mergeHelper)
    (w : World σ) (comments : List Note)
    (hread : (cli.ListMergeRequestComments m.pid m.mrID w.st).1 = .ok comments) :
    ∃ reviewers signers : List String, reviewers.Nodup ∧ signers.Nodup ∧
      (∀ u, u ∈ reviewers ↔ ∃ c ∈ comments, c.AuthorUsername = u ∧
        L.regAddLgtm c.Body = true ∧ c.UpdatedAt = c.CreatedAt ∧ u ≠ m.author) ∧
      (∀ u, u ∈ signers ↔ ∃ c ∈ comments, c.AuthorUsername = u ∧
        L.regAddApprove c.Body = true ∧ c.UpdatedAt = c.CreatedAt ∧ u ≠ m.author) ∧
      ((reviewers ≠ [] ∨ signers ≠ []) →
        (mergeHelper.genMergeDesc L cli m w).1 =
          "From: @" ++ m.author ++ " \nReviewed-by: @" ++ strings.Join reviewers ", @"
            ++ " \nSigned-off-by: @" ++ strings.Join signers ", @" ++ " \n") ∧
      (reviewers = [] ∧ signers = [] → (mergeHelper.genMergeDesc L cli m w).1 = "") := by
  refine ⟨comments.foldl (fun s c =>
      if genMergeDescF m.author c L.regAddLgtm then sets.Insert1 s c.AuthorUsername else s) [],
    comments.foldl (fun s c =>
      if genMergeDescF m.author c L.regAddApprove then sets.Insert1 s c.AuthorUsername else s) [],
    collect_nodup _ _ comments [] List.nodup_nil,
    collect_nodup _ _ comments [] List.nodup_nil, ?_, ?_, ?_, ?_⟩
  · intro u
    rw [collect_mem]
    simp only [List.not_mem_nil, false_or, genMergeDescF_iff]
    constructor
    · rintro ⟨c, hc, ⟨h1, h2, h3⟩, hu⟩
      exact ⟨c, hc, hu, h1, h2, by rw [← hu]; exact h3⟩
    · rintro ⟨c, hc, hu, h1, h2, h3⟩
      exact ⟨c, hc, ⟨h1, h2, by rw [hu]; exact h3⟩, hu⟩
  · intro u
    rw [collect_mem]
    simp only [List.not_mem_nil, false_or, genMergeDescF_iff]
    constructor
    · rintro ⟨c, hc, ⟨h1, h2, h3⟩, hu⟩
      exact ⟨c, hc, hu, h1, h2, by rw [← hu]; exact h3⟩
    · rintro ⟨c, hc, hu, h1, h2, h3⟩
      exact ⟨c, hc, ⟨h1, h2, by rw [hu]; exact h3⟩, hu⟩
  · intro hne
    unfold mergeHelper.genMergeDesc
    rw [invoke_eq (Call.ListMergeRequestComments _ _), hread]
    simp only
    have hc : ¬ (comments.length == 0) = true := by
      intro h
      have h0 : comments = [] := by simpa using h
      subst h0
      simp at hne
    rw [if_neg hc]
    have hboth : ¬ ((comments.foldl (fun s c =>
          if genMergeDescF m.author c L.regAddApprove then sets.Insert1 s c.AuthorUsername
          else s) []).length == 0 &&
        (comments.foldl (fun s c =>
          if genMergeDescF m.author c L.regAddLgtm then sets.Insert1 s c.AuthorUsername
          else s) []).length == 0) = true := by
      simp only [Bool.and_eq_true, beq_iff_eq, List.length_eq_zero, not_and]
      intro hs hr
      rcases hne with h | h
      · exact h hr
      · exact h hs
    rw [if_neg hboth]
  · rintro ⟨hr, hs⟩
    unfold mergeHelper.genMergeDesc
    rw [invoke_eq (Call.ListMergeRequestComments _ _), hread]
    simp only
    split
    · rfl
    · rw [hr, hs]
      rfl

/-- Witness of C13: `rita` says `/lgtm`, `sam` says `/approved`; the edited second
`/lgtm` of `rita` and the `/lgtm` of the author do not count. -/
theorem C13_genMergeDesc_trailers_witness :
    (mergeHelper.genMergeDesc plainLib (commentClient reviewComments)
        (plainHelper ["approved", "lgtm"] (plainConfig 1) "rita") ⟨(), []⟩).1
      = "From: @author \nReviewed-by: @rita \nSigned-off-by: @sam \n" ∧
    ∃ reviewers signers : List String, reviewers.Nodup ∧ signers.Nodup ∧
      (∀ u, u ∈ reviewers ↔ ∃ c ∈ reviewComments, c.AuthorUsername = u ∧
        plainLib.regAddLgtm c.Body = true ∧ c.UpdatedAt = c.CreatedAt ∧ u ≠ "author") ∧
      (∀ u, u ∈ signers ↔ ∃ c ∈ reviewComments, c.AuthorUsername = u ∧
        plainLib.regAddApprove c.Body = true ∧ c.UpdatedAt = c.CreatedAt ∧ u ≠ "author") ∧
      ((reviewers ≠ [] ∨ signers ≠ []) →
        (mergeHelper.genMergeDesc plainLib (commentClient reviewComments)
            (plainHelper ["approved", "lgtm"] (plainConfig 1) "rita") ⟨(), []⟩).1 =
          "From: @" ++ "author" ++ " \nReviewed-by: @" ++ strings.Join reviewers ", @"
            ++ " \nSigned-off-by: @" ++ strings.Join signers ", @" ++ " \n") ∧
      (reviewers = [] ∧ signers = [] →
        (mergeHelper.genMergeDesc plainLib (commentClient reviewComments)
            (plainHelper ["approved", "lgtm"] (plainConfig 1) "rita") ⟨(), []⟩).1 = "") :=
  ⟨by decide,
   C13_genMergeDesc_trailers plainLib (commentClient reviewComments)
    (plainHelper ["approved", "lgtm"] (plainConfig 1) "rita") ⟨(), []⟩ reviewComments rfl⟩

/-- The trace of `genMergeDesc` is the read of the comments. -/
theorem genMergeDesc_trace_eq {σ : Type} (L : Lib) (cli : iClient σ) (m : mergeHelper)
    (w : World σ) :
    (mergeHelper.genMergeDesc L cli m w).2.trace =
      w.trace ++ [⟨Call.ListMergeRequestComments m.pid m.mrID,
        isError (cli.ListMergeRequestComments m.pid m.mrID w.st).1⟩] := by
  unfold mergeHelper.genMergeDesc
  split
  · rename_i h
    have h1 : (cli.ListMergeRequestComments m.pid m.mrID w.st).1 = Except.error _ :=
      congrArg Prod.fst h
    rw [h1]
    exact invoke_error_trace h
  · rename_i h
    have h1 : (cli.ListMergeRequestComments m.pid m.mrID w.st).1 = Except.ok _ :=
      congrArg Prod.fst h
    rw [h1]
    have ht := invoke_ok_trace h
    split
    · exact ht
    · simp only
      split
      · exact ht
      · exact ht

/-- The text of `genMergeDesc` is empty when the comments cannot be read and when no
comment qualifies for either role. -/
theorem genMergeDesc_empty {σ : Type} (L : Lib) (cli : iClient σ) (m : mergeHelper)
    (w : World σ)
    (hno : isError (cli.ListMergeRequestComments m.pid m.mrID w.st).1 = true ∨
      ∃ comments, (cli.ListMergeRequestComments m.pid m.mrID w.st).1 = .ok comments ∧
        ∀ c ∈ comments, genMergeDescF m.author c L.regAddLgtm = false ∧
          genMergeDescF m.author c L.regAddApprove = false) :
    (mergeHelper.genMergeDesc L cli m w).1 = "" := by
  unfold mergeHelper.genMergeDesc
  rw [invoke_eq (Call.ListMergeRequestComments _ _)]
  rcases hno with herr | ⟨comments, hread, hnone⟩
  · cases h : (cli.ListMergeRequestComments m.pid m.mrID w.st).1 with
    | error e => rfl
    | ok a => rw [h] at herr; simp [isError] at herr
  · rw [hread]
    simp only
    have hr : comments.foldl (fun s c =>
        if genMergeDescF m.author c L.regAddLgtm then sets.Insert1 s c.AuthorUsername else s) []
        = [] := by
      rw [List.eq_nil_iff_forall_not_mem]
      intro u hu
      rw [collect_mem] at hu
      rcases hu with h | ⟨c, hc, hq, _⟩
      · simp at h
      · rw [(hnone c hc).1] at hq; simp at hq
    have hs : comments.foldl (fun s c =>
        if genMergeDescF m.author c L.regAddApprove then sets.Insert1 s c.AuthorUsername
        else s) [] = [] := by
      rw [List.eq_nil_iff_forall_not_mem]
      intro u hu
      rw [collect_mem] at hu
      rcases hu with h | ⟨c, hc, hq, _⟩
      · simp at h
      · rw [(hnone c hc).2] at hq; simp at hq
    split
    · rfl
    · rw [hr, hs]
      rfl

/-- C14, as the code has it: when the comments yield no reviewer and no signer, or
cannot be read, `genMergeDesc` returns the empty text, and `merge` sends an update
whose description is set, to that empty text, next to empty lists of assignees and
reviewers: the calls of `merge` are the read of the comments, this update, and the
merge when the update succeeded. -/
theorem C14_empty_trailer_is_sent {σ : Type} (L : Lib) (cli : iClient σ) (m : mergeHelper)
    (s : σ)
    (hno : isError (cli.ListMergeRequestComments m.pid m.mrID s).1 = true ∨
      ∃ comments, (cli.ListMergeRequestComments m.pid m.mrID s).1 = .ok comments ∧
        ∀ c ∈ comments, genMergeDescF m.author c L.regAddLgtm = false ∧
          genMergeDescF m.author c L.regAddApprove = false) :
    (mergeHelper.genMergeDesc L cli m ⟨s, []⟩).1 = "" ∧
    ∃ failed tail, (∀ ev ∈ tail, ∀ p i o, ev.call ≠ Call.UpdateMergeRequest p i o) ∧
      (mergeHelper.merge L cli m ⟨s, []⟩).2.trace =
        ⟨Call.ListMergeRequestComments m.pid m.mrID,
            isError (cli.ListMergeRequestComments m.pid m.mrID s).1⟩ ::
          ⟨Call.UpdateMergeRequest m.pid m.mrID ⟨some "", some [], some []⟩, failed⟩ :: tail := by
  have hempty := genMergeDesc_empty L cli m ⟨s, []⟩ hno
  have htrace := genMergeDesc_trace_eq L cli m ⟨s, []⟩
  refine ⟨hempty, ?_⟩
  unfold mergeHelper.merge
  have hpair : mergeHelper.genMergeDesc L cli m ⟨s, []⟩ =
      ("", (mergeHelper.genMergeDesc L cli m ⟨s, []⟩).2) := Prod.ext hempty rfl
  rw [hpair]
  simp only
  split
  · rename_i err w2 hu
    refine ⟨true, [], by simp, ?_⟩
    rw [invoke_error_trace hu, htrace]
    rfl
  · rename_i a w2 hu
    refine ⟨false, [⟨Call.MergeMergeRequest m.pid m.mrID,
      isError (cli.MergeMergeRequest m.pid m.mrID w2.st).1⟩], by simp, ?_⟩
    simp only [invoke, invoke_ok_trace hu, htrace, List.nil_append, List.cons_append]

/-- Counterexample to C14 as stated: the request has no comment, `genMergeDesc` returns
the empty text, and the update that `merge` sends carries a description, the empty
text, which replaces the one the request had. -/
theorem C14_counterexample :
    (mergeHelper.genMergeDesc plainLib quietClient
        (plainHelper ["approved", "lgtm"] (plainConfig 1) "rita") ⟨(), []⟩).1 = "" ∧
    (mergeHelper.merge plainLib quietClient
        (plainHelper ["approved", "lgtm"] (plainConfig 1) "rita") ⟨(), []⟩).2.trace =
      [⟨Call.ListMergeRequestComments 1 7, false⟩,
       ⟨Call.UpdateMergeRequest 1 7 ⟨some "", some [], some []⟩, false⟩,
       ⟨Call.MergeMergeRequest 1 7, false⟩] ∧
    (⟨some "", some [], some []⟩ : UpdateMergeRequestOptions).Description ≠ none := by
  decide

/-- Witness of C14: the comments of the request cannot be qualified because there are
none. -/
theorem C14_empty_trailer_is_sent_witness :
    (mergeHelper.genMergeDesc plainLib quietClient
        (plainHelper ["approved", "lgtm"] (plainConfig 1) "rita") ⟨(), []⟩).1 = "" ∧
    ∃ failed tail, (∀ ev ∈ tail, ∀ p i o, ev.call ≠ Call.UpdateMergeRequest p i o) ∧
      (mergeHelper.merge plainLib quietClient
          (plainHelper ["approved", "lgtm"] (plainConfig 1) "rita") ⟨(), []⟩).2.trace =
        ⟨Call.ListMergeRequestComments 1 7, false⟩ ::
          ⟨Call.UpdateMergeRequest 1 7 ⟨some "", some [], some []⟩, failed⟩ :: tail :=
  C14_empty_trailer_is_sent plainLib quietClient
    (plainHelper ["approved", "lgtm"] (plainConfig 1) "rita") ()
    (Or.inr ⟨[], rfl, by simp⟩)

/-! ## The lgtm label of a commenter -/

/-- C15: `genLGTMLabel(c, n)` is "lgtm" when `n ≤ 1`; otherwise it is "lgtm-" followed
by `c` lower-cased, cut to its first 20 characters when longer than 20. The result
begins with "lgtm", is at most 20 long, and is the same for two names with the same
lower-casing. -/
theorem C15_genLGTMLabel_shape (L : Lib) (c : String) (n : Nat) :
    (n ≤ 1 → genLGTMLabel L c n = "lgtm") ∧
    (1 < n → genLGTMLabel L c n =
      if ("lgtm-" ++ L.ToLower c).length > 20 then
        String.mk (("lgtm-" ++ L.ToLower c).data.take 20)
      else "lgtm-" ++ L.ToLower c) ∧
    strings.HasPrefix (genLGTMLabel L c n) "lgtm" = true ∧
    (genLGTMLabel L c n).length ≤ 20 ∧
    (∀ c2, L.ToLower c2 = L.ToLower c → genLGTMLabel L c2 n = genLGTMLabel L c n) := by
  have hpre : lgtmLabel ++ "-" ++ L.ToLower c = "lgtm-" ++ L.ToLower c := by
    apply String.ext
    simp [String.data_append, lgtmLabel]
  refine ⟨?_, ?_, ?_, ?_, ?_⟩
  · intro h
    simp [genLGTMLabel, h, lgtmLabel]
  · intro h
    have h1 : ¬ n ≤ 1 := by omega
    simp only [genLGTMLabel, h1, if_false, hpre, labelLenLimit]
  · unfold genLGTMLabel
    split
    · decide
    · rw [hpre]
      split
      · simp [strings.HasPrefix, String.data_append, labelLenLimit, List.isPrefixOf]
      · simp [strings.HasPrefix, String.data_append, List.isPrefixOf]
  · unfold genLGTMLabel
    split
    · decide
    · split
      · simp only [String.length, labelLenLimit, List.length_take]
        omega
      · rename_i hlen
        simp only [labelLenLimit, gt_iff_lt, not_lt] at hlen
        exact hlen
  · intro c2 h
    simp only [genLGTMLabel, h]

/-- Witness of C15: a name of 21 characters, under threshold 2, in two spellings. -/
theorem C15_genLGTMLabel_shape_witness :
    genLGTMLabel plainLib "ALEXANDRIA-Montgomery" 2 = "lgtm-alexandria-mont" ∧
    genLGTMLabel plainLib "alexandria-montgomery" 2
      = genLGTMLabel plainLib "ALEXANDRIA-Montgomery" 2 ∧
    genLGTMLabel plainLib "ALEXANDRIA-Montgomery" 1 = "lgtm" :=
  ⟨by decide,
   (C15_genLGTMLabel_shape plainLib "ALEXANDRIA-Montgomery" 2).2.2.2.2
     "alexandria-montgomery" (by decide),
   (C15_genLGTMLabel_shape plainLib "ALEXANDRIA-Montgomery" 1).1 (by decide)⟩

/-! ## The latest log of a label -/

theorem getLatestLogLoop_skip (label : String) : ∀ (l : List LabelEvent) (i : Nat)
    (index : Int) (t : Nat), (∀ x ∈ l, isAddOf label x = false) →
    getLatestLogLoop label l i index t = (index, t) := by
  intro l
  induction l with
  | nil => intro i index t _; rfl
  | cons x rest ih =>
    intro i index t h
    have hx : isAddOf label x = false := h x (List.mem_cons_self x rest)
    have h1 : (x.Action != ActionAddLabel || !strings.Contains x.LabelName label) = true := by
      simp only [isAddOf, Bool.and_eq_false_iff, beq_eq_false_iff_ne] at hx
      rcases hx with ha | hc
      · simp [ha]
      · simp [hc]
    unfold getLatestLogLoop
    simp only [h1, if_true]
    exact ih (i + 1) index t (fun y hy => h y (List.mem_cons_of_mem x hy))

theorem getLatestLog_none (label : String) (ops : List LabelEvent)
    (h : ∀ x ∈ ops, isAddOf label x = false) :
    getLatestLog ops label = (⟨"", "", 0⟩, false) := by
  unfold getLatestLog
  rw [getLatestLogLoop_skip label ops 0 (-1) 0 h]
  rfl

/-- A history with an add event for `label` splits at the latest of them, the first
listed among the latest. -/
theorem exists_latest (label : String) : ∀ (ops : List LabelEvent),
    (∃ x ∈ ops, isAddOf label x = true) →
    ∃ pre e post, ops = pre ++ e :: post ∧ isAddOf label e = true ∧
      (∀ x ∈ pre, isAddOf label x = true → x.CreatedAt < e.CreatedAt) ∧
      (∀ x ∈ post, isAddOf label x = true → x.CreatedAt ≤ e.CreatedAt) := by
  intro ops
  induction ops with
  | nil => rintro ⟨x, hx, _⟩; simp at hx
  | cons x rest ih =>
    intro _
    by_cases hrest : ∃ y ∈ rest, isAddOf label y = true
    · obtain ⟨pre, e, post, hsplit, he, hpre, hpost⟩ := ih hrest
      by_cases hx : isAddOf label x = true ∧ e.CreatedAt ≤ x.CreatedAt
      · refine ⟨[], x, rest, rfl, hx.1, by simp, ?_⟩
        intro y hy hya
        rw [hsplit] at hy
        rcases List.mem_append.mp hy with h | h
        · have := hpre y h hya
          omega
        · rcases List.mem_cons.mp h with rfl | h
          · exact hx.2
          · have := hpost y h hya
            omega
      · refine ⟨x :: pre, e, post, by rw [hsplit]; rfl, he, ?_, hpost⟩
        intro y hy hya
        rcases List.mem_cons.mp hy with rfl | h
        · by_contra hlt
          exact hx ⟨hya, by omega⟩
        · exact hpre y h hya
    · have hx : isAddOf label x = true := by
        rename_i hex
        obtain ⟨y, hy, hya⟩ := hex
        rcases List.mem_cons.mp hy with rfl | h
        · exact hya
        · exact absurd ⟨y, h, hya⟩ hrest
      refine ⟨[], x, rest, rfl, hx, by simp, ?_⟩
      intro y hy hya
      exact absurd ⟨y, hy, hya⟩ hrest

/-- The selection of `getLatestLog(ops, L)`: it considers only the add events whose
label NAME CONTAINS `L` as a substring (never a remove event, never an event whose
label name does not contain `L`, but an add event of another label whose name
contains `L` counts): its answer is that for the history filtered to those events.
When there is one it answers with the actor of the latest, the first listed among the
latest; it answers not-found exactly when there is none or the selected event has an
empty actor. -/
theorem getLatestLog_selection (ops : List LabelEvent) (label : String) :
    getLatestLog ops label =
      getLatestLog (ops.filter (fun op =>
        op.Action == ActionAddLabel && strings.Contains op.LabelName label)) label ∧
    ((∀ x ∈ ops, ¬ (x.Action = ActionAddLabel ∧ strings.Contains x.LabelName label = true)) →
      getLatestLog ops label = (⟨"", "", 0⟩, false)) ∧
    ((∃ x ∈ ops, x.Action = ActionAddLabel ∧ strings.Contains x.LabelName label = true) →
      ∃ pre e post, ops = pre ++ e :: post ∧
        (e.Action = ActionAddLabel ∧ strings.Contains e.LabelName label = true) ∧
        (∀ x ∈ pre, x.Action = ActionAddLabel → strings.Contains x.LabelName label = true →
          x.CreatedAt < e.CreatedAt) ∧
        (∀ x ∈ post, x.Action = ActionAddLabel → strings.Contains x.LabelName label = true →
          x.CreatedAt ≤ e.CreatedAt) ∧
        getLatestLog ops label =
          if e.Username = "" then (⟨"", "", 0⟩, false)
          else (⟨label, e.Username, e.CreatedAt⟩, true)) := by
  have hiff : ∀ x : LabelEvent, isAddOf label x = true ↔
      (x.Action = ActionAddLabel ∧ strings.Contains x.LabelName label = true) := by
    intro x
    simp [isAddOf]
  have hnone : (∀ x ∈ ops, ¬ (x.Action = ActionAddLabel ∧
      strings.Contains x.LabelName label = true)) →
      getLatestLog ops label = (⟨"", "", 0⟩, false) := by
    intro h
    apply getLatestLog_none
    intro x hx
    cases hv : isAddOf label x with
    | false => rfl
    | true => exact absurd ((hiff x).mp hv) (h x hx)
  have hsel : ∀ (pre post : List LabelEvent) (e : LabelEvent), isAddOf label e = true →
      (∀ x ∈ pre, isAddOf label x = true → x.CreatedAt < e.CreatedAt) →
      (∀ x ∈ post, isAddOf label x = true → x.CreatedAt ≤ e.CreatedAt) →
      getLatestLog (pre ++ e :: post) label =
        if e.Username = "" then (⟨"", "", 0⟩, false)
        else (⟨label, e.Username, e.CreatedAt⟩, true) := by
    intro pre post e he hpre hpost
    rw [getLatestLog_select label pre post e he hpre hpost]
    by_cases hu : e.Username = ""
    · simp [hu]
    · simp [hu]
  refine ⟨?_, hnone, ?_⟩
  · by_cases hex : ∃ x ∈ ops, isAddOf label x = true
    · obtain ⟨pre, e, post, hsplit, he, hpre, hpost⟩ := exists_latest label ops hex
      have hfilter : ops.filter (fun op =>
          op.Action == ActionAddLabel && strings.Contains op.LabelName label)
          = pre.filter (isAddOf label) ++ e :: post.filter (isAddOf label) := by
        have hfun : (fun op : LabelEvent =>
            op.Action == ActionAddLabel && strings.Contains op.LabelName label)
            = isAddOf label := rfl
        rw [hfun, hsplit, List.filter_append, List.filter_cons, he]
        rfl
      rw [hfilter]
      rw [hsel _ _ e he (fun x hx => hpre x (List.mem_filter.mp hx).1)
        (fun x hx => hpost x (List.mem_filter.mp hx).1)]
      rw [hsplit]
      exact hsel pre post e he hpre hpost
    · have hall : ∀ x ∈ ops, isAddOf label x = false := by
        intro x hx
        cases hv : isAddOf label x with
        | false => rfl
        | true => exact absurd ⟨x, hx, hv⟩ hex
      have hfilter : ops.filter (fun op =>
          op.Action == ActionAddLabel && strings.Contains op.LabelName label) = [] := by
        rw [List.filter_eq_nil_iff]
        intro x hx
        have := hall x hx
        simpa [isAddOf] using this
      rw [hfilter, getLatestLog_none label ops hall]
      rfl
  · rintro ⟨x, hx, hxa⟩
    obtain ⟨pre, e, post, hsplit, he, hpre, hpost⟩ :=
      exists_latest label ops ⟨x, hx, (hiff x).mpr hxa⟩
    refine ⟨pre, e, post, hsplit, (hiff e).mp he, ?_, ?_, ?_⟩
    · intro y hy h1 h2
      exact hpre y hy ((hiff y).mpr ⟨h1, h2⟩)
    · intro y hy h1 h2
      exact hpost y hy ((hiff y).mpr ⟨h1, h2⟩)
    · rw [hsplit]
      exact hsel pre post e he hpre hpost

/-- An instance of the selection: a history with a remove event of `lgtm` and an add
event of `approved`. -/
theorem getLatestLog_selection_example :
    getLatestLog [⟨"remove", "lgtm", "wanghao", 4⟩, ⟨"add", "approved", "wanghao", 6⟩] "lgtm"
      = (⟨"", "", 0⟩, false) :=
  (getLatestLog_selection
    [⟨"remove", "lgtm", "wanghao", 4⟩, ⟨"add", "approved", "wanghao", 6⟩] "lgtm").2.1
    (by decide)

/-- C16, the code at histories that hold an add event of `lgtm-bob`. A history with
no event of the label `lgtm` itself, only an add event of `lgtm-bob` by the bot:
`getLatestLog` for `lgtm` does not answer not-found, it reports the actor of that
event. A history where `lgtm` was added by the bot and later `lgtm-bob` was added by
`mallory` and removed again: `getLatestLog` for `lgtm` reports `mallory`, the actor of
an event of a different label, although the only add event of `lgtm` is by the bot;
and for the request labelled `approved` and `lgtm` (threshold 1) `isLabelMatched`
returns the reason that `mallory` added `lgtm`. The test of the label name in the loop
is `strings.Contains`, so an event of `lgtm-bob` counts as an event of `lgtm`. -/
theorem C16_getLatestLog_takes_namesake :
    (∀ x ∈ [(⟨"add", "lgtm-bob", "wanghao", 9⟩ : LabelEvent)], x.LabelName ≠ "lgtm") ∧
    getLatestLog [⟨"add", "lgtm-bob", "wanghao", 9⟩] "lgtm"
      = (⟨"lgtm", "wanghao", 9⟩, true) ∧
    (∀ x ∈ [(⟨"add", "lgtm", "wanghao", 5⟩ : LabelEvent), ⟨"add", "lgtm-bob", "mallory", 9⟩,
        ⟨"remove", "lgtm-bob", "mallory", 10⟩],
      x.Action = "add" → x.LabelName = "lgtm" → x.Username = legalLabelsAddedBy) ∧
    getLatestLog [⟨"add", "lgtm", "wanghao", 5⟩, ⟨"add", "lgtm-bob", "mallory", 9⟩,
        ⟨"remove", "lgtm-bob", "mallory", 10⟩] "lgtm"
      = (⟨"lgtm", "mallory", 9⟩, true) ∧
    isLabelMatched ["approved", "lgtm"] (plainConfig 1)
        [⟨"add", "approved", "wanghao", 1⟩, ⟨"add", "lgtm", "wanghao", 5⟩,
         ⟨"add", "lgtm-bob", "mallory", 9⟩, ⟨"remove", "lgtm-bob", "mallory", 10⟩]
      = ["**The following label is not ready**.\n\nlgtm: mallory You can't add lgtm by yourself, please contact the maintainers\n"] := by
  decide

/-! ## The request that `handleLabelUpdate` evaluates -/

/-- C17, the code at a merge event for request 7 of project 1: `handleLabelUpdate`
fetches that request, then reads the label history of request 0 of project 0; on a
platform that knows request 7 of project 1 only that read fails and nothing is merged,
and on a platform that answers every call the comment read, the update and the merge
are issued for request 0 of project 0. On the same platform `tryMerge` issues them for
request 7 of project 1. -/
theorem C17_handleLabelUpdate_zero_ids :
    (handleLabelUpdate plainLib idClient updateEvent (plainConfig 1) ⟨(), []⟩).2.trace =
      [⟨Call.GetMergeRequest 1 7, false⟩, ⟨Call.GetMergeRequestLabelChanges 0 0, true⟩] ∧
    (handleLabelUpdate plainLib readyClient updateEvent (plainConfig 1) ⟨(), []⟩).2.trace =
      [⟨Call.GetMergeRequest 1 7, false⟩, ⟨Call.GetMergeRequestLabelChanges 0 0, false⟩,
       ⟨Call.ListMergeRequestComments 0 0, false⟩,
       ⟨Call.UpdateMergeRequest 0 0 ⟨some "", some [], some []⟩, false⟩,
       ⟨Call.MergeMergeRequest 0 0, false⟩] ∧
    (tryMerge plainLib idClient checkEvent (plainConfig 1) false ⟨(), []⟩).2.trace =
      [⟨Call.GetMergeRequest 1 7, false⟩, ⟨Call.GetMergeRequestLabelChanges 1 7, false⟩,
       ⟨Call.GetMergeRequestLabels 1 7, false⟩, ⟨Call.ListMergeRequestComments 1 7, false⟩,
       ⟨Call.UpdateMergeRequest 1 7 ⟨some "", some [], some []⟩, false⟩,
       ⟨Call.MergeMergeRequest 1 7, false⟩] := by
  decide

end Review
